import Mathlib

/-!
# decoderx: the schema-driven HTTP body decoder

A shallow embedding of `decoderx/http.go`.  The decoder's own functions
(`newHTTPDecoderOptions`, `validateRequest`, `validatePayload`, `Decode`,
`decodeJSONForm`, `decodeForm`, `decodeJSON`, `decodeURLValues`) are transcribed
statement by statement.  Everything the decoder imports (strconv, sjson, gjson,
net/http, jsonschema, httpx, stringslice) is either a field of an environment
record, so that theorems hold for every behaviour of the library, or a small
model that is named as such and used to evaluate the decoder on concrete inputs.

Part 1 holds the definitions, Part 2 the lemmas and theorems.
-/

namespace decoderx

/-! ## Part 1: definitions -/

/-! ### Values exchanged with the libraries -/

/-- Go `float64` values as the decoder sees them: it never computes with one, it
only hands the result of `strconv.ParseFloat` on to `sjson.SetBytes`.  A finite
value is kept as the decimal `±mantissa·10^exponent`. -/
inductive Float64
  | finite (negative : Bool) (mantissa : Nat) (exponent : Int)
  | inf (negative : Bool)
  | nan
deriving DecidableEq, Repr

/-- The Go zero value `float64(0)`. -/
def Float64.zero : Float64 := .finite false 0 0

/-- The `*strconv.NumError` that `strconv.ParseFloat` and `strconv.ParseBool` return. -/
structure NumError where
  Func : String
  Num : String
  Err : String
deriving DecidableEq, Repr

/-- The values the decoder passes to `sjson.SetBytes` as `interface{}`:
a `string`, a `[]string`, a `float64` or a `bool`. -/
inductive Value
  | str (s : String)
  | strs (l : List String)
  | float (f : Float64)
  | bool (b : Bool)
deriving DecidableEq, Repr

/-- JSON documents as trees.  A number carries the `float64` whose formatting
sjson writes into the document, so the tokens `+Inf` and `NaN`, which sjson writes
without complaint, are representable. -/
inductive Json
  | null
  | bool (b : Bool)
  | number (f : Float64)
  | string (s : String)
  | array (xs : List Json)
  | object (kvs : List (String × Json))
deriving Repr

mutual
/-- Decidable equality of JSON trees. -/
def Json.decEq : (a b : Json) → Decidable (a = b)
  | .null, b =>
    match b with
    | .null => isTrue rfl
    | .bool _ | .number _ | .string _ | .array _ | .object _ => isFalse nofun
  | .bool x, b =>
    match b with
    | .bool y => if h : x = y then isTrue (congrArg Json.bool h)
                 else isFalse (fun e => h (Json.bool.inj e))
    | .null | .number _ | .string _ | .array _ | .object _ => isFalse nofun
  | .number x, b =>
    match b with
    | .number y => if h : x = y then isTrue (congrArg Json.number h)
                   else isFalse (fun e => h (Json.number.inj e))
    | .null | .bool _ | .string _ | .array _ | .object _ => isFalse nofun
  | .string x, b =>
    match b with
    | .string y => if h : x = y then isTrue (congrArg Json.string h)
                   else isFalse (fun e => h (Json.string.inj e))
    | .null | .bool _ | .number _ | .array _ | .object _ => isFalse nofun
  | .array x, b =>
    match b with
    | .array y =>
      match Json.decEqList x y with
      | isTrue h => isTrue (congrArg Json.array h)
      | isFalse h => isFalse (fun e => h (Json.array.inj e))
    | .null | .bool _ | .number _ | .string _ | .object _ => isFalse nofun
  | .object x, b =>
    match b with
    | .object y =>
      match Json.decEqFields x y with
      | isTrue h => isTrue (congrArg Json.object h)
      | isFalse h => isFalse (fun e => h (Json.object.inj e))
    | .null | .bool _ | .number _ | .string _ | .array _ => isFalse nofun
/-- Decidable equality of lists of JSON trees. -/
def Json.decEqList : (a b : List Json) → Decidable (a = b)
  | [], [] => isTrue rfl
  | [], _ :: _ => isFalse nofun
  | _ :: _, [] => isFalse nofun
  | x :: xs, y :: ys =>
    match Json.decEq x y, Json.decEqList xs ys with
    | isTrue h, isTrue t => isTrue (by rw [h, t])
    | isFalse h, _ => isFalse (fun e => h (List.cons.inj e).1)
    | _, isFalse t => isFalse (fun e => t (List.cons.inj e).2)
/-- Decidable equality of the member lists of JSON objects. -/
def Json.decEqFields : (a b : List (String × Json)) → Decidable (a = b)
  | [], [] => isTrue rfl
  | [], _ :: _ => isFalse nofun
  | _ :: _, [] => isFalse nofun
  | (k, x) :: xs, (l, y) :: ys =>
    if hk : k = l then
      match Json.decEq x y, Json.decEqFields xs ys with
      | isTrue h, isTrue t => isTrue (by rw [hk, h, t])
      | isFalse h, _ => isFalse (fun e => h (Prod.mk.inj (List.cons.inj e).1).2)
      | _, isFalse t => isFalse (fun e => t (List.cons.inj e).2)
    else isFalse (fun e => hk (Prod.mk.inj (List.cons.inj e).1).1)
end

instance : DecidableEq Json := Json.decEq

/-- A `json.RawMessage`: `none` is the nil byte slice, which is what
`sjson.SetBytes` returns next to an error. -/
abbrev RawMessage := Option Json

/-- The literal `{}` the canonical body starts from. -/
def emptyObject : RawMessage := some (.object [])

/-! ### Errors -/

/-- The `herodot.DefaultError` value, with the fields the decoder fills in. -/
structure DefaultError where
  CodeField : Nat
  StatusField : String
  ErrorField : String
  ReasonField : String
  DebugField : String
  DetailsField : List (String × String)
deriving DecidableEq, Repr

/-- The library value `herodot.ErrBadRequest` (HTTP 400). -/
def ErrBadRequest : DefaultError :=
  { CodeField := 400, StatusField := "Bad Request",
    ErrorField := "The request was malformed or contained invalid parameters",
    ReasonField := "", DebugField := "", DetailsField := [] }

/-- The library value `herodot.ErrInternalServerError` (HTTP 500). -/
def ErrInternalServerError : DefaultError :=
  { CodeField := 500, StatusField := "Internal Server Error",
    ErrorField := "An internal server error occurred, please contact the system administrator",
    ReasonField := "", DebugField := "", DetailsField := [] }

/-- The method `WithReasonf`, applied to the already formatted reason. -/
def DefaultError.WithReasonf (e : DefaultError) (reason : String) : DefaultError :=
  { e with ReasonField := reason }

/-- The method `WithDebug`. -/
def DefaultError.WithDebug (e : DefaultError) (debug : String) : DefaultError :=
  { e with DebugField := debug }

/-- The method `WithDetail`: `DetailsField[key] = message`. -/
def DefaultError.WithDetail (e : DefaultError) (key message : String) : DefaultError :=
  { e with DetailsField := e.DetailsField.filter (fun kv => kv.1 != key) ++ [(key, message)] }

/-- The lookup `DetailsField[key]`. -/
def DefaultError.detail (e : DefaultError) (key : String) : Option String :=
  e.DetailsField.lookup key

/-- A Go `error` as the decoder returns it, and the one way a decoder function
ends without returning: a run-time panic.  `errors.WithStack` adds a stack trace
and changes nothing the caller inspects, so it is the identity here. -/
inductive Error
  | herodot (e : DefaultError)
  | validation (message : String)
  | plain (message : String)
  | goPanic (message : String)
deriving DecidableEq, Repr

/-- True for a `herodot.ErrBadRequest` derived error. -/
def Error.isBadRequest : Error → Bool
  | .herodot e => e.CodeField == 400
  | _ => false

/-- True for a `herodot.ErrInternalServerError` derived error. -/
def Error.isInternalServerError : Error → Bool
  | .herodot e => e.CodeField == 500
  | _ => false

/-- The detail `key` of a herodot error, `none` for any other error. -/
def Error.detail : Error → String → Option String
  | .herodot e, key => e.detail key
  | _, _ => none

/-! ### Configuration -/

/-- A `*jsonschema.Compiler`: the flag the options set and the resources added to it. -/
structure Compiler where
  ExtractAnnotations : Bool
  resources : List (String × String)
deriving DecidableEq, Repr

/-- The library constructor `jsonschema.NewCompiler()`. -/
def NewCompiler : Compiler := { ExtractAnnotations := false, resources := [] }

/-- The struct `httpDecoderOptions`; `parseErrorStrategy` and the depth are `uint8`. -/
structure httpDecoderOptions where
  keepRequestBody : Bool
  allowedContentTypes : List String
  allowedHTTPMethods : List String
  jsonSchemaRef : String
  jsonSchemaCompiler : Option Compiler
  jsonSchemaValidate : Bool
  maxCircularReferenceDepth : Nat
  handleParseErrors : Nat
  expectJSONFlattened : Bool
deriving DecidableEq, Repr

/-- The function type `HTTPDecoderOption func(*httpDecoderOptions)`, as the update it performs. -/
abbrev HTTPDecoderOption := httpDecoderOptions → httpDecoderOptions

def httpContentTypeMultipartForm : String := "multipart/form-data"
def httpContentTypeURLEncodedForm : String := "application/x-www-form-urlencoded"
def httpContentTypeJSON : String := "application/json"

/-- The constant `iota + 1`. -/
def ParseErrorIgnoreConversionErrors : Nat := 1
def ParseErrorUseEmptyValueOnConversionErrors : Nat := 2
def ParseErrorReturnOnConversionErrors : Nat := 3

def HTTPFormDecoder : HTTPDecoderOption := fun o =>
  { o with allowedContentTypes := [httpContentTypeMultipartForm, httpContentTypeURLEncodedForm] }

def HTTPJSONDecoder : HTTPDecoderOption := fun o =>
  { o with allowedContentTypes := [httpContentTypeJSON] }

def HTTPKeepRequestBody (keep : Bool) : HTTPDecoderOption := fun o =>
  { o with keepRequestBody := keep }

def HTTPDecoderSetValidatePayloads (validate : Bool) : HTTPDecoderOption := fun o =>
  { o with jsonSchemaValidate := validate }

def HTTPDecoderJSONFollowsFormFormat : HTTPDecoderOption := fun o =>
  { o with expectJSONFlattened := true }

def HTTPDecoderAllowedMethods (method : List String) : HTTPDecoderOption := fun o =>
  { o with allowedHTTPMethods := method }

def HTTPDecoderSetIgnoreParseErrorsStrategy (strategy : Nat) : HTTPDecoderOption := fun o =>
  { o with handleParseErrors := strategy }

def HTTPDecoderSetMaxCircularReferenceDepth (depth : Nat) : HTTPDecoderOption := fun o =>
  { o with maxCircularReferenceDepth := depth }

/-- The option `HTTPJSONSchemaCompiler(ref, compiler)`; a nil compiler is replaced by a new one. -/
def HTTPJSONSchemaCompiler (ref : String) (compiler : Option Compiler) : HTTPDecoderOption := fun o =>
  let compiler := match compiler with
    | none => NewCompiler
    | some c => c
  let compiler := { compiler with ExtractAnnotations := true }
  { o with jsonSchemaCompiler := some compiler, jsonSchemaRef := ref, jsonSchemaValidate := true }

/-- The loop `for _, f := range fs { f(o) }` of `newHTTPDecoderOptions`. -/
def applyOptions : List HTTPDecoderOption → httpDecoderOptions → httpDecoderOptions
  | [], o => o
  | f :: fs, o => applyOptions fs (f o)

def newHTTPDecoderOptions (fs : List HTTPDecoderOption) : httpDecoderOptions :=
  let o : httpDecoderOptions :=
    { keepRequestBody := false
      allowedContentTypes :=
        [httpContentTypeMultipartForm, httpContentTypeURLEncodedForm, httpContentTypeJSON]
      allowedHTTPMethods := ["POST", "PUT", "PATCH"]
      jsonSchemaRef := ""
      jsonSchemaCompiler := none
      jsonSchemaValidate := false
      maxCircularReferenceDepth := 5
      handleParseErrors := ParseErrorIgnoreConversionErrors
      expectJSONFlattened := false }
  applyOptions fs o

/-! ### url.Values -/

/-- A `url.Values` (`map[string][]string`), as its entries in the order `range`
visits them; a Go map has one entry per key. -/
abbrev Values := List (String × List String)

/-- The index expression `values[key]`: nil when the key is absent. -/
def Values.index (values : Values) (key : String) : List String :=
  match values.lookup key with
  | some vs => vs
  | none => []

/-- The method `url.Values.Get`: the first value of the key, or the empty string. -/
def Values.Get (values : Values) (key : String) : String :=
  match Values.index values key with
  | [] => ""
  | v :: _ => v

/-- The method `url.Values.Set`: `v[key] = []string{value}`; the entry of the key
is replaced where it stands, a new key gets a new entry. -/
def Values.Set : Values → String → String → Values
  | [], key, value => [(key, [value])]
  | (k, vs) :: rest, key, value =>
    if k = key then (k, [value]) :: rest else (k, vs) :: Values.Set rest key value

/-- The keys `for key := range values` visits. -/
def Values.keys (values : Values) : List String := values.map Prod.fst

/-! ### Schema paths -/

/-- The dynamic type of `jsonschemax.Path.Type`, one constructor per `case` of the
type switch in `decodeURLValues`, and `other` for every type the switch has no case for. -/
inductive PathType
  | strings      -- []string
  | floats       -- []float64
  | bools        -- []bool
  | interfaces   -- []interface{}
  | bool         -- bool
  | float        -- float64
  | string       -- string
  | object       -- map[string]interface{}
  | objects      -- []map[string]interface{}
  | other
deriving DecidableEq, Repr

/-- The fields of `jsonschemax.Path` the decoder reads: `Name` and `Type`
(a reserved word here, hence `Type_`). -/
structure Path where
  Name : String
  Type_ : PathType
deriving DecidableEq, Repr

/-! ### Requests -/

/-- An `io.ReadCloser`: the bytes not read yet, and the error the stream ends
with instead of `io.EOF` (if any). -/
structure Body where
  unread : String
  failure : Option String
deriving DecidableEq, Repr

/-- The call `ioutil.NopCloser(bytes.NewBuffer(bodyBytes))`. -/
def NopCloser (bodyBytes : String) : Body :=
  { unread := bodyBytes, failure := none }

/-- The call `ioutil.ReadAll`: the stream after the read, and the bytes or the error. -/
def ReadAll (b : Body) : Body × Except String String :=
  match b.failure with
  | some err => ({ b with unread := "" }, .error err)
  | none => ({ b with unread := "" }, .ok b.unread)

/-- The fields of `*http.Request` the decoder uses; `ContentType` is
`r.Header.Get("Content-Type")`. -/
structure Request where
  Method : String
  ContentLength : Int
  ContentType : String
  Body : Body
  PostForm : Values
deriving DecidableEq, Repr

/-- A compiled `*jsonschema.Schema`, known by the reference it was compiled from. -/
structure Schema where
  ref : String
deriving DecidableEq, Repr

/-- The error of `(*jsonschema.Schema).Validate`: a `*jsonschema.ValidationError`, or any other error. -/
inductive SchemaError
  | validationError (message : String)
  | otherError (message : String)
deriving DecidableEq, Repr

/-- The bytes handed to the JSON decoder and to the validator: the request body
as read (`decodeJSON`), or the canonical body built by `decodeURLValues`. -/
inductive Payload
  | body (bytes : String)
  | canonical (raw : RawMessage)
deriving DecidableEq, Repr

/-! ### The libraries the decoder calls -/

/-- The library functions the decoder calls, as parameters: every theorem stated
for an arbitrary `Env` holds whatever these functions compute.  A Go function
that returns `(value, error)` returns the pair where the caller uses the value
next to an error, and an `Except` where it does not. -/
structure Env where
  /-- The function `strings.ToUpper`. -/
  ToUpper : String → String
  /-- The function `strconv.Quote`, used by `(*NumError).Error`. -/
  Quote : String → String
  /-- The call `strconv.ParseFloat(s, 64)`. -/
  ParseFloat : String → Float64 × Option NumError
  /-- The function `sjson.SetBytes(json, path, value)`. -/
  SetBytes : RawMessage → String → Value → RawMessage × Option String
  /-- Whether a `Content-Type` header value names the given media type. -/
  MatchesContentType : String → String → Bool
  /-- The method `(*jsonschema.Compiler).Compile`. -/
  Compile : Compiler → String → Except String Schema
  /-- The method `(*jsonschema.Schema).Validate`. -/
  Validate : Schema → Payload → Option SchemaError
  /-- The function `jsonschemax.ListPathsWithRecursion`. -/
  ListPathsWithRecursion : String → Compiler → Nat → Except String (List Path)
  /-- The method `(*http.Request).ParseForm`: the request with `PostForm` filled
  in and the body consumed, and the error. -/
  ParseForm : Request → Request × Option String
  /-- The document `json.NewDecoder(reader).Decode(&interim)` reads from the bytes
  of the stream, as `gjson.ParseBytes` then sees it. -/
  DecodeInterim : String → Except String Json
  /-- The method `gjson.Result.String` on a number, an array or an object. -/
  ResultRaw : Json → String
  /-- The type of the value `destination` points to. -/
  Dest : Type
  /-- The call `json.Unmarshal(raw, destination)`: the destination afterwards, and the error. -/
  Unmarshal : Payload → Dest → Dest × Option String
  /-- The call `json.NewDecoder(bytes.NewReader(raw)).Decode(destination)`. -/
  DecodeInto : Payload → Dest → Dest × Option String

/-- The method `(*strconv.NumError).Error`. -/
def NumError.Error (E : Env) (e : NumError) : String :=
  "strconv." ++ e.Func ++ ": parsing " ++ E.Quote e.Num ++ ": " ++ e.Err

/-- The function `strconv.ParseBool`: a fixed table of twelve spellings, and on
any other input the pair `(false, syntax error)`. -/
def ParseBool (str : String) : Bool × Option NumError :=
  if str ∈ ["1", "t", "T", "TRUE", "true", "True"] then (true, none)
  else if str ∈ ["0", "f", "F", "FALSE", "false", "False"] then (false, none)
  else (false, some { Func := "ParseBool", Num := str, Err := "invalid syntax" })

/-- The function `strconv.Itoa` on the indices `range` yields (never negative). -/
def Itoa (k : Nat) : String := Nat.repr k

/-! ### decodeURLValues -/

/-- The loop `for k, v := range values[key]` of `case []float64`.  Every
`raw, err = sjson.SetBytes(...)` in it assigns the `err` declared by
`if f, err := strconv.ParseFloat(v, 64)`, whose scope is that `if` statement
with its `else`: the function-level `err` is not touched, only `raw` leaves the loop. -/
def rangeFloat64 (E : Env) (o : httpDecoderOptions) (key : String) (path : Path) :
    Nat → List String → RawMessage → Except Error RawMessage
  | _, [], raw => .ok raw
  | k, v :: vs, raw =>
    match E.ParseFloat v with
    | (f, some err) =>
      if o.handleParseErrors = ParseErrorIgnoreConversionErrors then
        rangeFloat64 E o key path (k + 1) vs
          (E.SetBytes raw (path.Name ++ "." ++ Itoa k) (.str v)).1
      else if o.handleParseErrors = ParseErrorUseEmptyValueOnConversionErrors then
        rangeFloat64 E o key path (k + 1) vs
          (E.SetBytes raw (path.Name ++ "." ++ Itoa k) (.float f)).1
      else if o.handleParseErrors = ParseErrorReturnOnConversionErrors then
        .error (.herodot
          (((((ErrBadRequest.WithReasonf "Expected value to be a number.").WithDetail
            "parse_error" (err.Error E)).WithDetail
            "name" key).WithDetail
            "index" (Itoa k)).WithDetail
            "value" v))
      else rangeFloat64 E o key path (k + 1) vs raw
    | (f, none) =>
      rangeFloat64 E o key path (k + 1) vs
        (E.SetBytes raw (path.Name ++ "." ++ Itoa k) (.float f)).1

/-- The loop `for k, v := range values[key]` of `case []bool`; `err` is scoped as in `rangeFloat64`. -/
def rangeBool (E : Env) (o : httpDecoderOptions) (key : String) (path : Path) :
    Nat → List String → RawMessage → Except Error RawMessage
  | _, [], raw => .ok raw
  | k, v :: vs, raw =>
    match ParseBool v with
    | (f, some err) =>
      if o.handleParseErrors = ParseErrorIgnoreConversionErrors then
        rangeBool E o key path (k + 1) vs
          (E.SetBytes raw (path.Name ++ "." ++ Itoa k) (.str v)).1
      else if o.handleParseErrors = ParseErrorUseEmptyValueOnConversionErrors then
        rangeBool E o key path (k + 1) vs
          (E.SetBytes raw (path.Name ++ "." ++ Itoa k) (.bool f)).1
      else if o.handleParseErrors = ParseErrorReturnOnConversionErrors then
        .error (.herodot
          (((((ErrBadRequest.WithReasonf "Expected value to be a boolean.").WithDetail
            "parse_error" (err.Error E)).WithDetail
            "name" key).WithDetail
            "index" (Itoa k)).WithDetail
            "value" v))
      else rangeBool E o key path (k + 1) vs raw
    | (f, none) =>
      rangeBool E o key path (k + 1) vs
        (E.SetBytes raw (path.Name ++ "." ++ Itoa k) (.bool f)).1

/-- The statement `switch path.Type.(type)` for a matched key.  The result is
`.error` where the source returns from the function (or panics), and otherwise the
pair of `raw` and the function-level `err` as they stand after the switch. -/
def switchPathType (E : Env) (values : Values) (o : httpDecoderOptions) (key : String)
    (path : Path) (raw : RawMessage) : Except Error (RawMessage × Option String) :=
  match path.Type_ with
  | .strings => .ok (E.SetBytes raw path.Name (.strs (Values.index values key)))
  | .floats =>
    match rangeFloat64 E o key path 0 (Values.index values key) raw with
    | .error e => .error e
    | .ok raw => .ok (raw, none)
  | .bools =>
    match rangeBool E o key path 0 (Values.index values key) raw with
    | .error e => .error e
    | .ok raw => .ok (raw, none)
  | .interfaces => .ok (E.SetBytes raw path.Name (.strs (Values.index values key)))
  | .bool =>
    -- v := values[key][len(values[key])-1]
    match (Values.index values key).getLast? with
    | none => .error (.goPanic "runtime error: index out of range [-1]")
    | some v =>
      match ParseBool v with
      | (f, some err) =>
        if o.handleParseErrors = ParseErrorIgnoreConversionErrors then
          .ok ((E.SetBytes raw path.Name (.str v)).1, none)
        else if o.handleParseErrors = ParseErrorUseEmptyValueOnConversionErrors then
          .ok ((E.SetBytes raw path.Name (.bool f)).1, none)
        else if o.handleParseErrors = ParseErrorReturnOnConversionErrors then
          .error (.herodot
            ((((ErrBadRequest.WithReasonf "Expected value to be a boolean.").WithDetail
              "parse_error" (err.Error E)).WithDetail
              "name" key).WithDetail
              "value" (Values.Get values key)))
        else .ok (raw, none)
      | (f, none) => .ok ((E.SetBytes raw path.Name (.bool f)).1, none)
  | .float =>
    let v := Values.Get values key
    match E.ParseFloat v with
    | (f, some err) =>
      if o.handleParseErrors = ParseErrorIgnoreConversionErrors then
        .ok ((E.SetBytes raw path.Name (.str v)).1, none)
      else if o.handleParseErrors = ParseErrorUseEmptyValueOnConversionErrors then
        .ok ((E.SetBytes raw path.Name (.float f)).1, none)
      else if o.handleParseErrors = ParseErrorReturnOnConversionErrors then
        .error (.herodot
          ((((ErrBadRequest.WithReasonf "Expected value to be a number.").WithDetail
            "parse_error" (err.Error E)).WithDetail
            "name" key).WithDetail
            "value" (Values.Get values key)))
      else .ok (raw, none)
    | (f, none) => .ok ((E.SetBytes raw path.Name (.float f)).1, none)
  | .string => .ok (E.SetBytes raw path.Name (.str (Values.Get values key)))
  | .object => .ok (E.SetBytes raw path.Name (.str (Values.Get values key)))
  | .objects => .ok (E.SetBytes raw path.Name (.strs (Values.index values key)))
  | .other => .ok (raw, none)

/-- The statement `if err != nil { return nil, ... }` after the type switch. -/
def checkSetError : Except Error (RawMessage × Option String) → Except Error RawMessage
  | .error e => .error e
  | .ok (_, some err) =>
    .error (.herodot (ErrBadRequest.WithReasonf
      ("Unable to type assert values from HTTP Post Body: " ++ err)))
  | .ok (raw, none) => .ok raw

/-- The loop `for _, path := range paths` for one key: the first path whose name
equals the key runs the type switch, then `if err != nil` returns, then `break`. -/
def rangePaths (E : Env) (values : Values) (o : httpDecoderOptions) (key : String) :
    List Path → RawMessage → Except Error RawMessage
  | [], raw => .ok raw
  | path :: paths, raw =>
    if key = path.Name then checkSetError (switchPathType E values o key path raw)
    else rangePaths E values o key paths raw

/-- The loop `for key := range values`, over the keys in visiting order. -/
def rangeValues (E : Env) (values : Values) (paths : List Path) (o : httpDecoderOptions) :
    List String → RawMessage → Except Error RawMessage
  | [], raw => .ok raw
  | key :: keys, raw =>
    match rangePaths E values o key paths raw with
    | .error e => .error e
    | .ok raw => rangeValues E values paths o keys raw

def decodeURLValues (E : Env) (values : Values) (paths : List Path) (o : httpDecoderOptions) :
    Except Error RawMessage :=
  rangeValues E values paths o (Values.keys values) emptyObject

/-! ### Request validation, payload validation and dispatch -/

/-- Modelled from the spec: `stringslice.Has` (package `x/stringslice`) is not
under src/.  The spec reads the call as "HTTP method is in the allowed set":
membership of the string in the slice. -/
def Has (items : List String) (find : String) : Bool := items.contains find

/-- Modelled from the spec: `httpx.HasContentType` (package `x/httpx`) is not
under src/.  The spec reads the call as "Content-Type matches one of the allowed
types"; how a header value matches one type is left to the environment. -/
def HasContentType (E : Env) (r : Request) (mimetypes : List String) : Bool :=
  mimetypes.any (fun t => E.MatchesContentType r.ContentType t)

/-- The `%v` formatting of a `[]string`. -/
def formatStrings (l : List String) : String := "[" ++ " ".intercalate l ++ "]"

def validateRequest (E : Env) (r : Request) (c : httpDecoderOptions) : Option Error :=
  let method := E.ToUpper r.Method
  if !Has c.allowedHTTPMethods method then
    some (.herodot (ErrBadRequest.WithReasonf
      ("Unable to decode body because HTTP Request Method was \"" ++ method ++ "\" but only "
        ++ formatStrings c.allowedHTTPMethods ++ " are supported.")))
  else if r.ContentLength = 0 then
    some (.herodot (ErrBadRequest.WithReasonf
      "Unable to decode HTTP Request Body because its HTTP Header \"Content-Length\" is zero."))
  else if !HasContentType E r c.allowedContentTypes then
    some (.herodot (ErrBadRequest.WithReasonf
      ("HTTP " ++ method ++ " Request used unknown HTTP Header \"Content-Type: " ++ r.ContentType
        ++ "\", only " ++ formatStrings c.allowedContentTypes ++ " are supported.")))
  else none

def validatePayload (E : Env) (raw : Payload) (c : httpDecoderOptions) : Option Error :=
  if !c.jsonSchemaValidate then none
  else
    match c.jsonSchemaCompiler with
    | none =>
      some (.herodot (ErrInternalServerError.WithReasonf
        "JSON Schema Validation is required but no compiler was provided."))
    | some compiler =>
      match E.Compile compiler c.jsonSchemaRef with
      | .error err =>
        some (.herodot ((ErrInternalServerError.WithReasonf
          ("Unable to load JSON Schema from location: " ++ c.jsonSchemaRef)).WithDebug err))
      | .ok schema =>
        match E.Validate schema raw with
        | some (.validationError err) => some (.validation err)
        | some (.otherError err) =>
          some (.herodot ((ErrInternalServerError.WithReasonf
            ("Unable to process JSON Schema and input: " ++ err)).WithDebug err))
        | none => none

/-- The `io.ReadCloser` that `requestBody` returns: `r.Body` itself, or a buffer of its own. -/
inductive Reader
  | requestBody
  | buffer (b : Body)
deriving DecidableEq, Repr

def requestBody (r : Request) (o : httpDecoderOptions) : Request × Except Error Reader :=
  if !o.keepRequestBody then (r, .ok .requestBody)
  else
    match ReadAll r.Body with
    | (body, .error err) =>
      ({ r with Body := body }, .error (.plain ("unable to read body: " ++ err)))
    | (_, .ok bodyBytes) =>
      -- the old stream is closed and dropped: r.Body = ioutil.NopCloser(bytes.NewBuffer(bodyBytes))
      ({ r with Body := NopCloser bodyBytes }, .ok (.buffer (NopCloser bodyBytes)))

/-- Reads a reader to its end: the request (whose body is consumed when the
reader is `r.Body`), the reader afterwards, and the bytes or the error. -/
def readReader (r : Request) (reader : Reader) : Request × Reader × Except String String :=
  match reader with
  | .requestBody =>
    match ReadAll r.Body with
    | (body, res) => ({ r with Body := body }, .requestBody, res)
  | .buffer b =>
    match ReadAll b with
    | (b, res) => (r, .buffer b, res)

/-- The assignment `r.Body = reader`. -/
def setBody (r : Request) (reader : Reader) : Request :=
  match reader with
  | .requestBody => r
  | .buffer b => { r with Body := b }

/-- The method `gjson.Result.String` of a member value. -/
def ResultString (E : Env) : Json → String
  | .null => ""
  | .bool true => "true"
  | .bool false => "false"
  | .string s => s
  | v => E.ResultRaw v

/-- The method `gjson.Type.String` of a parsed document. -/
def TypeString : Json → String
  | .null => "Null"
  | .bool true => "True"
  | .bool false => "False"
  | .number _ => "Number"
  | .string _ => "String"
  | .array _ => "JSON"
  | .object _ => "JSON"

/-- The loop `parsed.ForEach(func(k, v gjson.Result) bool { values.Set(k.String(), v.String()); return true })`
over the members of an object. -/
def forEachSet (E : Env) : List (String × Json) → Values → Values
  | [], values => values
  | (k, v) :: members, values => forEachSet E members (Values.Set values k (ResultString E v))

/-- Lines 307 to 321 of `decodeJSONForm`: the object check, the flattening into
`url.Values`, and `decodeURLValues`. -/
def decodeInterim (E : Env) (interim : Json) (paths : List Path) (o : httpDecoderOptions) :
    Except Error RawMessage :=
  match interim with
  | .object members =>
    let values := forEachSet E members []
    decodeURLValues E values paths o
  | parsed =>
    .error (.herodot (ErrBadRequest.WithReasonf
      ("Expected JSON sent in request body to be an object but got: " ++ TypeString parsed)))

def decodeJSONForm (E : Env) (r : Request) (destination : E.Dest) (o : httpDecoderOptions) :
    Request × E.Dest × Option Error :=
  match o.jsonSchemaCompiler with
  | none =>
    (r, destination, some (.herodot (ErrInternalServerError.WithReasonf
      "Unable to decode HTTP Form Body because no validation schema was provided. This is a code bug.")))
  | some compiler =>
    match E.ListPathsWithRecursion o.jsonSchemaRef compiler o.maxCircularReferenceDepth with
    | .error err =>
      (r, destination, some (.herodot ((ErrInternalServerError.WithReasonf
        ("Unable to prepare JSON Schema for HTTP Post Body Form parsing: " ++ err)).WithDebug err)))
    | .ok paths =>
      match requestBody r o with
      | (r, .error err) => (r, destination, some err)
      | (r, .ok reader) =>
        match readReader r reader with
        | (r, _, .error err) => (r, destination, some (.plain err))
        | (r, _, .ok bytes) =>
          match E.DecodeInterim bytes with
          | .error err => (r, destination, some (.plain err))
          | .ok interim =>
            match decodeInterim E interim paths o with
            | .error err => (r, destination, some err)
            | .ok raw =>
              match E.Unmarshal (.canonical raw) destination with
              | (destination, some err) => (r, destination, some (.plain err))
              | (destination, none) =>
                match validatePayload E (.canonical raw) o with
                | some err => (r, destination, some err)
                | none => (r, destination, none)

def decodeForm (E : Env) (r : Request) (destination : E.Dest) (o : httpDecoderOptions) :
    Request × E.Dest × Option Error :=
  match o.jsonSchemaCompiler with
  | none =>
    (r, destination, some (.herodot (ErrInternalServerError.WithReasonf
      "Unable to decode HTTP Form Body because no validation schema was provided. This is a code bug.")))
  | some compiler =>
    match requestBody r o with
    | (r, .error err) => (r, destination, some err)
    | (r, .ok reader) =>
      -- defer func() { r.Body = reader }()
      match E.ParseForm r with
      | (r, some err) =>
        (setBody r reader, destination, some (.herodot ((ErrBadRequest.WithReasonf
          ("Unable to decode HTTP " ++ E.ToUpper r.Method ++ " form body: " ++ err)).WithDebug err)))
      | (r, none) =>
        match E.ListPathsWithRecursion o.jsonSchemaRef compiler o.maxCircularReferenceDepth with
        | .error err =>
          (setBody r reader, destination, some (.herodot ((ErrInternalServerError.WithReasonf
            ("Unable to prepare JSON Schema for HTTP Post Body Form parsing: " ++ err)).WithDebug err)))
        | .ok paths =>
          match decodeURLValues E r.PostForm paths o with
          | .error err => (setBody r reader, destination, some err)
          | .ok raw =>
            match E.DecodeInto (.canonical raw) destination with
            | (destination, some err) =>
              (setBody r reader, destination, some (.herodot (ErrBadRequest.WithReasonf
                ("Unable to decode JSON payload: " ++ err))))
            | (destination, none) =>
              match validatePayload E (.canonical raw) o with
              | some err => (setBody r reader, destination, some err)
              | none => (setBody r reader, destination, none)

def decodeJSON (E : Env) (r : Request) (destination : E.Dest) (o : httpDecoderOptions) :
    Request × E.Dest × Option Error :=
  match requestBody r o with
  | (r, .error err) => (r, destination, some err)
  | (r, .ok reader) =>
    match readReader r reader with
    | (r, _, .error err) =>
      (r, destination, some (.herodot (ErrBadRequest.WithReasonf
        ("Unable to read HTTP POST body: " ++ err))))
    | (r, _, .ok raw) =>
      match E.DecodeInto (.body raw) destination with
      | (destination, some err) =>
        (r, destination, some (.herodot (ErrBadRequest.WithReasonf
          ("Unable to decode JSON payload: " ++ err))))
      | (destination, none) =>
        match validatePayload E (.body raw) o with
        | some err => (r, destination, some err)
        | none => (r, destination, none)

/-- The method `Decode`: the request and the destination as the call leaves them, and the error. -/
def Decode (E : Env) (r : Request) (destination : E.Dest) (opts : List HTTPDecoderOption) :
    Request × E.Dest × Option Error :=
  let c := newHTTPDecoderOptions opts
  match validateRequest E r c with
  | some err => (r, destination, some err)
  | none =>
    if HasContentType E r [httpContentTypeJSON] then
      if c.expectJSONFlattened then decodeJSONForm E r destination c
      else decodeJSON E r destination c
    else if HasContentType E r [httpContentTypeMultipartForm, httpContentTypeURLEncodedForm] then
      decodeForm E r destination c
    else
      (r, destination, some (.herodot (ErrInternalServerError.WithReasonf
        ("Unable to determine decoder for content type: " ++ r.ContentType))))

/-! ### A model of the libraries, for evaluating the decoder on concrete inputs -/

/-- The value of a run of decimal digits. -/
def digitsToNat (ds : List Char) : Nat :=
  ds.foldl (fun n c => n * 10 + (c.toNat - 48)) 0

/-- Removes the factors of ten from a mantissa, `fuel` bounding the number of digits. -/
def normalizeDecimal : Nat → Nat → Int → Nat × Int
  | 0, m, e => (m, e)
  | fuel + 1, m, e =>
    if m ≠ 0 ∧ m % 10 = 0 then normalizeDecimal fuel (m / 10) (e + 1) else (m, e)

/-- The `float64` nearest to `±m·10^e`, as far as this model tracks it, and whether
the value is out of range.  A value at or above `2^1024 - 2^970` (the largest
`float64` plus half a unit in the last place) overflows to an infinity; a value
at or below `2^-1075` rounds to zero; any other value is kept as the decimal
itself, so two decimals that round to the same `float64` stay distinct here. -/
def roundDecimal (neg : Bool) (ndigits : Nat) (m : Nat) (e : Int) : Float64 × Bool :=
  if m = 0 then (.finite neg 0 0, false)
  else if 0 ≤ e then
    if 308 < e then (.inf neg, true)
    else if 2 ^ 1024 - 2 ^ 970 ≤ m * 10 ^ e.toNat then (.inf neg, true)
    else
      let (m, e) := normalizeDecimal ndigits m e
      (.finite neg m e, false)
  else
    if (ndigits : Int) + 400 < -e then (.finite neg 0 0, false)
    else if (2 ^ 1024 - 2 ^ 970) * 10 ^ (-e).toNat ≤ m then (.inf neg, true)
    else if m * 2 ^ 1075 ≤ 10 ^ (-e).toNat then (.finite neg 0 0, false)
    else
      let (m, e) := normalizeDecimal ndigits m e
      (.finite neg m e, false)

/-- Splits an optional leading sign off: the flag is true for `-`. -/
def readSign : List Char → Bool × List Char
  | '+' :: cs => (false, cs)
  | '-' :: cs => (true, cs)
  | cs => (false, cs)

/-- A model of `strconv.ParseFloat(s, 64)` for the decimal literals
`[+-]digits[.digits][(e|E)[+-]digits]` and the spellings of infinity and NaN:
`(value, nil)` for a literal in range, `(±Inf, range error)` for a literal out of
range and `(0, syntax error)` for a string that is not a literal.  Hexadecimal
literals and digit-separating underscores, which the library also reads, are not
part of this model. -/
def goParseFloat (s : String) : Float64 × Option NumError :=
  let bad : Float64 × Option NumError :=
    (Float64.zero, some { Func := "ParseFloat", Num := s, Err := "invalid syntax" })
  let finish (neg : Bool) (ndigits m : Nat) (e : Int) : Float64 × Option NumError :=
    match roundDecimal neg ndigits m e with
    | (f, true) => (f, some { Func := "ParseFloat", Num := s, Err := "value out of range" })
    | (f, false) => (f, none)
  let (neg, cs) := readSign s.data
  let word := String.mk (cs.map Char.toLower)
  if word = "inf" ∨ word = "infinity" then (.inf neg, none)
  else if String.mk (s.data.map Char.toLower) = "nan" then (.nan, none)
  else
    let (ip, cs) := cs.span Char.isDigit
    let (fp, cs) := match cs with
      | '.' :: t => t.span Char.isDigit
      | _ => ([], cs)
    if ip.isEmpty ∧ fp.isEmpty then bad
    else
      let m := digitsToNat (ip ++ fp)
      let n := ip.length + fp.length
      match cs with
      | [] => finish neg n m (-(fp.length : Int))
      | c :: t =>
        if c = 'e' ∨ c = 'E' then
          let (eneg, t) := readSign t
          let (ed, rest) := t.span Char.isDigit
          if ed.isEmpty ∨ ¬ rest.isEmpty then bad
          else
            let ex : Int := digitsToNat ed
            finish neg n m ((if eneg then -ex else ex) - (fp.length : Int))
        else bad

/-- The JSON value `sjson.SetBytes` writes for a Go value: a string, the
`json.Marshal` array of a `[]string`, the formatted `float64`, or a boolean. -/
def Value.toJson : Value → Json
  | .str s => .string s
  | .strs l => .array (l.map Json.string)
  | .float f => .number f
  | .bool b => .bool b

/-- Splits a path at its dots; `acc` is the current segment, reversed. -/
def splitDots : List Char → List Char → List String
  | acc, [] => [String.mk acc.reverse]
  | acc, c :: cs =>
    if c = '.' then String.mk acc.reverse :: splitDots [] cs else splitDots (c :: acc) cs

/-- True when a path segment is all digits, which is when sjson reads it as an array index. -/
def isIndex (seg : String) : Bool := seg.data.all Char.isDigit

/-- Replaces the value of the first member named `seg`. -/
def replaceMember (seg : String) (c : Json) : List (String × Json) → List (String × Json)
  | [] => []
  | (k, v) :: rest => if k = seg then (k, c) :: rest else (k, v) :: replaceMember seg c rest

/-- The path-aware mutation, segment by segment: an object member is replaced or
appended, an array element is replaced, or appended after padding with `null`,
and where the document has no container a segment creates one, an array for an
index and an object for a name. -/
def setPath : List String → Json → Option Json → Except String Json
  | [], v, _ => .ok v
  | seg :: rest, v, doc =>
    match doc with
    | some (.object kvs) =>
      match kvs.lookup seg with
      | some child =>
        match setPath rest v (some child) with
        | .error e => .error e
        | .ok c => .ok (.object (replaceMember seg c kvs))
      | none =>
        match setPath rest v none with
        | .error e => .error e
        | .ok c => .ok (.object (kvs ++ [(seg, c)]))
    | some (.array xs) =>
      if isIndex seg then
        let n := digitsToNat seg.data
        if n < xs.length then
          match setPath rest v xs[n]? with
          | .error e => .error e
          | .ok c => .ok (.array (xs.set n c))
        else
          match setPath rest v none with
          | .error e => .error e
          | .ok c => .ok (.array (xs ++ List.replicate (n - xs.length) Json.null ++ [c]))
      else .error ("cannot set array element for non-numeric key " ++ seg)
    | _ =>
      match setPath rest v none with
      | .error e => .error e
      | .ok c =>
        if isIndex seg then .ok (.array (List.replicate (digitsToNat seg.data) Json.null ++ [c]))
        else .ok (.object [(seg, c)])

/-- Modelled from the spec: `sjson.SetBytes` (github.com/tidwall/sjson) is not
under src/.  The spec calls it "a path-aware JSON mutation: dotted segments
create nested objects/arrays as needed; array element paths use a numeric suffix
segment".  The failures are the library's: an empty path, a wildcard or array
access character in the path, a name used as an index of an existing array; next
to an error the library returns nil bytes. -/
def sjsonSetBytes (json : RawMessage) (path : String) (value : Value) :
    RawMessage × Option String :=
  if path = "" then (none, some "path cannot be empty")
  else if path.data.any (fun c => c = '*' ∨ c = '?') then
    (none, some "wildcard characters not allowed in path")
  else if path.data.any (fun c => c = '#') then
    (none, some "array access character not allowed in path")
  else
    match setPath (splitDots [] path.data) value.toJson json with
    | .error e => (none, some e)
    | .ok doc => (some doc, none)

/-- The library model used for concrete runs: ASCII upper-casing, quoting without
escapes, `goParseFloat` and `sjsonSetBytes`. -/
def goEnv : Env :=
  { ToUpper := fun s => String.mk (s.data.map Char.toUpper)
    Quote := fun s => "\"" ++ s ++ "\""
    ParseFloat := goParseFloat
    SetBytes := sjsonSetBytes
    MatchesContentType := fun header mimetype => header == mimetype
    Compile := fun _ ref => .ok { ref := ref }
    Validate := fun _ _ => none
    ListPathsWithRecursion := fun _ _ _ => .ok []
    ParseForm := fun r => (r, none)
    DecodeInterim := fun _ => .error "unexpected end of JSON input"
    ResultRaw := fun _ => ""
    Dest := RawMessage
    Unmarshal := fun raw _ =>
      match raw with
      | .canonical doc => (doc, none)
      | .body _ => (none, none)
    DecodeInto := fun raw _ =>
      match raw with
      | .canonical doc => (doc, none)
      | .body _ => (none, none) }

/-! ### Vocabulary of the statements -/

deriving instance DecidableEq for Except

/-- The test `decodeURLValues` applies to a key: some schema path carries its name. -/
def matchesPath (paths : List Path) (key : String) : Bool :=
  paths.any (fun p => decide (key = p.Name))

/-- The element the spec describes for one raw value of an array-of-number
(`floats`) or array-of-boolean field under `IgnoreConversionErrors`: the parsed
value when the raw value parses, the raw string when it does not. -/
def elementOrRaw (E : Env) (t : PathType) (v : String) : Value :=
  match t with
  | .floats =>
    match E.ParseFloat v with
    | (f, none) => .float f
    | (_, some _) => .str v
  | _ =>
    match ParseBool v with
    | (b, none) => .bool b
    | (_, some _) => .str v

/-- One `sjson.SetBytes` per element, at `name.k`, `name.(k+1)`, ... in list
order, each on the document the previous one returned. -/
def setElements (E : Env) (name : String) : Nat → List Value → RawMessage → RawMessage
  | _, [], raw => raw
  | k, x :: xs, raw => setElements E name (k + 1) xs (E.SetBytes raw (name ++ "." ++ Itoa k) x).1

/-- The value a document holds at a path of member names. -/
def getPath : List String → Json → Option Json
  | [], j => some j
  | seg :: rest, .object kvs =>
    match kvs.lookup seg with
    | some child => getPath rest child
    | none => none
  | _ :: _, _ => none

/-- True when a document holds nothing at a path yet: walking the path's member
names through nested objects reaches an object that lacks the next name. -/
def pathAbsent : List String → Json → Bool
  | [], _ => false
  | seg :: rest, .object kvs =>
    match kvs.lookup seg with
    | some child => pathAbsent rest child
    | none => true
  | _ :: _, _ => false

/-- The nested objects `{"a":{"b":j}}` for the path `a.b`. -/
def nestObjects : List String → Json → Json
  | [], j => j
  | seg :: rest, j => .object [(seg, nestObjects rest j)]

/-- A schema path name whose dotted segments are member names: no wildcard or
array access character, and no segment that sjson would read as an index. -/
def plainName (name : String) : Bool :=
  name.data.all (fun c => c != '*' && c != '?' && c != '#')
    && (splitDots [] name.data).all (fun seg => !isIndex seg)

/-! ### The public options -/

/-- The option `HTTPRawJSONSchemaCompiler(raw)` returns when `AddResource`
accepts the schema: a new compiler holding the schema under `id`, which the
source computes as `fmt.Sprintf("%x.json", sha256.Sum256(raw))`.
`MustHTTPRawJSONSchemaCompiler` returns the same option. -/
def HTTPRawJSONSchemaCompiler (id : String) (raw : String) : HTTPDecoderOption := fun o =>
  let compiler : Compiler := { NewCompiler with resources := NewCompiler.resources ++ [(id, raw)] }
  let compiler := { compiler with ExtractAnnotations := true }
  { o with jsonSchemaCompiler := some compiler, jsonSchemaRef := id, jsonSchemaValidate := true }

/-- The options a caller outside the package can build: `httpDecoderOptions` is
unexported, so an `HTTPDecoderOption` is always the result of one of the
exported constructors. -/
inductive PublicOption
  | FormDecoder
  | JSONDecoder
  | KeepRequestBody (keep : Bool)
  | SetValidatePayloads (validate : Bool)
  | JSONFollowsFormFormat
  | AllowedMethods (method : List String)
  | SetIgnoreParseErrorsStrategy (strategy : Nat)
  | SetMaxCircularReferenceDepth (depth : Nat)
  | JSONSchemaCompiler (ref : String) (compiler : Option Compiler)
  | RawJSONSchemaCompiler (id : String) (raw : String)
deriving DecidableEq, Repr

/-- The option function a public option stands for. -/
def PublicOption.toOption : PublicOption → HTTPDecoderOption
  | .FormDecoder => HTTPFormDecoder
  | .JSONDecoder => HTTPJSONDecoder
  | .KeepRequestBody keep => HTTPKeepRequestBody keep
  | .SetValidatePayloads validate => HTTPDecoderSetValidatePayloads validate
  | .JSONFollowsFormFormat => HTTPDecoderJSONFollowsFormFormat
  | .AllowedMethods method => HTTPDecoderAllowedMethods method
  | .SetIgnoreParseErrorsStrategy strategy => HTTPDecoderSetIgnoreParseErrorsStrategy strategy
  | .SetMaxCircularReferenceDepth depth => HTTPDecoderSetMaxCircularReferenceDepth depth
  | .JSONSchemaCompiler ref compiler => HTTPJSONSchemaCompiler ref compiler
  | .RawJSONSchemaCompiler id raw => HTTPRawJSONSchemaCompiler id raw

/-- Every allowed content type of a configuration is one of the three the decoder knows. -/
def knownContentTypes (c : httpDecoderOptions) : Prop :=
  ∀ t ∈ c.allowedContentTypes,
    t = httpContentTypeJSON ∨ t = httpContentTypeMultipartForm
      ∨ t = httpContentTypeURLEncodedForm

/-! ### Vocabulary of the statements on visiting order -/

/-- What a document holds at a path of member names, an object counting as "an
object" whatever its members are: they are reached by the longer paths. -/
def valueAt (q : List String) (doc : Json) : Option Json :=
  match getPath q doc with
  | some (.object _) => some (.object [])
  | r => r

/-- Two trees are the same JSON document when every path of member names
resolves to the same value in both: equality of JSON values, in which the order
of the members of an object does not count. -/
def sameDocument (a b : Json) : Prop := ∀ q, valueAt q a = valueAt q b

/-- Two results of `decodeURLValues` agree when both are errors or both are
documents and these are the same JSON document. -/
def sameResult : Except Error RawMessage → Except Error RawMessage → Prop
  | .ok (some a), .ok (some b) => sameDocument a b
  | .error _, .error _ => True
  | _, _ => False

/-- The document after one successful set of `v` at a path (the document itself
where the set fails). -/
def putDoc (segs : List String) (v : Json) (doc : Json) : Json :=
  match setPath segs v (some doc) with
  | .ok d => d
  | .error _ => doc

/-- The document after a list of sets, in list order. -/
def putAll : List (List String × Json) → Json → Json
  | [], doc => doc
  | (p, v) :: rest, doc => putAll rest (putDoc p v doc)

/-- The elements an array-of-number key contributes under one of the three
strategies, or the error of the first raw value that fails under
`ReturnOnConversionErrors`; `k` is the index of the first raw value. -/
def coerceFloats (E : Env) (o : httpDecoderOptions) (key : String) :
    Nat → List String → Except Error (List Value)
  | _, [] => .ok []
  | k, v :: vs =>
    match E.ParseFloat v with
    | (f, some err) =>
      if o.handleParseErrors = ParseErrorIgnoreConversionErrors then
        (coerceFloats E o key (k + 1) vs).map (fun ys => Value.str v :: ys)
      else if o.handleParseErrors = ParseErrorUseEmptyValueOnConversionErrors then
        (coerceFloats E o key (k + 1) vs).map (fun ys => Value.float f :: ys)
      else
        .error (.herodot
          (((((ErrBadRequest.WithReasonf "Expected value to be a number.").WithDetail
            "parse_error" (err.Error E)).WithDetail
            "name" key).WithDetail
            "index" (Itoa k)).WithDetail
            "value" v))
    | (f, none) => (coerceFloats E o key (k + 1) vs).map (fun ys => Value.float f :: ys)

/-- The elements an array-of-boolean key contributes, as `coerceFloats`. -/
def coerceBools (E : Env) (o : httpDecoderOptions) (key : String) :
    Nat → List String → Except Error (List Value)
  | _, [] => .ok []
  | k, v :: vs =>
    match ParseBool v with
    | (f, some err) =>
      if o.handleParseErrors = ParseErrorIgnoreConversionErrors then
        (coerceBools E o key (k + 1) vs).map (fun ys => Value.str v :: ys)
      else if o.handleParseErrors = ParseErrorUseEmptyValueOnConversionErrors then
        (coerceBools E o key (k + 1) vs).map (fun ys => Value.bool f :: ys)
      else
        .error (.herodot
          (((((ErrBadRequest.WithReasonf "Expected value to be a boolean.").WithDetail
            "parse_error" (err.Error E)).WithDetail
            "name" key).WithDetail
            "index" (Itoa k)).WithDetail
            "value" v))
    | (f, none) => (coerceBools E o key (k + 1) vs).map (fun ys => Value.bool f :: ys)

/-- The array a list of coerced elements becomes; no element, no set. -/
def elementsValue : Except Error (List Value) → Except Error (Option Json)
  | .error e => .error e
  | .ok [] => .ok none
  | .ok (y :: ys) => .ok (some (.array ((y :: ys).map Value.toJson)))

/-- What a key contributes to the canonical body under one of the three
strategies, by the type of its schema path: an error, nothing, or the value its
path is set to. -/
def keyValue (E : Env) (values : Values) (o : httpDecoderOptions) (key : String) :
    PathType → Except Error (Option Json)
  | .strings => .ok (some (Value.toJson (.strs (Values.index values key))))
  | .interfaces => .ok (some (Value.toJson (.strs (Values.index values key))))
  | .objects => .ok (some (Value.toJson (.strs (Values.index values key))))
  | .string => .ok (some (.string (Values.Get values key)))
  | .object => .ok (some (.string (Values.Get values key)))
  | .floats => elementsValue (coerceFloats E o key 0 (Values.index values key))
  | .bools => elementsValue (coerceBools E o key 0 (Values.index values key))
  | .bool =>
    match (Values.index values key).getLast? with
    | none => .error (.goPanic "runtime error: index out of range [-1]")
    | some v =>
      match ParseBool v with
      | (f, some err) =>
        if o.handleParseErrors = ParseErrorIgnoreConversionErrors then .ok (some (.string v))
        else if o.handleParseErrors = ParseErrorUseEmptyValueOnConversionErrors then
          .ok (some (.bool f))
        else
          .error (.herodot
            ((((ErrBadRequest.WithReasonf "Expected value to be a boolean.").WithDetail
              "parse_error" (err.Error E)).WithDetail
              "name" key).WithDetail
              "value" (Values.Get values key)))
      | (f, none) => .ok (some (.bool f))
  | .float =>
    match E.ParseFloat (Values.Get values key) with
    | (f, some err) =>
      if o.handleParseErrors = ParseErrorIgnoreConversionErrors then
        .ok (some (.string (Values.Get values key)))
      else if o.handleParseErrors = ParseErrorUseEmptyValueOnConversionErrors then
        .ok (some (.number f))
      else
        .error (.herodot
          ((((ErrBadRequest.WithReasonf "Expected value to be a number.").WithDetail
            "parse_error" (err.Error E)).WithDetail
            "name" key).WithDetail
            "value" (Values.Get values key)))
    | (f, none) => .ok (some (.number f))
  | .other => .ok none

/-- The effect of a key's contribution on the document. -/
def applyKeyValue (segs : List String) (doc : Json) :
    Except Error (Option Json) → Except Error RawMessage
  | .error e => .error e
  | .ok none => .ok (some doc)
  | .ok (some v) => .ok (some (putDoc segs v doc))

/-- One of the three strategies the package defines. -/
def definedStrategy (o : httpDecoderOptions) : Prop :=
  o.handleParseErrors = ParseErrorIgnoreConversionErrors
    ∨ o.handleParseErrors = ParseErrorUseEmptyValueOnConversionErrors
    ∨ o.handleParseErrors = ParseErrorReturnOnConversionErrors

/-- Two sets whose paths do not collide: neither path is a prefix of the other. -/
def unrelatedPaths (a b : List String × Json) : Prop :=
  a.1.isPrefixOf b.1 = false ∧ b.1.isPrefixOf a.1 = false

/-- What a path resolves to once every set of a list of sets at pairwise
unrelated paths has been made: the value of the one set whose path is a prefix
of it, an object when it lies above the path of a set, and what the starting
document held otherwise.  The order of the list does not enter. -/
def valueAfterPuts (ps : List (List String × Json)) (doc : Json) (q : List String) :
    Option Json :=
  match ps.find? (fun pv => pv.1.isPrefixOf q) with
  | some pv => valueAt (q.drop pv.1.length) pv.2
  | none => if ps.any (fun pv => q.isPrefixOf pv.1) then some (.object []) else valueAt q doc

/-- The set a key contributes to the canonical body, when it contributes one:
the segments of its name and the value. -/
def keyPut (E : Env) (values : Values) (paths : List Path) (o : httpDecoderOptions)
    (key : String) : Option (List String × Json) :=
  match paths.find? (fun p => decide (key = p.Name)) with
  | none => none
  | some path =>
    match keyValue E values o key path.Type_ with
    | .ok (some v) => some (splitDots [] key.data, v)
    | _ => none

/-- True when a key makes the decoder fail. -/
def keyFails (E : Env) (values : Values) (paths : List Path) (o : httpDecoderOptions)
    (key : String) : Bool :=
  match paths.find? (fun p => decide (key = p.Name)) with
  | none => false
  | some path =>
    match keyValue E values o key path.Type_ with
    | .error _ => true
    | _ => false

/-! ## Part 2: lemmas and theorems -/

set_option exponentiation.threshold 4096
set_option maxRecDepth 100000

/-! ### The loops of decodeURLValues -/

theorem Values.index_singleton (key : String) (vs : List String) :
    Values.index [(key, vs)] key = vs := by
  simp [Values.index, List.lookup]

theorem Values.Get_singleton (key v : String) (vs : List String) :
    Values.Get [(key, v :: vs)] key = v := by
  simp [Values.Get, Values.index_singleton]

/-- A key that equals no path name leaves the canonical body as it is. -/
theorem rangePaths_of_find_none (E : Env) (values : Values) (o : httpDecoderOptions)
    (key : String) (paths : List Path) (raw : RawMessage)
    (h : paths.find? (fun p => decide (key = p.Name)) = none) :
    rangePaths E values o key paths raw = .ok raw := by
  induction paths with
  | nil => rfl
  | cons p ps ih =>
    by_cases hk : key = p.Name
    · simp [List.find?, hk] at h
    · simp only [List.find?, hk, decide_False] at h
      simp [rangePaths, hk, ih h]

/-- A key is handled by the first path that carries its name, and by no other. -/
theorem rangePaths_of_find_some (E : Env) (values : Values) (o : httpDecoderOptions)
    (key : String) (paths : List Path) (raw : RawMessage) (path : Path)
    (h : paths.find? (fun p => decide (key = p.Name)) = some path) :
    rangePaths E values o key paths raw
      = checkSetError (switchPathType E values o key path raw) := by
  induction paths with
  | nil => simp at h
  | cons p ps ih =>
    by_cases hk : key = p.Name
    · simp only [List.find?, hk, decide_True, Option.some.injEq] at h
      subst h
      simp [rangePaths, hk]
    · simp only [List.find?, hk, decide_False] at h
      simp [rangePaths, hk, ih h]

/-- C2 (failing input): schema `b : boolean`, form `b=true&b=maybe`, strategy
`ReturnOnConversionErrors`.  The decoder parses the last value, `maybe`, which
fails, and returns a bad-request error whose `parse_error` names `maybe` while
its `value` detail is `true`, the first value, which was never parsed. -/
theorem bool_conversion_error_reports_first_value :
    ∃ e, decodeURLValues goEnv [("b", ["true", "maybe"])] [⟨"b", .bool⟩]
          (newHTTPDecoderOptions
            [HTTPDecoderSetIgnoreParseErrorsStrategy ParseErrorReturnOnConversionErrors])
        = .error e
      ∧ e.isBadRequest = true
      ∧ e.detail "name" = some "b"
      ∧ e.detail "parse_error" = some "strconv.ParseBool: parsing \"maybe\": invalid syntax"
      ∧ e.detail "value" = some "true"
      ∧ e.detail "value" ≠ some "maybe" := by
  refine ⟨_, rfl, ?_, ?_, ?_, ?_, ?_⟩ <;> decide

/-! ### C3: the value inserted by UseEmptyValueOnConversionErrors -/

/-- C3 (failing input): schema `ratio : number`, form `ratio=1e400`, strategy
`UseEmptyValueOnConversionErrors`.  `strconv.ParseFloat` fails with a range error
and returns `+Inf` next to it; the decoder inserts that value, so the canonical
body is `{"ratio":+Inf}` and not `{"ratio":0}`.  For the syntax error of
`ratio=foobar` the inserted value is `0`. -/
theorem use_empty_value_inserts_infinity_on_range_error :
    decodeURLValues goEnv [("ratio", ["1e400"])] [⟨"ratio", .float⟩]
        (newHTTPDecoderOptions
          [HTTPDecoderSetIgnoreParseErrorsStrategy ParseErrorUseEmptyValueOnConversionErrors])
      = .ok (some (.object [("ratio", .number (.inf false))]))
    ∧ (goEnv.ParseFloat "1e400").2
        = some { Func := "ParseFloat", Num := "1e400", Err := "value out of range" }
    ∧ Json.number (.inf false) ≠ Json.number Float64.zero
    ∧ decodeURLValues goEnv [("ratio", ["foobar"])] [⟨"ratio", .float⟩]
        (newHTTPDecoderOptions
          [HTTPDecoderSetIgnoreParseErrorsStrategy ParseErrorUseEmptyValueOnConversionErrors])
      = .ok (some (.object [("ratio", .number Float64.zero)])) := by
  decide

/-! ### C5: keys that match no schema path -/

/-- The type switch reads the form only through the value list of its key. -/
theorem switchPathType_congr (E : Env) (values values' : Values) (o : httpDecoderOptions)
    (key : String) (path : Path) (raw : RawMessage)
    (h : Values.index values key = Values.index values' key) :
    switchPathType E values o key path raw = switchPathType E values' o key path raw := by
  simp only [switchPathType, Values.Get, h]

theorem rangePaths_congr (E : Env) (values values' : Values) (o : httpDecoderOptions)
    (key : String) (paths : List Path) (raw : RawMessage)
    (h : Values.index values key = Values.index values' key) :
    rangePaths E values o key paths raw = rangePaths E values' o key paths raw := by
  induction paths with
  | nil => rfl
  | cons p ps ih =>
    simp only [rangePaths, ih, switchPathType_congr E values values' o key p raw h]

/-- Removing entries by a test on the key leaves the value list of every kept key as it was. -/
theorem Values.index_filter (keep : String → Bool) (values : Values) (key : String)
    (hk : keep key = true) :
    Values.index (values.filter (fun kv => keep kv.1)) key = Values.index values key := by
  induction values with
  | nil => rfl
  | cons kv rest ih =>
    obtain ⟨k, vs⟩ := kv
    simp only [Values.index] at ih ⊢
    by_cases hkk : key = k
    · subst hkk
      simp [List.filter, hk, List.lookup]
    · have hne : (key == k) = false := by simpa using hkk
      by_cases hkeep : keep k = true
      · simp only [List.filter, hkeep, List.lookup, hne]
        exact ih
      · have hkeep' : keep k = false := by simpa using hkeep
        simp only [List.filter, hkeep', List.lookup, hne]
        exact ih

theorem find?_eq_none_of_not_matchesPath (paths : List Path) (key : String)
    (h : matchesPath paths key = false) :
    paths.find? (fun p => decide (key = p.Name)) = none := by
  rw [List.find?_eq_none]
  intro p hp hkp
  have : matchesPath paths key = true := List.any_eq_true.mpr ⟨p, hp, hkp⟩
  rw [h] at this
  exact Bool.noConfusion this

/-- The outer loop skips the keys that match no path. -/
theorem rangeValues_filter_keys (E : Env) (values : Values) (paths : List Path)
    (o : httpDecoderOptions) (keys : List String) (raw : RawMessage) :
    rangeValues E values paths o keys raw
      = rangeValues E values paths o (keys.filter (matchesPath paths)) raw := by
  induction keys generalizing raw with
  | nil => rfl
  | cons k ks ih =>
    by_cases hm : matchesPath paths k = true
    · simp only [List.filter, hm, rangeValues]
      cases rangePaths E values o k paths raw with
      | error e => rfl
      | ok raw' => exact ih raw'
    · have hm' : matchesPath paths k = false := by simpa using hm
      simp only [List.filter, hm', rangeValues,
        rangePaths_of_find_none E values o k paths raw
          (find?_eq_none_of_not_matchesPath paths k hm')]
      exact ih raw

/-- Two forms that agree on the value lists of the visited keys are decoded alike. -/
theorem rangeValues_congr (E : Env) (values values' : Values) (paths : List Path)
    (o : httpDecoderOptions) (keys : List String) (raw : RawMessage)
    (h : ∀ k ∈ keys, Values.index values k = Values.index values' k) :
    rangeValues E values paths o keys raw = rangeValues E values' paths o keys raw := by
  induction keys generalizing raw with
  | nil => rfl
  | cons k ks ih =>
    simp only [rangeValues, rangePaths_congr E values values' o k paths raw
      (h k (List.mem_cons_self k ks))]
    cases rangePaths E values' o k paths raw with
    | error e => rfl
    | ok raw' => exact ih raw' (fun k' hk' => h k' (List.mem_cons_of_mem k hk'))

theorem Values.keys_filter (keep : String → Bool) (values : Values) :
    Values.keys (values.filter (fun kv => keep kv.1)) = (Values.keys values).filter keep := by
  induction values with
  | nil => rfl
  | cons kv rest ih =>
    by_cases hk : keep kv.1 = true
    · simp only [Values.keys] at ih ⊢
      simp [List.filter, hk, ih]
    · have hk' : keep kv.1 = false := by simpa using hk
      simp only [Values.keys] at ih ⊢
      simp [List.filter, hk', ih]

/-- C5: a key that equals no schema path name is skipped without an error and
without a change to the canonical body: decoding a form gives the result of
decoding the form with every unmatched key removed, and a form none of whose
keys matches gives the empty object and no error. -/
theorem unmatched_keys_are_dropped (E : Env) (values : Values) (paths : List Path)
    (o : httpDecoderOptions) :
    decodeURLValues E values paths o
      = decodeURLValues E (values.filter (fun kv => matchesPath paths kv.1)) paths o
    ∧ ((∀ kv ∈ values, matchesPath paths kv.1 = false) →
        decodeURLValues E values paths o = .ok emptyObject) := by
  have hfirst : decodeURLValues E values paths o
      = decodeURLValues E (values.filter (fun kv => matchesPath paths kv.1)) paths o := by
    unfold decodeURLValues
    rw [rangeValues_filter_keys E values paths o (Values.keys values) emptyObject,
      Values.keys_filter (matchesPath paths) values]
    apply rangeValues_congr
    intro k hk
    exact (Values.index_filter (matchesPath paths) values k (List.mem_filter.mp hk).2).symm
  refine ⟨hfirst, fun hnone => ?_⟩
  rw [hfirst]
  have hnil : values.filter (fun kv => matchesPath paths kv.1) = [] := by
    rw [List.filter_eq_nil_iff]
    intro kv hkv
    simp [hnone kv hkv]
  rw [hnil]
  rfl

/-! ### C6: a Content-Type outside the allowed set -/

/-- When `validateRequest` returns an error, and of which kind. -/
theorem validateRequest_spec (E : Env) (r : Request) (c : httpDecoderOptions) :
    ((validateRequest E r c).isSome = true
      ↔ (E.ToUpper r.Method ∉ c.allowedHTTPMethods
          ∨ r.ContentLength = 0
          ∨ HasContentType E r c.allowedContentTypes = false))
    ∧ (validateRequest E r c).all Error.isBadRequest = true := by
  unfold validateRequest Has
  by_cases hm : E.ToUpper r.Method ∈ c.allowedHTTPMethods
  · by_cases hl : r.ContentLength = 0
    · simp [hm, hl, Error.isBadRequest, ErrBadRequest, DefaultError.WithReasonf]
    · by_cases hc : HasContentType E r c.allowedContentTypes = true
      · simp [hm, hl, hc]
      · simp [hm, hl, hc, Error.isBadRequest, ErrBadRequest, DefaultError.WithReasonf]
  · simp [hm, Error.isBadRequest, ErrBadRequest, DefaultError.WithReasonf]

/-- C6: when the request's Content-Type matches none of the configured allowed
types, `Decode` returns the bad-request error of `validateRequest` and hands
back the request and the destination exactly as it received them, whatever the
libraries behind the three decode strategies would do: no strategy runs and the
body is not read. -/
theorem decode_rejects_disallowed_content_type (E : Env) (r : Request) (destination : E.Dest)
    (opts : List HTTPDecoderOption)
    (h : HasContentType E r (newHTTPDecoderOptions opts).allowedContentTypes = false) :
    ∃ err, Decode E r destination opts = (r, destination, some err)
      ∧ err.isBadRequest = true
      ∧ validateRequest E r (newHTTPDecoderOptions opts) = some err := by
  have hspec := validateRequest_spec E r (newHTTPDecoderOptions opts)
  cases hv : validateRequest E r (newHTTPDecoderOptions opts) with
  | none =>
    rw [hv] at hspec
    have := hspec.1.mpr (Or.inr (Or.inr h))
    simp at this
  | some err =>
    rw [hv] at hspec
    exact ⟨err, by simp [Decode, hv], by simpa using hspec.2, rfl⟩

/-- C6 (witness): a `text/plain` request against the default configuration. -/
theorem decode_rejects_disallowed_content_type_witness :
    HasContentType goEnv ⟨"POST", 3, "text/plain", ⟨"abc", none⟩, []⟩
        (newHTTPDecoderOptions []).allowedContentTypes = false
    ∧ ∃ err, Decode goEnv ⟨"POST", 3, "text/plain", ⟨"abc", none⟩, []⟩ (none : RawMessage) []
          = (⟨"POST", 3, "text/plain", ⟨"abc", none⟩, []⟩, (none : RawMessage), some err)
        ∧ err.isBadRequest = true
        ∧ validateRequest goEnv ⟨"POST", 3, "text/plain", ⟨"abc", none⟩, []⟩
            (newHTTPDecoderOptions []) = some err :=
  ⟨by decide,
   decode_rejects_disallowed_content_type goEnv ⟨"POST", 3, "text/plain", ⟨"abc", none⟩, []⟩
    (none : RawMessage) [] (by decide)⟩

/-! ### C7: when validateRequest rejects -/

/-- C7 (counterexample): the claim ties rejection to the request's method being
outside the allowed set.  With the default configuration a JSON request whose
method is `post` is accepted although `post` is not one of `POST`, `PUT`,
`PATCH`; with `HTTPDecoderAllowedMethods("patch")` a request whose method is
`patch` is rejected although it is in the allowed set. -/
theorem validateRequest_compares_upper_cased_method :
    ¬ ((validateRequest goEnv ⟨"post", 2, "application/json", ⟨"{}", none⟩, []⟩
          (newHTTPDecoderOptions [])).isSome = true
        ↔ ("post" ∉ (newHTTPDecoderOptions []).allowedHTTPMethods
            ∨ (2 : Int) = 0
            ∨ HasContentType goEnv ⟨"post", 2, "application/json", ⟨"{}", none⟩, []⟩
                (newHTTPDecoderOptions []).allowedContentTypes = false))
    ∧ ¬ ((validateRequest goEnv ⟨"patch", 2, "application/json", ⟨"{}", none⟩, []⟩
          (newHTTPDecoderOptions [HTTPDecoderAllowedMethods ["patch"]])).isSome = true
        ↔ ("patch" ∉ (newHTTPDecoderOptions [HTTPDecoderAllowedMethods ["patch"]]).allowedHTTPMethods
            ∨ (2 : Int) = 0
            ∨ HasContentType goEnv ⟨"patch", 2, "application/json", ⟨"{}", none⟩, []⟩
                (newHTTPDecoderOptions [HTTPDecoderAllowedMethods ["patch"]]).allowedContentTypes
                  = false)) := by
  decide

/-- C7 (amended): for every request and configuration, `validateRequest` returns
an error exactly when the upper-cased request method is not in the allowed
methods, or the content length is zero, or the Content-Type matches none of the
allowed types; every error it returns is a bad-request error. -/
theorem validateRequest_rejects_iff (E : Env) (r : Request) (c : httpDecoderOptions) :
    ((validateRequest E r c).isSome = true
      ↔ (E.ToUpper r.Method ∉ c.allowedHTTPMethods
          ∨ r.ContentLength = 0
          ∨ HasContentType E r c.allowedContentTypes = false))
    ∧ (validateRequest E r c).all Error.isBadRequest = true :=
  validateRequest_spec E r c

/-! ### C9: validation switched off -/

/-- C9: with `jsonSchemaValidate` false, `validatePayload` returns no error for
every payload and every configuration, and for every behaviour of the schema
compiler and of the schema: neither is consulted. -/
theorem validatePayload_disabled_is_noop (E : Env) (raw : Payload) (c : httpDecoderOptions)
    (h : c.jsonSchemaValidate = false) :
    validatePayload E raw c = none := by
  simp [validatePayload, h]

/-- C9 (witness): no compiler configured, and libraries that would fail to
compile any schema and would reject any payload. -/
theorem validatePayload_disabled_is_noop_witness :
    (newHTTPDecoderOptions []).jsonSchemaValidate = false
    ∧ (newHTTPDecoderOptions []).jsonSchemaCompiler = none
    ∧ validatePayload
        { goEnv with
          Compile := fun _ _ => .error "no such schema"
          Validate := fun _ _ => some (.validationError "rejected") }
        (.body "[") (newHTTPDecoderOptions []) = none :=
  ⟨rfl, rfl,
   validatePayload_disabled_is_noop
    { goEnv with
      Compile := fun _ _ => .error "no such schema"
      Validate := fun _ _ => some (.validationError "rejected") }
    (.body "[") (newHTTPDecoderOptions []) rfl⟩

/-! ### C10: defaults and the order of options -/

theorem applyOptions_eq_foldl (fs : List HTTPDecoderOption) (o : httpDecoderOptions) :
    applyOptions fs o = fs.foldl (fun o f => f o) o := by
  induction fs generalizing o with
  | nil => rfl
  | cons f fs ih => simp only [applyOptions, List.foldl, ih]

theorem applyOptions_append (fs gs : List HTTPDecoderOption) (o : httpDecoderOptions) :
    applyOptions (fs ++ gs) o = applyOptions gs (applyOptions fs o) := by
  simp only [applyOptions_eq_foldl, List.foldl_append]

/-- Options that leave a field alone leave it with the value it had. -/
theorem applyOptions_preserves {β : Type} (field : httpDecoderOptions → β)
    (gs : List HTTPDecoderOption) (o : httpDecoderOptions)
    (h : ∀ g ∈ gs, ∀ o, field (g o) = field o) :
    field (applyOptions gs o) = field o := by
  induction gs generalizing o with
  | nil => rfl
  | cons g gs ih =>
    simp only [applyOptions]
    rw [ih (g o) (fun g' hg' => h g' (List.mem_cons_of_mem g hg'))]
    exact h g (List.mem_cons_self g gs) o

/-- C10: the empty option list gives the documented defaults; every option list
gives the left-to-right fold of its options over the defaults, so appending an
option applies it to the configuration built so far, and a field holds the value
written by the last option that sets it, whatever came before and whichever
options that leave the field alone come after.  In particular
`HTTPDecoderSetValidatePayloads(false)` after `HTTPJSONSchemaCompiler` leaves
validation off, and before it validation ends up on. -/
theorem newHTTPDecoderOptions_defaults_and_last_write_wins :
    newHTTPDecoderOptions [] =
      { keepRequestBody := false
        allowedContentTypes :=
          ["multipart/form-data", "application/x-www-form-urlencoded", "application/json"]
        allowedHTTPMethods := ["POST", "PUT", "PATCH"]
        jsonSchemaRef := ""
        jsonSchemaCompiler := none
        jsonSchemaValidate := false
        maxCircularReferenceDepth := 5
        handleParseErrors := ParseErrorIgnoreConversionErrors
        expectJSONFlattened := false }
    ∧ (∀ fs : List HTTPDecoderOption,
        newHTTPDecoderOptions fs = fs.foldl (fun o f => f o) (newHTTPDecoderOptions []))
    ∧ (∀ (fs : List HTTPDecoderOption) (f : HTTPDecoderOption),
        newHTTPDecoderOptions (fs ++ [f]) = f (newHTTPDecoderOptions fs))
    ∧ (∀ (β : Type) (field : httpDecoderOptions → β) (v : β)
          (fs gs : List HTTPDecoderOption) (f : HTTPDecoderOption),
        (∀ o, field (f o) = v) → (∀ g ∈ gs, ∀ o, field (g o) = field o) →
        field (newHTTPDecoderOptions (fs ++ f :: gs)) = v)
    ∧ (∀ (fs : List HTTPDecoderOption) (ref : String) (compiler : Option Compiler),
        (newHTTPDecoderOptions
          (fs ++ [HTTPJSONSchemaCompiler ref compiler, HTTPDecoderSetValidatePayloads false])
          ).jsonSchemaValidate = false)
    ∧ (∀ (fs : List HTTPDecoderOption) (ref : String) (compiler : Option Compiler),
        (newHTTPDecoderOptions
          (fs ++ [HTTPDecoderSetValidatePayloads false, HTTPJSONSchemaCompiler ref compiler])
          ).jsonSchemaValidate = true) := by
  refine ⟨rfl, fun fs => ?_, fun fs f => ?_, fun β field v fs gs f hf hgs => ?_,
    fun fs ref compiler => ?_, fun fs ref compiler => ?_⟩
  · simp only [newHTTPDecoderOptions, applyOptions_eq_foldl, List.foldl]
  · simp only [newHTTPDecoderOptions, applyOptions_append, applyOptions]
  · simp only [newHTTPDecoderOptions, applyOptions_append, applyOptions]
    rw [applyOptions_preserves field gs _ hgs]
    exact hf _
  · simp only [newHTTPDecoderOptions, applyOptions_append, applyOptions,
      HTTPDecoderSetValidatePayloads]
  · simp only [newHTTPDecoderOptions, applyOptions_append, applyOptions,
      HTTPJSONSchemaCompiler]

/-! ### Array fields, key by key -/

theorem digitChar_spec : ∀ d, d < 10 →
    (Nat.digitChar d).isDigit = true ∧ (Nat.digitChar d).toNat - 48 = d := by
  decide

theorem toDigitsCore_all_digits (fuel n : Nat) (acc : List Char)
    (h : ∀ c ∈ acc, c.isDigit = true) :
    ∀ c ∈ Nat.toDigitsCore 10 fuel n acc, c.isDigit = true := by
  induction fuel generalizing n acc with
  | zero => simpa [Nat.toDigitsCore] using h
  | succ fuel ih =>
    have hd := (digitChar_spec (n % 10) (Nat.mod_lt n (by decide))).1
    have hacc : ∀ c ∈ Nat.digitChar (n % 10) :: acc, c.isDigit = true := by
      intro c hc
      rcases List.mem_cons.mp hc with rfl | hc
      · exact hd
      · exact h c hc
    simp only [Nat.toDigitsCore]
    split
    · exact hacc
    · exact ih (n / 10) _ hacc

theorem toDigitsCore_value (fuel n : Nat) (acc : List Char) (h : n < fuel) :
    List.foldl (fun n c => n * 10 + (c.toNat - 48)) 0 (Nat.toDigitsCore 10 fuel n acc)
      = List.foldl (fun n c => n * 10 + (c.toNat - 48)) n acc := by
  induction fuel generalizing n acc with
  | zero => omega
  | succ fuel ih =>
    have hd := (digitChar_spec (n % 10) (Nat.mod_lt n (by decide))).2
    simp only [Nat.toDigitsCore]
    split
    · rename_i h0
      simp only [List.foldl, hd]
      congr 1
      omega
    · rename_i h0
      rw [ih (n / 10) _ (by omega)]
      simp only [List.foldl, hd]
      congr 1
      omega

theorem Itoa_all_digits (k : Nat) : ∀ c ∈ (Itoa k).data, c.isDigit = true := by
  simp only [Itoa, Nat.repr, Nat.toDigits, List.asString]
  exact toDigitsCore_all_digits _ _ _ (by simp)

theorem Itoa_value (k : Nat) : digitsToNat (Itoa k).data = k := by
  simp only [Itoa, Nat.repr, Nat.toDigits, List.asString, digitsToNat]
  rw [toDigitsCore_value _ _ _ (by omega)]
  rfl

theorem lookup_append_of_none (kvs : List (String × Json)) (seg : String) (c : Json)
    (h : kvs.lookup seg = none) : (kvs ++ [(seg, c)]).lookup seg = some c := by
  induction kvs with
  | nil => simp [List.lookup]
  | cons kv rest ih =>
    obtain ⟨k, v⟩ := kv
    by_cases hk : seg = k
    · subst hk
      simp [List.lookup] at h
    · have h1 : (seg == k) = false := by simpa using hk
      simp only [List.lookup, h1] at h
      simp only [List.cons_append, List.lookup, h1]
      exact ih h

theorem lookup_replaceMember (kvs : List (String × Json)) (seg : String) (c c' : Json)
    (h : kvs.lookup seg = some c) :
    (replaceMember seg c' kvs).lookup seg = some c' := by
  induction kvs with
  | nil => simp [List.lookup] at h
  | cons kv rest ih =>
    obtain ⟨k, v⟩ := kv
    by_cases hk : seg = k
    · subst hk
      simp [replaceMember, List.lookup]
    · have h1 : (seg == k) = false := by simpa using hk
      have h2 : ¬ k = seg := fun e => hk e.symm
      simp only [List.lookup, h1] at h
      simp only [replaceMember, h2, if_false, List.lookup, h1]
      exact ih h

theorem getPath_nestObjects (segs : List String) (j : Json) :
    getPath segs (nestObjects segs j) = some j := by
  induction segs with
  | nil => rfl
  | cons s rest ih => simp [getPath, nestObjects, List.lookup, ih]

theorem setPath_index_none (idx : String) (v : Json) (hidx : isIndex idx = true)
    (hzero : digitsToNat idx.data = 0) :
    setPath [idx] v none = .ok (.array [v]) := by
  simp [setPath, hidx, hzero]

/-- Where the document has nothing, member names create nested objects. -/
theorem setPath_create (segs tail : List String) (v c : Json)
    (hsegs : ∀ s ∈ segs, isIndex s = false) (htail : setPath tail v none = .ok c) :
    setPath (segs ++ tail) v none = .ok (nestObjects segs c) := by
  induction segs with
  | nil => simpa [nestObjects] using htail
  | cons s rest ih =>
    have hs : isIndex s = false := hsegs s (List.mem_cons_self s rest)
    have ih' := ih (fun s' hs' => hsegs s' (List.mem_cons_of_mem s hs'))
    simp [setPath, ih', hs, nestObjects]

/-- Setting below a path of member names that the document does not hold yet
creates the path and leaves at it what the rest of the path creates. -/
theorem setPath_absent (segs tail : List String) (v c : Json) (doc : Json)
    (hsegs : ∀ s ∈ segs, isIndex s = false) (htail : setPath tail v none = .ok c)
    (habsent : pathAbsent segs doc = true) :
    ∃ doc', setPath (segs ++ tail) v (some doc) = .ok doc'
      ∧ getPath segs doc' = some c := by
  induction segs generalizing doc with
  | nil => simp [pathAbsent] at habsent
  | cons s rest ih =>
    have hrest : ∀ s' ∈ rest, isIndex s' = false :=
      fun s' hs' => hsegs s' (List.mem_cons_of_mem s hs')
    cases doc with
    | object kvs =>
      cases hl : kvs.lookup s with
      | none =>
        refine ⟨.object (kvs ++ [(s, nestObjects rest c)]), ?_, ?_⟩
        · simp [setPath, hl, setPath_create rest tail v c hrest htail]
        · simp [getPath, lookup_append_of_none kvs s _ hl, getPath_nestObjects]
      | some child =>
        have hc : pathAbsent rest child = true := by
          simpa [pathAbsent, hl] using habsent
        obtain ⟨c', hset, hget⟩ := ih child hrest hc
        refine ⟨.object (replaceMember s c' kvs), ?_, ?_⟩
        · simp [setPath, hl, hset]
        · simp [getPath, lookup_replaceMember kvs s child c' hl, hget]
    | null => simp [pathAbsent] at habsent
    | bool b => simp [pathAbsent] at habsent
    | number f => simp [pathAbsent] at habsent
    | string str => simp [pathAbsent] at habsent
    | array xs => simp [pathAbsent] at habsent

theorem setPath_grow (segs : List String) (idx : String) (v : Json) (doc : Json)
    (xs : List Json) (hidx : isIndex idx = true) (hlen : digitsToNat idx.data = xs.length)
    (hget : getPath segs doc = some (.array xs)) :
    ∃ doc', setPath (segs ++ [idx]) v (some doc) = .ok doc'
      ∧ getPath segs doc' = some (.array (xs ++ [v])) := by
  induction segs generalizing doc with
  | nil =>
    simp only [getPath, Option.some.injEq] at hget
    subst hget
    exact ⟨.array (xs ++ [v]), by simp [setPath, hidx, hlen], rfl⟩
  | cons s rest ih =>
    cases doc with
    | object kvs =>
      cases hl : kvs.lookup s with
      | none => simp [getPath, hl] at hget
      | some child =>
        have hc : getPath rest child = some (.array xs) := by
          simpa [getPath, hl] using hget
        obtain ⟨c', hset, hget'⟩ := ih child hc
        refine ⟨.object (replaceMember s c' kvs), ?_, ?_⟩
        · simp [setPath, hl, hset]
        · simp [getPath, lookup_replaceMember kvs s child c' hl, hget']
    | null => simp [getPath] at hget
    | bool b => simp [getPath] at hget
    | number f => simp [getPath] at hget
    | string str => simp [getPath] at hget
    | array ys => simp [getPath] at hget

theorem rangeFloat64_ignore (E : Env) (o : httpDecoderOptions) (key : String) (path : Path)
    (h : o.handleParseErrors = ParseErrorIgnoreConversionErrors) (vs : List String) (k : Nat)
    (raw : RawMessage) :
    rangeFloat64 E o key path k vs raw
      = .ok (setElements E path.Name k (vs.map (elementOrRaw E .floats)) raw) := by
  induction vs generalizing k raw with
  | nil => rfl
  | cons v vs ih =>
    simp only [rangeFloat64, h, List.map, setElements, elementOrRaw]
    rcases hp : E.ParseFloat v with ⟨f, _ | err⟩
    · simp [ih]
    · simp [ih]

theorem rangeBool_ignore (E : Env) (o : httpDecoderOptions) (key : String) (path : Path)
    (h : o.handleParseErrors = ParseErrorIgnoreConversionErrors) (vs : List String) (k : Nat)
    (raw : RawMessage) :
    rangeBool E o key path k vs raw
      = .ok (setElements E path.Name k (vs.map (elementOrRaw E .bools)) raw) := by
  induction vs generalizing k raw with
  | nil => rfl
  | cons v vs ih =>
    simp only [rangeBool, h, List.map, setElements, elementOrRaw]
    rcases hp : ParseBool v with ⟨f, _ | err⟩
    · simp [ih]
    · simp [ih]

theorem splitDots_no_dot (acc ds : List Char) (h : ∀ c ∈ ds, c ≠ '.') :
    splitDots acc ds = [String.mk (acc.reverse ++ ds)] := by
  induction ds generalizing acc with
  | nil => simp [splitDots]
  | cons c cs ih =>
    have hc : c ≠ '.' := h c (List.mem_cons_self c cs)
    simp [splitDots, hc, ih (c :: acc) (fun c' hc' => h c' (List.mem_cons_of_mem c hc'))]

theorem splitDots_append_dot (acc cs ds : List Char) (h : ∀ c ∈ ds, c ≠ '.') :
    splitDots acc (cs ++ '.' :: ds) = splitDots acc cs ++ [String.mk ds] := by
  induction cs generalizing acc with
  | nil => simp [splitDots, splitDots_no_dot [] ds h]
  | cons c cs ih =>
    by_cases hc : c = '.'
    · simp [splitDots, hc, ih]
    · simp [splitDots, hc, ih]

theorem isDigit_ne_special (c : Char) (h : c.isDigit = true) :
    c ≠ '.' ∧ c ≠ '*' ∧ c ≠ '?' ∧ c ≠ '#' := by
  refine ⟨?_, ?_, ?_, ?_⟩ <;> (rintro rfl; revert h; decide)

theorem element_path_data (name : String) (k : Nat) :
    (name ++ "." ++ Itoa k).data = name.data ++ '.' :: (Itoa k).data := by
  simp [String.data_append]

theorem sjsonSetBytes_element (name : String) (k : Nat) (x : Value) (raw : RawMessage)
    (hname : ∀ c ∈ name.data, c ≠ '*' ∧ c ≠ '?' ∧ c ≠ '#') :
    sjsonSetBytes raw (name ++ "." ++ Itoa k) x
      = match setPath (splitDots [] name.data ++ [Itoa k]) x.toJson raw with
        | .error e => (none, some e)
        | .ok doc => (some doc, none) := by
  have hdata := element_path_data name k
  have hne : ¬ (name ++ "." ++ Itoa k) = "" := by
    intro he
    have := congrArg String.data he
    rw [hdata] at this
    simp at this
  have hdig : ∀ c ∈ (Itoa k).data, c ≠ '.' ∧ c ≠ '*' ∧ c ≠ '?' ∧ c ≠ '#' :=
    fun c hc => isDigit_ne_special c (Itoa_all_digits k c hc)
  have hw : (name ++ "." ++ Itoa k).data.any (fun c => decide (c = '*' ∨ c = '?')) = false := by
    rw [hdata, List.any_eq_false]
    intro c hc
    rcases List.mem_append.mp hc with hc | hc
    · simp [(hname c hc).1, (hname c hc).2.1]
    · rcases List.mem_cons.mp hc with rfl | hc
      · decide
      · simp [(hdig c hc).2.1, (hdig c hc).2.2.1]
  have hh : (name ++ "." ++ Itoa k).data.any (fun c => decide (c = '#')) = false := by
    rw [hdata, List.any_eq_false]
    intro c hc
    rcases List.mem_append.mp hc with hc | hc
    · simp [(hname c hc).2.2]
    · rcases List.mem_cons.mp hc with rfl | hc
      · decide
      · simp [(hdig c hc).2.2.2]
  have hsplit : splitDots [] (name ++ "." ++ Itoa k).data
      = splitDots [] name.data ++ [Itoa k] := by
    rw [hdata, splitDots_append_dot [] name.data (Itoa k).data (fun c hc => (hdig c hc).1)]
  simp only [sjsonSetBytes, hne, hw, hh, hsplit, if_false, Bool.false_eq_true]

theorem isIndex_Itoa (k : Nat) : isIndex (Itoa k) = true := by
  simp only [isIndex, List.all_eq_true]
  exact Itoa_all_digits k

theorem setElements_grow (E : Env) (hs : E.SetBytes = sjsonSetBytes) (name : String)
    (hname : ∀ c ∈ name.data, c ≠ '*' ∧ c ≠ '?' ∧ c ≠ '#') (ys : List Value) :
    ∀ (k : Nat) (xs : List Json) (doc : Json),
      getPath (splitDots [] name.data) doc = some (.array xs) → xs.length = k →
      ∃ doc', setElements E name k ys (some doc) = some doc'
        ∧ getPath (splitDots [] name.data) doc'
            = some (.array (xs ++ ys.map Value.toJson)) := by
  induction ys with
  | nil =>
    intro k xs doc hget _
    exact ⟨doc, rfl, by simpa using hget⟩
  | cons y ys ih =>
    intro k xs doc hget hlen
    obtain ⟨doc1, hset, hget1⟩ := setPath_grow (splitDots [] name.data) (Itoa k) y.toJson doc xs
      (isIndex_Itoa k) (by rw [Itoa_value, hlen]) hget
    obtain ⟨doc', hrest, hget'⟩ := ih (k + 1) (xs ++ [y.toJson]) doc1 hget1 (by simp [hlen])
    refine ⟨doc', ?_, by simpa using hget'⟩
    simp only [setElements, hs, sjsonSetBytes_element name k y (some doc) hname, hset]
    exact hrest

theorem setElements_create (E : Env) (hs : E.SetBytes = sjsonSetBytes) (name : String)
    (hplain : plainName name = true) (y : Value) (ys : List Value) (doc : Json)
    (habsent : pathAbsent (splitDots [] name.data) doc = true) :
    ∃ doc', setElements E name 0 (y :: ys) (some doc) = some doc'
      ∧ getPath (splitDots [] name.data) doc'
          = some (.array ((y :: ys).map Value.toJson)) := by
  simp only [plainName, Bool.and_eq_true, List.all_eq_true, Bool.and_eq_true, bne_iff_ne, ne_eq,
    Bool.not_eq_true'] at hplain
  obtain ⟨hname, hsegs⟩ := hplain
  have hname' : ∀ c ∈ name.data, c ≠ '*' ∧ c ≠ '?' ∧ c ≠ '#' :=
    fun c hc => ⟨(hname c hc).1.1, (hname c hc).1.2, (hname c hc).2⟩
  obtain ⟨doc1, hset, hget1⟩ := setPath_absent (splitDots [] name.data) [Itoa 0] y.toJson
    (.array [y.toJson]) doc hsegs
    (setPath_index_none (Itoa 0) y.toJson (isIndex_Itoa 0) (Itoa_value 0)) habsent
  obtain ⟨doc', hrest, hget'⟩ := setElements_grow E hs name hname' ys 1 [y.toJson] doc1 hget1 rfl
  refine ⟨doc', ?_, by simpa using hget'⟩
  simp only [setElements, hs, sjsonSetBytes_element name 0 y (some doc) hname', hset]
  exact hrest

theorem find?_name_eq (paths : List Path) (key : String) (path : Path)
    (h : paths.find? (fun p => decide (key = p.Name)) = some path) : path.Name = key := by
  have := List.find?_some h
  simp only [decide_eq_true_eq] at this
  exact this.symm

/-- One key's step under `IgnoreConversionErrors`: a key whose first schema path
of that name is an array-of-number or array-of-boolean path performs one set per
raw value, in list order, at `name.0`, `name.1`, ..., of the parsed value where
the raw value parses and of the raw string where it does not, and returns no
error.  With sjson's path semantics, for a path name of plain member names that
the document does not hold yet and a non-empty value list, the document then
holds at that path the array of exactly those elements.  A form with this one
key is decoded by exactly this step from `{}`. -/
theorem rangePaths_ignore_array_step
    (E : Env) (values : Values) (paths : List Path) (o : httpDecoderOptions)
    (key : String) (path : Path)
    (hstrategy : o.handleParseErrors = ParseErrorIgnoreConversionErrors)
    (hpath : paths.find? (fun p => decide (key = p.Name)) = some path)
    (htype : path.Type_ = .floats ∨ path.Type_ = .bools) :
    (∀ raw, rangePaths E values o key paths raw
        = .ok (setElements E key 0
            ((Values.index values key).map (elementOrRaw E path.Type_)) raw))
    ∧ (E.SetBytes = sjsonSetBytes → plainName key = true → Values.index values key ≠ [] →
        ∀ doc, pathAbsent (splitDots [] key.data) doc = true →
          ∃ doc', rangePaths E values o key paths (some doc) = .ok (some doc')
            ∧ getPath (splitDots [] key.data) doc'
                = some (.array ((Values.index values key).map
                    (fun v => (elementOrRaw E path.Type_ v).toJson))))
    ∧ (∀ vs, decodeURLValues E [(key, vs)] paths o
        = rangePaths E [(key, vs)] o key paths emptyObject) := by
  have hn := find?_name_eq paths key path hpath
  have hloop : ∀ raw, rangePaths E values o key paths raw
      = .ok (setElements E key 0
          ((Values.index values key).map (elementOrRaw E path.Type_)) raw) := by
    intro raw
    rw [rangePaths_of_find_some E values o key paths raw path hpath]
    rcases htype with ht | ht
    · simp [switchPathType, ht, rangeFloat64_ignore E o key path hstrategy, checkSetError, hn]
    · simp [switchPathType, ht, rangeBool_ignore E o key path hstrategy, checkSetError, hn]
  refine ⟨hloop, fun hs hplain hne doc habsent => ?_, fun vs => ?_⟩
  · rw [hloop]
    cases hv : Values.index values key with
    | nil => exact absurd hv hne
    | cons v vs =>
      obtain ⟨doc', hset, hget⟩ := setElements_create E hs key hplain
        (elementOrRaw E path.Type_ v) (vs.map (elementOrRaw E path.Type_)) doc habsent
      refine ⟨doc', ?_, ?_⟩
      · simp only [List.map, hset]
      · simpa [List.map_map] using hget
  · simp only [decodeURLValues, Values.keys, List.map, rangeValues]
    cases rangePaths E [(key, vs)] o key paths emptyObject <;> rfl

/-! ### The flattening of a JSON body -/

theorem Values.index_Set (values : Values) (k x k' : String) :
    Values.index (Values.Set values k x) k' = if k' = k then [x] else Values.index values k' := by
  induction values with
  | nil =>
    by_cases h : k' = k
    · simp [Values.Set, Values.index, List.lookup, h]
    · have h1 : (k' == k) = false := by simpa using h
      simp [Values.Set, Values.index, List.lookup, h, h1]
  | cons kv rest ih =>
    obtain ⟨a, vs⟩ := kv
    simp only [Values.index] at ih ⊢
    by_cases hak : a = k
    · subst hak
      by_cases h : k' = a
      · simp [Values.Set, List.lookup, h]
      · have h1 : (k' == a) = false := by simpa using h
        simp [Values.Set, List.lookup, h, h1]
    · by_cases h : k' = a
      · subst h
        simp [Values.Set, List.lookup, hak]
      · have h1 : (k' == a) = false := by simpa using h
        simp only [Values.Set, hak, if_false, List.lookup, h1]
        exact ih

theorem forEachSet_append (E : Env) (pre post : List (String × Json)) (values : Values) :
    forEachSet E (pre ++ post) values = forEachSet E post (forEachSet E pre values) := by
  induction pre generalizing values with
  | nil => rfl
  | cons m pre ih =>
    obtain ⟨k, v⟩ := m
    exact ih _

/-- Members with other keys leave the value list of a key as it was. -/
theorem index_forEachSet_of_ne (E : Env) (members : List (String × Json)) (values : Values)
    (key : String) (h : ∀ m ∈ members, m.1 ≠ key) :
    Values.index (forEachSet E members values) key = Values.index values key := by
  induction members generalizing values with
  | nil => rfl
  | cons m members ih =>
    obtain ⟨k, v⟩ := m
    have hk : ¬ key = k := fun e => h (k, v) (List.mem_cons_self _ _) e.symm
    simp only [forEachSet]
    rw [ih _ (fun m' hm' => h m' (List.mem_cons_of_mem _ hm')), Values.index_Set]
    simp [hk]

/-- The value list of a key is the string value of the last member with that key, alone. -/
theorem index_forEachSet (E : Env) (pre post : List (String × Json)) (key : String) (v : Json)
    (values : Values) (hpost : ∀ m ∈ post, m.1 ≠ key) :
    Values.index (forEachSet E (pre ++ (key, v) :: post) values) key = [ResultString E v] := by
  rw [forEachSet_append]
  simp only [forEachSet]
  rw [index_forEachSet_of_ne E post _ key hpost, Values.index_Set]
  simp

theorem plainName_chars (name : String) (h : plainName name = true) :
    (∀ c ∈ name.data, c ≠ '*' ∧ c ≠ '?' ∧ c ≠ '#')
      ∧ (∀ s ∈ splitDots [] name.data, isIndex s = false) ∧ name ≠ "" := by
  have hne : name ≠ "" := by
    rintro rfl
    revert h
    decide
  simp only [plainName, Bool.and_eq_true, List.all_eq_true, Bool.and_eq_true, bne_iff_ne, ne_eq,
    Bool.not_eq_true'] at h
  exact ⟨fun c hc => ⟨(h.1 c hc).1.1, (h.1 c hc).1.2, (h.1 c hc).2⟩, h.2, hne⟩

theorem sjsonSetBytes_plain (name : String) (x : Value) (raw : RawMessage)
    (hplain : plainName name = true) :
    sjsonSetBytes raw name x
      = match setPath (splitDots [] name.data) x.toJson raw with
        | .error e => (none, some e)
        | .ok doc => (some doc, none) := by
  obtain ⟨hname, _, hne⟩ := plainName_chars name hplain
  have hw : name.data.any (fun c => decide (c = '*' ∨ c = '?')) = false := by
    rw [List.any_eq_false]
    intro c hc
    simp [(hname c hc).1, (hname c hc).2.1]
  have hh : name.data.any (fun c => decide (c = '#')) = false := by
    rw [List.any_eq_false]
    intro c hc
    simp [(hname c hc).2.2]
  simp only [sjsonSetBytes, hne, hw, hh, if_false, Bool.false_eq_true]

/-- A body that parses to anything but an object is rejected by `decodeJSONForm`. -/
theorem decodeJSONForm_rejects_non_object (E : Env) (r : Request) (destination : E.Dest)
    (o : httpDecoderOptions) (compiler : Compiler) (paths : List Path) (interim : Json)
    (hc : o.jsonSchemaCompiler = some compiler)
    (hp : E.ListPathsWithRecursion o.jsonSchemaRef compiler o.maxCircularReferenceDepth
      = .ok paths)
    (hb : r.Body.failure = none) (hd : E.DecodeInterim r.Body.unread = .ok interim)
    (hno : ∀ members, interim ≠ .object members) :
    ∃ r' err, decodeJSONForm E r destination o = (r', destination, some err)
      ∧ err.isBadRequest = true := by
  have hdi : ∃ err, decodeInterim E interim paths o = .error err ∧ err.isBadRequest = true := by
    cases interim with
    | object members => exact absurd rfl (hno members)
    | null => exact ⟨_, rfl, rfl⟩
    | bool b => exact ⟨_, rfl, rfl⟩
    | number f => exact ⟨_, rfl, rfl⟩
    | string str => exact ⟨_, rfl, rfl⟩
    | array xs => exact ⟨_, rfl, rfl⟩
  obtain ⟨err, herr, hbad⟩ := hdi
  by_cases hk : o.keepRequestBody = true
  · refine ⟨{ r with Body := NopCloser r.Body.unread }, err, ?_, hbad⟩
    simp [decodeJSONForm, hc, hp, requestBody, hk, ReadAll, hb, readReader, NopCloser, hd, herr]
  · refine ⟨{ r with Body := { r.Body with unread := "" } }, err, ?_, hbad⟩
    simp [decodeJSONForm, hc, hp, requestBody, hk, ReadAll, hb, readReader, hd, herr]

/-! ### C12: a failing path-set operation -/

/-- The check `if err != nil` after the type switch never sees an error of
`sjson.SetBytes` for a number, boolean, array-of-number or array-of-boolean path:
whatever the library returns, the function-level `err` is nil after the switch. -/
theorem switchPathType_coerced_err_none (E : Env) (values : Values) (o : httpDecoderOptions)
    (key : String) (path : Path) (raw : RawMessage) (r : RawMessage × Option String)
    (ht : path.Type_ = .float ∨ path.Type_ = .bool ∨ path.Type_ = .floats ∨ path.Type_ = .bools)
    (h : switchPathType E values o key path raw = .ok r) : r.2 = none := by
  rcases ht with ht | ht | ht | ht
  · simp only [switchPathType, ht] at h
    split at h
    · split at h <;> (try split at h) <;> (try split at h) <;> simp at h <;> simp [← h]
    · simp at h
      simp [← h]
  · simp only [switchPathType, ht] at h
    split at h
    · simp at h
    · split at h
      · split at h <;> (try split at h) <;> (try split at h) <;> simp at h <;> simp [← h]
      · simp at h
        simp [← h]
  · simp only [switchPathType, ht] at h
    split at h
    · simp at h
    · simp at h
      simp [← h]
  · simp only [switchPathType, ht] at h
    split at h
    · simp at h
    · simp at h
      simp [← h]

/-- C12 (failing input): schema paths `a : array of string` and `a.b : number`,
form `a=x&a.b=1`, key `a` visited first.  Setting `a.b` in `{"a":["x"]}` fails in
sjson (a member name used as the index of an array).  The decoder does not
return a bad-request error: it returns no error and the nil body the library
handed back.  With `a.b` typed string the same failure is returned as
"Unable to type assert values from HTTP Post Body".  For every behaviour of the
libraries, a number, boolean, array-of-number or array-of-boolean key whose type
switch completes is never followed by that error. -/
theorem coerced_path_set_failure_is_swallowed :
    (goEnv.SetBytes (some (.object [("a", .array [.string "x"])])) "a.b"
        (.float (.finite false 1 0)))
      = (none, some "cannot set array element for non-numeric key b")
    ∧ decodeURLValues goEnv [("a", ["x"]), ("a.b", ["1"])] [⟨"a", .strings⟩, ⟨"a.b", .float⟩]
        (newHTTPDecoderOptions []) = .ok none
    ∧ decodeURLValues goEnv [("a", ["x"]), ("a.b", ["1"])] [⟨"a", .strings⟩, ⟨"a.b", .string⟩]
        (newHTTPDecoderOptions [])
      = .error (.herodot (ErrBadRequest.WithReasonf
          ("Unable to type assert values from HTTP Post Body: "
            ++ "cannot set array element for non-numeric key b")))
    ∧ (∀ (E : Env) (values : Values) (o : httpDecoderOptions) (key : String) (path : Path)
          (raw : RawMessage) (r : RawMessage × Option String),
        (path.Type_ = .float ∨ path.Type_ = .bool ∨ path.Type_ = .floats
          ∨ path.Type_ = .bools) →
        switchPathType E values o key path raw = .ok r →
        checkSetError (switchPathType E values o key path raw) = .ok r.1) := by
  refine ⟨by decide, by decide, by decide, fun E values o key path raw r ht h => ?_⟩
  have h2 := switchPathType_coerced_err_none E values o key path raw r ht h
  obtain ⟨raw', err⟩ := r
  simp only at h2
  subst h2
  rw [h]
  rfl

/-! ### C13: the dispatch of Decode -/

theorem knownContentTypes_toOption (f : PublicOption) (c : httpDecoderOptions)
    (h : knownContentTypes c) : knownContentTypes (f.toOption c) := by
  cases f <;> first
    | exact h
    | (intro t ht
       simp [PublicOption.toOption, HTTPFormDecoder, HTTPJSONDecoder] at ht
       rcases ht with rfl | rfl <;> simp)

theorem knownContentTypes_applyOptions (opts : List PublicOption) (c : httpDecoderOptions)
    (h : knownContentTypes c) :
    knownContentTypes (applyOptions (opts.map PublicOption.toOption) c) := by
  induction opts generalizing c with
  | nil => exact h
  | cons f fs ih => exact ih (f.toOption c) (knownContentTypes_toOption f c h)

theorem knownContentTypes_new (opts : List PublicOption) :
    knownContentTypes (newHTTPDecoderOptions (opts.map PublicOption.toOption)) := by
  apply knownContentTypes_applyOptions
  intro t ht
  simp at ht
  rcases ht with rfl | rfl | rfl <;> simp

/-- A request that passes `validateRequest` matches one of the allowed content types. -/
theorem hasContentType_of_valid (E : Env) (r : Request) (c : httpDecoderOptions)
    (h : validateRequest E r c = none) : HasContentType E r c.allowedContentTypes = true := by
  have hspec := (validateRequest_spec E r c).1
  rw [h] at hspec
  by_cases hc : HasContentType E r c.allowedContentTypes = true
  · exact hc
  · have hf : HasContentType E r c.allowedContentTypes = false := by simpa using hc
    have := hspec.mpr (Or.inr (Or.inr hf))
    simp at this

/-- C13: for every configuration built from the public options and every request
that `validateRequest` accepts, `Decode` runs exactly one of the three
strategies, chosen by the dispatch rule: the plain JSON path when the
Content-Type is JSON and flattened JSON is off, the JSON-as-form path when it is
JSON and flattened JSON is on, and the form path when it is not JSON and is
multipart or URL-encoded.  The three cases exclude one another and leave no
request for the branch "Unable to determine decoder for content type". -/
theorem decode_dispatch_is_total (E : Env) (r : Request) (destination : E.Dest)
    (opts : List PublicOption)
    (hvalid : validateRequest E r (newHTTPDecoderOptions (opts.map PublicOption.toOption))
      = none) :
    (HasContentType E r [httpContentTypeJSON] = true
      ∧ (newHTTPDecoderOptions (opts.map PublicOption.toOption)).expectJSONFlattened = false
      ∧ Decode E r destination (opts.map PublicOption.toOption)
          = decodeJSON E r destination (newHTTPDecoderOptions (opts.map PublicOption.toOption)))
    ∨ (HasContentType E r [httpContentTypeJSON] = true
      ∧ (newHTTPDecoderOptions (opts.map PublicOption.toOption)).expectJSONFlattened = true
      ∧ Decode E r destination (opts.map PublicOption.toOption)
          = decodeJSONForm E r destination
              (newHTTPDecoderOptions (opts.map PublicOption.toOption)))
    ∨ (HasContentType E r [httpContentTypeJSON] = false
      ∧ HasContentType E r [httpContentTypeMultipartForm, httpContentTypeURLEncodedForm] = true
      ∧ Decode E r destination (opts.map PublicOption.toOption)
          = decodeForm E r destination
              (newHTTPDecoderOptions (opts.map PublicOption.toOption))) := by
  have hct := hasContentType_of_valid E r _ hvalid
  have hknown := knownContentTypes_new opts
  by_cases hj : HasContentType E r [httpContentTypeJSON] = true
  · by_cases hf : (newHTTPDecoderOptions (opts.map PublicOption.toOption)).expectJSONFlattened
        = true
    · exact Or.inr (Or.inl ⟨hj, hf, by simp [Decode, hvalid, hj, hf]⟩)
    · have hf' : (newHTTPDecoderOptions (opts.map PublicOption.toOption)).expectJSONFlattened
          = false := by simpa using hf
      exact Or.inl ⟨hj, hf', by simp [Decode, hvalid, hj, hf']⟩
  · have hj' : HasContentType E r [httpContentTypeJSON] = false := by simpa using hj
    have hform : HasContentType E r
        [httpContentTypeMultipartForm, httpContentTypeURLEncodedForm] = true := by
      simp only [HasContentType, List.any_eq_true] at hct
      obtain ⟨t, ht, hm⟩ := hct
      rcases hknown t ht with rfl | rfl | rfl
      · simp [HasContentType, hm] at hj'
      · simp [HasContentType, hm]
      · simp [HasContentType, hm]
    exact Or.inr (Or.inr ⟨hj', hform, by simp [Decode, hvalid, hj', hform]⟩)

/-- C13 (witness): a URL-encoded POST against `HTTPFormDecoder` with a schema
compiler, which is dispatched to the form path. -/
theorem decode_dispatch_is_total_witness :
    validateRequest goEnv ⟨"POST", 3, "application/x-www-form-urlencoded", ⟨"a=1", none⟩, []⟩
        (newHTTPDecoderOptions
          ([PublicOption.FormDecoder, PublicOption.JSONSchemaCompiler "s.json" none].map
            PublicOption.toOption)) = none
    ∧ HasContentType goEnv
        ⟨"POST", 3, "application/x-www-form-urlencoded", ⟨"a=1", none⟩, []⟩
        [httpContentTypeJSON] = false
    ∧ Decode goEnv ⟨"POST", 3, "application/x-www-form-urlencoded", ⟨"a=1", none⟩, []⟩
          (none : RawMessage)
          ([PublicOption.FormDecoder, PublicOption.JSONSchemaCompiler "s.json" none].map
            PublicOption.toOption)
        = decodeForm goEnv
            ⟨"POST", 3, "application/x-www-form-urlencoded", ⟨"a=1", none⟩, []⟩
            (none : RawMessage)
            (newHTTPDecoderOptions
              ([PublicOption.FormDecoder, PublicOption.JSONSchemaCompiler "s.json" none].map
                PublicOption.toOption)) := by
  have h := decode_dispatch_is_total goEnv
    ⟨"POST", 3, "application/x-www-form-urlencoded", ⟨"a=1", none⟩, []⟩ (none : RawMessage)
    [PublicOption.FormDecoder, PublicOption.JSONSchemaCompiler "s.json" none] (by decide)
  have hj : HasContentType goEnv
      ⟨"POST", 3, "application/x-www-form-urlencoded", ⟨"a=1", none⟩, []⟩
      [httpContentTypeJSON] = false := by decide
  refine ⟨by decide, hj, ?_⟩
  rcases h with ⟨h1, _⟩ | ⟨h1, _⟩ | ⟨_, _, h3⟩
  · rw [hj] at h1
    exact Bool.noConfusion h1
  · rw [hj] at h1
    exact Bool.noConfusion h1
  · exact h3

/-! ### C11: the order in which the keys are visited -/

theorem setPath_nil_none (c : Json) : setPath [] c none = .ok c := rfl

/-- On a path the document does not hold yet, a set succeeds. -/
theorem setPath_eq_putDoc (segs : List String) (c doc : Json)
    (hsegs : ∀ s ∈ segs, isIndex s = false) (habsent : pathAbsent segs doc = true) :
    setPath segs c (some doc) = .ok (putDoc segs c doc)
      ∧ getPath segs (putDoc segs c doc) = some c := by
  obtain ⟨doc', hset, hget⟩ := setPath_absent segs [] c c doc hsegs rfl habsent
  rw [List.append_nil] at hset
  have hp : putDoc segs c doc = doc' := by simp only [putDoc, hset]
  rw [hp]
  exact ⟨hset, hget⟩

/-- Setting below an absent path is setting, at the path, what the rest of the path creates. -/
theorem setPath_absent_eq (segs tail : List String) (v c : Json) (doc : Json)
    (hsegs : ∀ s ∈ segs, isIndex s = false) (htail : setPath tail v none = .ok c)
    (habsent : pathAbsent segs doc = true) :
    setPath (segs ++ tail) v (some doc) = setPath segs c (some doc) := by
  induction segs generalizing doc with
  | nil => simp [pathAbsent] at habsent
  | cons s rest ih =>
    have hrest : ∀ s' ∈ rest, isIndex s' = false :=
      fun s' hs' => hsegs s' (List.mem_cons_of_mem s hs')
    cases doc with
    | object kvs =>
      cases hl : kvs.lookup s with
      | none =>
        have h1 := setPath_create rest tail v c hrest htail
        have h2 := setPath_create rest [] c c hrest rfl
        rw [List.append_nil] at h2
        simp [setPath, hl, h1, h2]
      | some child =>
        have hc : pathAbsent rest child = true := by
          simpa [pathAbsent, hl] using habsent
        simp [setPath, hl, ih child hrest hc]
    | null => simp [pathAbsent] at habsent
    | bool b => simp [pathAbsent] at habsent
    | number f => simp [pathAbsent] at habsent
    | string str => simp [pathAbsent] at habsent
    | array xs => simp [pathAbsent] at habsent

/-- Appending to the array at a path is setting the longer array at the path. -/
theorem setPath_grow_eq (segs : List String) (idx : String) (v : Json) (doc : Json)
    (xs : List Json) (hidx : isIndex idx = true) (hlen : digitsToNat idx.data = xs.length)
    (hget : getPath segs doc = some (.array xs)) :
    setPath (segs ++ [idx]) v (some doc) = setPath segs (.array (xs ++ [v])) (some doc) := by
  induction segs generalizing doc with
  | nil =>
    simp only [getPath, Option.some.injEq] at hget
    subst hget
    simp [setPath, hidx, hlen]
  | cons s rest ih =>
    cases doc with
    | object kvs =>
      cases hl : kvs.lookup s with
      | none => simp [getPath, hl] at hget
      | some child =>
        have hc : getPath rest child = some (.array xs) := by
          simpa [getPath, hl] using hget
        simp [setPath, hl, ih child hc]
    | null => simp [getPath] at hget
    | bool b => simp [getPath] at hget
    | number f => simp [getPath] at hget
    | string str => simp [getPath] at hget
    | array ys => simp [getPath] at hget

theorem setPath_nestObjects (segs : List String) (c1 c2 : Json) :
    setPath segs c2 (some (nestObjects segs c1)) = .ok (nestObjects segs c2) := by
  induction segs with
  | nil => rfl
  | cons s rest ih => simp [setPath, nestObjects, List.lookup, ih, replaceMember]

theorem replaceMember_append_of_none (kvs : List (String × Json)) (s : String) (c1 c2 : Json)
    (h : kvs.lookup s = none) :
    replaceMember s c2 (kvs ++ [(s, c1)]) = kvs ++ [(s, c2)] := by
  induction kvs with
  | nil => simp [replaceMember]
  | cons kv rest ih =>
    obtain ⟨k, v⟩ := kv
    by_cases hk : s = k
    · subst hk
      simp [List.lookup] at h
    · have h1 : (s == k) = false := by simpa using hk
      have h2 : ¬ k = s := fun e => hk e.symm
      simp only [List.lookup, h1] at h
      simp [replaceMember, h2, ih h]

theorem replaceMember_replaceMember (kvs : List (String × Json)) (s : String) (c1 c2 : Json) :
    replaceMember s c2 (replaceMember s c1 kvs) = replaceMember s c2 kvs := by
  induction kvs with
  | nil => rfl
  | cons kv rest ih =>
    obtain ⟨k, v⟩ := kv
    by_cases hk : k = s
    · simp [replaceMember, hk]
    · simp [replaceMember, hk, ih]

/-- A second set at the same path replaces what the first one left there. -/
theorem setPath_overwrite (segs : List String) (c1 c2 doc : Json)
    (hsegs : ∀ s ∈ segs, isIndex s = false) (habsent : pathAbsent segs doc = true) :
    setPath segs c2 (some (putDoc segs c1 doc)) = setPath segs c2 (some doc) := by
  induction segs generalizing doc with
  | nil => simp [pathAbsent] at habsent
  | cons s rest ih =>
    have hrest : ∀ s' ∈ rest, isIndex s' = false :=
      fun s' hs' => hsegs s' (List.mem_cons_of_mem s hs')
    cases doc with
    | object kvs =>
      cases hl : kvs.lookup s with
      | none =>
        have h1 := setPath_create rest [] c1 c1 hrest rfl
        have h2 := setPath_create rest [] c2 c2 hrest rfl
        rw [List.append_nil] at h1 h2
        have hp : putDoc (s :: rest) c1 (.object kvs)
            = .object (kvs ++ [(s, nestObjects rest c1)]) := by
          have hset : setPath (s :: rest) c1 (some (.object kvs))
              = .ok (.object (kvs ++ [(s, nestObjects rest c1)])) := by
            simp only [setPath, hl, h1]
          rw [putDoc, hset]
        rw [hp]
        simp only [setPath, hl, h2, lookup_append_of_none kvs s _ hl, setPath_nestObjects,
          replaceMember_append_of_none kvs s _ _ hl]
      | some child =>
        have hc : pathAbsent rest child = true := by
          simpa [pathAbsent, hl] using habsent
        have hput := (setPath_eq_putDoc rest c1 child hrest hc).1
        have hput2 := (setPath_eq_putDoc rest c2 child hrest hc).1
        have hp : putDoc (s :: rest) c1 (.object kvs)
            = .object (replaceMember s (putDoc rest c1 child) kvs) := by
          have hset : setPath (s :: rest) c1 (some (.object kvs))
              = .ok (.object (replaceMember s (putDoc rest c1 child) kvs)) := by
            simp only [setPath, hl, hput]
          rw [putDoc, hset]
        rw [hp]
        simp only [setPath, hl, hput2, lookup_replaceMember kvs s child _ hl,
          ih child hrest hc, replaceMember_replaceMember]
    | null => simp [pathAbsent] at habsent
    | bool b => simp [pathAbsent] at habsent
    | number f => simp [pathAbsent] at habsent
    | string str => simp [pathAbsent] at habsent
    | array xs => simp [pathAbsent] at habsent

theorem SetBytes_put (E : Env) (hs : E.SetBytes = sjsonSetBytes) (key : String) (x : Value)
    (doc : Json) (hplain : plainName key = true)
    (habsent : pathAbsent (splitDots [] key.data) doc = true) :
    E.SetBytes (some doc) key x
      = (some (putDoc (splitDots [] key.data) x.toJson doc), none) := by
  obtain ⟨_, hsegs, _⟩ := plainName_chars key hplain
  rw [hs, sjsonSetBytes_plain key x (some doc) hplain,
    (setPath_eq_putDoc _ x.toJson doc hsegs habsent).1]

theorem setElements_put_grow (E : Env) (hs : E.SetBytes = sjsonSetBytes) (key : String)
    (hplain : plainName key = true) (doc : Json)
    (habsent : pathAbsent (splitDots [] key.data) doc = true) (ys : List Value) :
    ∀ (k : Nat) (xs : List Json), xs.length = k →
      setElements E key k ys (some (putDoc (splitDots [] key.data) (.array xs) doc))
        = some (putDoc (splitDots [] key.data) (.array (xs ++ ys.map Value.toJson)) doc) := by
  obtain ⟨hname, hsegs, _⟩ := plainName_chars key hplain
  induction ys with
  | nil =>
    intro k xs _
    simp [setElements]
  | cons y ys ih =>
    intro k xs hlen
    have hget := (setPath_eq_putDoc _ (.array xs) doc hsegs habsent).2
    have hstep : E.SetBytes (some (putDoc (splitDots [] key.data) (.array xs) doc))
        (key ++ "." ++ Itoa k) y
        = (some (putDoc (splitDots [] key.data) (.array (xs ++ [y.toJson])) doc), none) := by
      rw [hs, sjsonSetBytes_element key k y _ hname,
        setPath_grow_eq _ (Itoa k) y.toJson _ xs (isIndex_Itoa k)
          (by rw [Itoa_value, hlen]) hget,
        setPath_overwrite _ _ _ doc hsegs habsent,
        (setPath_eq_putDoc _ _ doc hsegs habsent).1]
    simp only [setElements, hstep]
    rw [ih (k + 1) (xs ++ [y.toJson]) (by simp [hlen])]
    simp

theorem setElements_put (E : Env) (hs : E.SetBytes = sjsonSetBytes) (key : String)
    (hplain : plainName key = true) (doc : Json)
    (habsent : pathAbsent (splitDots [] key.data) doc = true) (y : Value) (ys : List Value) :
    setElements E key 0 (y :: ys) (some doc)
      = some (putDoc (splitDots [] key.data) (.array ((y :: ys).map Value.toJson)) doc) := by
  obtain ⟨hname, hsegs, _⟩ := plainName_chars key hplain
  have hstep : E.SetBytes (some doc) (key ++ "." ++ Itoa 0) y
      = (some (putDoc (splitDots [] key.data) (.array [y.toJson]) doc), none) := by
    rw [hs, sjsonSetBytes_element key 0 y _ hname,
      setPath_absent_eq _ [Itoa 0] y.toJson (.array [y.toJson]) doc hsegs
        (setPath_index_none (Itoa 0) y.toJson (isIndex_Itoa 0) (Itoa_value 0)) habsent,
      (setPath_eq_putDoc _ _ doc hsegs habsent).1]
  simp only [setElements, hstep]
  rw [setElements_put_grow E hs key hplain doc habsent ys 1 [y.toJson] rfl]
  simp

theorem rangeFloat64_eq_coerce (E : Env) (o : httpDecoderOptions) (key : String) (path : Path)
    (h : definedStrategy o) (vs : List String) (k : Nat) (raw : RawMessage) :
    rangeFloat64 E o key path k vs raw
      = match coerceFloats E o key k vs with
        | .error e => .error e
        | .ok ys => .ok (setElements E path.Name k ys raw) := by
  induction vs generalizing k raw with
  | nil => rfl
  | cons v vs ih =>
    simp only [rangeFloat64, coerceFloats]
    rcases hp : E.ParseFloat v with ⟨f, _ | err⟩
    · simp only [ih]
      cases coerceFloats E o key (k + 1) vs <;> simp [Except.map, setElements]
    · by_cases h1 : o.handleParseErrors = ParseErrorIgnoreConversionErrors
      · simp only [eq_true h1, if_true, ih]
        cases coerceFloats E o key (k + 1) vs <;> simp [Except.map, setElements]
      · by_cases h2 : o.handleParseErrors = ParseErrorUseEmptyValueOnConversionErrors
        · simp only [eq_false h1, eq_true h2, if_true, if_false, ih]
          cases coerceFloats E o key (k + 1) vs <;> simp [Except.map, setElements]
        · have h3 : o.handleParseErrors = ParseErrorReturnOnConversionErrors := by
            rcases h with h | h | h
            · exact absurd h h1
            · exact absurd h h2
            · exact h
          simp only [eq_false h1, eq_false h2, eq_true h3, if_true, if_false]

theorem rangeBool_eq_coerce (E : Env) (o : httpDecoderOptions) (key : String) (path : Path)
    (h : definedStrategy o) (vs : List String) (k : Nat) (raw : RawMessage) :
    rangeBool E o key path k vs raw
      = match coerceBools E o key k vs with
        | .error e => .error e
        | .ok ys => .ok (setElements E path.Name k ys raw) := by
  induction vs generalizing k raw with
  | nil => rfl
  | cons v vs ih =>
    simp only [rangeBool, coerceBools]
    rcases hp : ParseBool v with ⟨f, _ | err⟩
    · simp only [ih]
      cases coerceBools E o key (k + 1) vs <;> simp [Except.map, setElements]
    · by_cases h1 : o.handleParseErrors = ParseErrorIgnoreConversionErrors
      · simp only [eq_true h1, if_true, ih]
        cases coerceBools E o key (k + 1) vs <;> simp [Except.map, setElements]
      · by_cases h2 : o.handleParseErrors = ParseErrorUseEmptyValueOnConversionErrors
        · simp only [eq_false h1, eq_true h2, if_true, if_false, ih]
          cases coerceBools E o key (k + 1) vs <;> simp [Except.map, setElements]
        · have h3 : o.handleParseErrors = ParseErrorReturnOnConversionErrors := by
            rcases h with h | h | h
            · exact absurd h h1
            · exact absurd h h2
            · exact h
          simp only [eq_false h1, eq_false h2, eq_true h3, if_true, if_false]

/-- Under sjson's path semantics, a matched key with a plain name whose path the
document does not hold yet contributes exactly `keyValue`: an error, nothing, or
one value set at its path. -/
theorem rangePaths_sjson (E : Env) (hs : E.SetBytes = sjsonSetBytes) (values : Values)
    (paths : List Path) (o : httpDecoderOptions) (hstrategy : definedStrategy o)
    (key : String) (path : Path)
    (hpath : paths.find? (fun p => decide (key = p.Name)) = some path)
    (hplain : plainName key = true) (doc : Json)
    (habsent : pathAbsent (splitDots [] key.data) doc = true) :
    rangePaths E values o key paths (some doc)
      = applyKeyValue (splitDots [] key.data) doc (keyValue E values o key path.Type_) := by
  rw [rangePaths_of_find_some E values o key paths (some doc) path hpath]
  have hn := find?_name_eq paths key path hpath
  have hput := fun x => SetBytes_put E hs key x doc hplain habsent
  cases ht : path.Type_ with
  | strings => simp only [switchPathType, ht, hn, keyValue, hput, checkSetError, applyKeyValue]
  | interfaces =>
    simp only [switchPathType, ht, hn, keyValue, hput, checkSetError, applyKeyValue]
  | objects => simp only [switchPathType, ht, hn, keyValue, hput, checkSetError, applyKeyValue]
  | string =>
    simp only [switchPathType, ht, hn, keyValue, hput, checkSetError, applyKeyValue,
      Value.toJson]
  | object =>
    simp only [switchPathType, ht, hn, keyValue, hput, checkSetError, applyKeyValue,
      Value.toJson]
  | other => simp only [switchPathType, ht, keyValue, checkSetError, applyKeyValue]
  | floats =>
    simp only [switchPathType, ht, keyValue, rangeFloat64_eq_coerce E o key path hstrategy, hn]
    cases hc : coerceFloats E o key 0 (Values.index values key) with
    | error e => rfl
    | ok ys =>
      cases ys with
      | nil => rfl
      | cons y ys =>
        simp only [setElements_put E hs key hplain doc habsent y ys, checkSetError,
          elementsValue, applyKeyValue]
  | bools =>
    simp only [switchPathType, ht, keyValue, rangeBool_eq_coerce E o key path hstrategy, hn]
    cases hc : coerceBools E o key 0 (Values.index values key) with
    | error e => rfl
    | ok ys =>
      cases ys with
      | nil => rfl
      | cons y ys =>
        simp only [setElements_put E hs key hplain doc habsent y ys, checkSetError,
          elementsValue, applyKeyValue]
  | bool =>
    simp only [switchPathType, ht, keyValue, hn]
    cases (Values.index values key).getLast? with
    | none => rfl
    | some v =>
      simp only []
      rcases hp : ParseBool v with ⟨f, _ | err⟩
      · simp only [hput, checkSetError, applyKeyValue, Value.toJson]
      · by_cases h1 : o.handleParseErrors = ParseErrorIgnoreConversionErrors
        · simp only [eq_true h1, if_true, hput, checkSetError, applyKeyValue, Value.toJson]
        · by_cases h2 : o.handleParseErrors = ParseErrorUseEmptyValueOnConversionErrors
          · simp only [eq_false h1, eq_true h2, if_true, if_false, hput, checkSetError,
              applyKeyValue, Value.toJson]
          · have h3 : o.handleParseErrors = ParseErrorReturnOnConversionErrors := by
              rcases hstrategy with h | h | h
              · exact absurd h h1
              · exact absurd h h2
              · exact h
            simp only [eq_false h1, eq_false h2, eq_true h3, if_true, if_false, checkSetError,
              applyKeyValue]
  | float =>
    simp only [switchPathType, ht, keyValue, hn]
    rcases hp : E.ParseFloat (Values.Get values key) with ⟨f, _ | err⟩
    · simp only [hput, checkSetError, applyKeyValue, Value.toJson]
    · by_cases h1 : o.handleParseErrors = ParseErrorIgnoreConversionErrors
      · simp only [eq_true h1, if_true, hput, checkSetError, applyKeyValue, Value.toJson]
      · by_cases h2 : o.handleParseErrors = ParseErrorUseEmptyValueOnConversionErrors
        · simp only [eq_false h1, eq_true h2, if_true, if_false, hput, checkSetError,
            applyKeyValue, Value.toJson]
        · have h3 : o.handleParseErrors = ParseErrorReturnOnConversionErrors := by
            rcases hstrategy with h | h | h
            · exact absurd h h1
            · exact absurd h h2
            · exact h
          simp only [eq_false h1, eq_false h2, eq_true h3, if_true, if_false, checkSetError,
            applyKeyValue]

theorem valueAt_cons_object (t : String) (q : List String) (kvs : List (String × Json)) :
    valueAt (t :: q) (.object kvs)
      = match kvs.lookup t with
        | some c => valueAt q c
        | none => none := by
  simp only [valueAt, getPath]
  cases kvs.lookup t <;> rfl

theorem valueAt_nil_object (kvs : List (String × Json)) :
    valueAt [] (.object kvs) = some (.object []) := rfl

theorem lookup_append_ne (kvs : List (String × Json)) (s t : String) (c : Json) (h : ¬ t = s) :
    (kvs ++ [(s, c)]).lookup t = kvs.lookup t := by
  have hts : (t == s) = false := by simpa using h
  induction kvs with
  | nil => simp [List.lookup, hts]
  | cons kv rest ih =>
    obtain ⟨k, v⟩ := kv
    simp only [List.cons_append, List.lookup]
    cases t == k
    · exact ih
    · rfl

theorem lookup_replaceMember_ne (kvs : List (String × Json)) (s t : String) (c : Json)
    (h : ¬ t = s) : (replaceMember s c kvs).lookup t = kvs.lookup t := by
  have hts : (t == s) = false := by simpa using h
  induction kvs with
  | nil => rfl
  | cons kv rest ih =>
    obtain ⟨k, v⟩ := kv
    by_cases hk : k = s
    · subst hk
      simp [replaceMember, List.lookup, hts]
    · simp only [replaceMember, hk, if_false, List.lookup, ih]

theorem putDoc_cons_none (s : String) (rest : List String) (v : Json)
    (kvs : List (String × Json)) (hrest : ∀ s' ∈ rest, isIndex s' = false)
    (hl : kvs.lookup s = none) :
    putDoc (s :: rest) v (.object kvs) = .object (kvs ++ [(s, nestObjects rest v)]) := by
  have h1 := setPath_create rest [] v v hrest rfl
  rw [List.append_nil] at h1
  have hset : setPath (s :: rest) v (some (.object kvs))
      = .ok (.object (kvs ++ [(s, nestObjects rest v)])) := by
    simp only [setPath, hl, h1]
  rw [putDoc, hset]

theorem putDoc_cons_some (s : String) (rest : List String) (v child : Json)
    (kvs : List (String × Json)) (hrest : ∀ s' ∈ rest, isIndex s' = false)
    (hl : kvs.lookup s = some child) (hc : pathAbsent rest child = true) :
    putDoc (s :: rest) v (.object kvs)
      = .object (replaceMember s (putDoc rest v child) kvs) := by
  have hput := (setPath_eq_putDoc rest v child hrest hc).1
  have hset : setPath (s :: rest) v (some (.object kvs))
      = .ok (.object (replaceMember s (putDoc rest v child) kvs)) := by
    simp only [setPath, hl, hput]
  rw [putDoc, hset]

/-- What every path resolves to in the nested objects of a path. -/
theorem valueAt_nestObjects (p : List String) (v : Json) (q : List String) :
    valueAt q (nestObjects p v)
      = if p.isPrefixOf q then valueAt (q.drop p.length) v
        else if q.isPrefixOf p then some (.object []) else none := by
  induction p generalizing q with
  | nil => simp [nestObjects]
  | cons s rest ih =>
    cases q with
    | nil => simp [nestObjects, valueAt_nil_object]
    | cons t q' =>
      by_cases hts : t = s
      · subst hts
        simp [nestObjects, valueAt_cons_object, List.lookup, ih]
      · have h1 : (t == s) = false := by simpa using hts
        have h2 : ¬ s = t := fun e => hts e.symm
        simp [nestObjects, valueAt_cons_object, List.lookup, h1, h2, hts]

/-- What every path resolves to after one set at a path the document did not
hold: the new value below the path, an object above it, the old document elsewhere. -/
theorem valueAt_putDoc (p : List String) (v doc : Json)
    (hp : ∀ s ∈ p, isIndex s = false) (habsent : pathAbsent p doc = true) (q : List String) :
    valueAt q (putDoc p v doc)
      = if p.isPrefixOf q then valueAt (q.drop p.length) v
        else if q.isPrefixOf p then some (.object []) else valueAt q doc := by
  induction p generalizing doc q with
  | nil => simp [pathAbsent] at habsent
  | cons s rest ih =>
    have hrest : ∀ s' ∈ rest, isIndex s' = false :=
      fun s' hs' => hp s' (List.mem_cons_of_mem s hs')
    cases doc with
    | object kvs =>
      cases hl : kvs.lookup s with
      | none =>
        rw [putDoc_cons_none s rest v kvs hrest hl]
        cases q with
        | nil => simp [valueAt_nil_object]
        | cons t q' =>
          by_cases hts : t = s
          · subst hts
            simp [valueAt_cons_object, lookup_append_of_none kvs t _ hl, hl,
              valueAt_nestObjects]
          · have h2 : ¬ s = t := fun e => hts e.symm
            simp [valueAt_cons_object, lookup_append_ne kvs s t _ hts, hts, h2]
      | some child =>
        have hc : pathAbsent rest child = true := by
          simpa [pathAbsent, hl] using habsent
        rw [putDoc_cons_some s rest v child kvs hrest hl hc]
        cases q with
        | nil => simp [valueAt_nil_object]
        | cons t q' =>
          by_cases hts : t = s
          · subst hts
            simp [valueAt_cons_object, lookup_replaceMember kvs t child _ hl, hl,
              ih child hrest hc q']
          · have h2 : ¬ s = t := fun e => hts e.symm
            simp [valueAt_cons_object, lookup_replaceMember_ne kvs s t _ hts, hts, h2]
    | null => simp [pathAbsent] at habsent
    | bool b => simp [pathAbsent] at habsent
    | number f => simp [pathAbsent] at habsent
    | string str => simp [pathAbsent] at habsent
    | array xs => simp [pathAbsent] at habsent

theorem pathAbsent_nestObjects (p : List String) (v : Json) (q : List String)
    (h1 : p.isPrefixOf q = false) (h2 : q.isPrefixOf p = false) :
    pathAbsent q (nestObjects p v) = true := by
  induction p generalizing q with
  | nil => simp at h1
  | cons s rest ih =>
    cases q with
    | nil => simp at h2
    | cons t q' =>
      by_cases hts : t = s
      · subst hts
        simp only [List.isPrefixOf, beq_self_eq_true, Bool.true_and] at h1 h2
        simp [nestObjects, pathAbsent, List.lookup, ih q' h1 h2]
      · have h3 : (t == s) = false := by simpa using hts
        simp [nestObjects, pathAbsent, List.lookup, h3]

/-- A set at one path leaves an unrelated path absent. -/
theorem pathAbsent_putDoc (p : List String) (v doc : Json) (q : List String)
    (hp : ∀ s ∈ p, isIndex s = false) (habsp : pathAbsent p doc = true)
    (habsq : pathAbsent q doc = true)
    (h1 : p.isPrefixOf q = false) (h2 : q.isPrefixOf p = false) :
    pathAbsent q (putDoc p v doc) = true := by
  induction p generalizing doc q with
  | nil => simp at h1
  | cons s rest ih =>
    have hrest : ∀ s' ∈ rest, isIndex s' = false :=
      fun s' hs' => hp s' (List.mem_cons_of_mem s hs')
    cases q with
    | nil => simp at h2
    | cons t q' =>
      cases doc with
      | object kvs =>
        cases hl : kvs.lookup s with
        | none =>
          rw [putDoc_cons_none s rest v kvs hrest hl]
          by_cases hts : t = s
          · subst hts
            simp only [List.isPrefixOf, beq_self_eq_true, Bool.true_and] at h1 h2
            simp [pathAbsent, lookup_append_of_none kvs t _ hl,
              pathAbsent_nestObjects rest v q' h1 h2]
          · simpa [pathAbsent, lookup_append_ne kvs s t _ hts] using habsq
        | some child =>
          have hc : pathAbsent rest child = true := by
            simpa [pathAbsent, hl] using habsp
          rw [putDoc_cons_some s rest v child kvs hrest hl hc]
          by_cases hts : t = s
          · subst hts
            simp only [List.isPrefixOf, beq_self_eq_true, Bool.true_and] at h1 h2
            have hcq : pathAbsent q' child = true := by
              simpa [pathAbsent, hl] using habsq
            simp [pathAbsent, lookup_replaceMember kvs t child _ hl,
              ih child q' hrest hc hcq h1 h2]
          · simpa [pathAbsent, lookup_replaceMember_ne kvs s t _ hts] using habsq
      | null => simp [pathAbsent] at habsp
      | bool b => simp [pathAbsent] at habsp
      | number f => simp [pathAbsent] at habsp
      | string str => simp [pathAbsent] at habsp
      | array xs => simp [pathAbsent] at habsp

theorem isPrefixOf_related (a b q : List String) (ha : a.isPrefixOf q = true)
    (hb : b.isPrefixOf q = true) : a.isPrefixOf b = true ∨ b.isPrefixOf a = true := by
  rw [List.isPrefixOf_iff_prefix] at ha hb ⊢
  rw [List.isPrefixOf_iff_prefix]
  exact List.prefix_or_prefix_of_prefix ha hb

theorem isPrefixOf_trans (a q b : List String) (ha : a.isPrefixOf q = true)
    (hb : q.isPrefixOf b = true) : a.isPrefixOf b = true := by
  rw [List.isPrefixOf_iff_prefix] at ha hb ⊢
  exact ha.trans hb

/-- The document after a list of sets at pairwise unrelated, absent paths, path by path. -/
theorem valueAt_putAll (ps : List (List String × Json)) (doc : Json)
    (hidx : ∀ pv ∈ ps, ∀ s ∈ pv.1, isIndex s = false)
    (habs : ∀ pv ∈ ps, pathAbsent pv.1 doc = true)
    (hpair : ps.Pairwise unrelatedPaths) (q : List String) :
    valueAt q (putAll ps doc) = valueAfterPuts ps doc q := by
  induction ps generalizing doc with
  | nil => simp [putAll, valueAfterPuts]
  | cons pv rest ih =>
    obtain ⟨p, v⟩ := pv
    have hp : ∀ s ∈ p, isIndex s = false := hidx (p, v) (List.mem_cons_self _ _)
    have hpabs : pathAbsent p doc = true := habs (p, v) (List.mem_cons_self _ _)
    rw [List.pairwise_cons] at hpair
    obtain ⟨hhead, hrest⟩ := hpair
    have habs1 : ∀ pv' ∈ rest, pathAbsent pv'.1 (putDoc p v doc) = true := by
      intro pv' hmem
      exact pathAbsent_putDoc p v doc pv'.1 hp hpabs
        (habs pv' (List.mem_cons_of_mem _ hmem)) (hhead pv' hmem).1 (hhead pv' hmem).2
    have hih := ih (putDoc p v doc)
      (fun pv' hmem => hidx pv' (List.mem_cons_of_mem _ hmem)) habs1 hrest
    simp only [putAll]
    rw [hih]
    have hlaw := valueAt_putDoc p v doc hp hpabs q
    by_cases hpq : p.isPrefixOf q = true
    · have hfind : rest.find? (fun pv' => pv'.1.isPrefixOf q) = none := by
        rw [List.find?_eq_none]
        intro pv' hmem hpre
        rcases isPrefixOf_related p pv'.1 q hpq hpre with h | h
        · rw [(hhead pv' hmem).1] at h
          exact Bool.noConfusion h
        · rw [(hhead pv' hmem).2] at h
          exact Bool.noConfusion h
      have hany : rest.any (fun pv' => q.isPrefixOf pv'.1) = false := by
        rw [List.any_eq_false]
        intro pv' hmem hpre
        have h := isPrefixOf_trans p q pv'.1 hpq hpre
        rw [(hhead pv' hmem).1] at h
        exact Bool.noConfusion h
      simp only [valueAfterPuts, hfind, hany, List.find?, hpq, hlaw, if_true]
      simp
    · have hpq' : p.isPrefixOf q = false := Bool.eq_false_iff.mpr hpq
      simp only [valueAfterPuts, List.find?, hpq', List.any_cons]
      cases hfind : rest.find? (fun pv' => pv'.1.isPrefixOf q) with
      | some pv' => rfl
      | none =>
        by_cases hany : rest.any (fun pv' => q.isPrefixOf pv'.1) = true
        · simp [hany]
        · have hany' : rest.any (fun pv' => q.isPrefixOf pv'.1) = false :=
            Bool.eq_false_iff.mpr hany
          simp only [hany', hlaw, hpq', Bool.or_false]
          simp

theorem unrelatedPaths_symm {a b : List String × Json} (h : unrelatedPaths a b) :
    unrelatedPaths b a := ⟨h.2, h.1⟩

/-- The value a path resolves to after the sets does not depend on their order. -/
theorem valueAfterPuts_perm (ps ps' : List (List String × Json)) (doc : Json)
    (q : List String) (hperm : ps.Perm ps') (hpair : ps.Pairwise unrelatedPaths) :
    valueAfterPuts ps doc q = valueAfterPuts ps' doc q := by
  have huniq : ∀ a ∈ ps, ∀ b ∈ ps, a.1.isPrefixOf q = true → b.1.isPrefixOf q = true →
      a = b := by
    intro a ha b hb hqa hqb
    by_contra hne
    have hun := hpair.forall (fun _ _ h => unrelatedPaths_symm h) ha hb hne
    rcases isPrefixOf_related a.1 b.1 q hqa hqb with h | h
    · rw [hun.1] at h
      exact Bool.noConfusion h
    · rw [hun.2] at h
      exact Bool.noConfusion h
  have hfind : ps.find? (fun pv => pv.1.isPrefixOf q)
      = ps'.find? (fun pv => pv.1.isPrefixOf q) := by
    cases h1 : ps.find? (fun pv => pv.1.isPrefixOf q) with
    | none =>
      symm
      rw [List.find?_eq_none] at h1 ⊢
      exact fun x hx => h1 x (hperm.mem_iff.mpr hx)
    | some a =>
      have ha := List.find?_some h1
      have hma := List.mem_of_find?_eq_some h1
      cases h2 : ps'.find? (fun pv => pv.1.isPrefixOf q) with
      | none =>
        rw [List.find?_eq_none] at h2
        exact absurd ha (h2 a (hperm.mem_iff.mp hma))
      | some b =>
        have hb := List.find?_some h2
        have hmb := hperm.mem_iff.mpr (List.mem_of_find?_eq_some h2)
        rw [huniq a hma b hmb ha hb]
  have hany : ps.any (fun pv => q.isPrefixOf pv.1) = ps'.any (fun pv => q.isPrefixOf pv.1) := by
    rw [Bool.eq_iff_iff, List.any_eq_true, List.any_eq_true]
    exact ⟨fun ⟨x, hx, h⟩ => ⟨x, hperm.mem_iff.mp hx, h⟩,
      fun ⟨x, hx, h⟩ => ⟨x, hperm.mem_iff.mpr hx, h⟩⟩
  simp only [valueAfterPuts, hfind, hany]

theorem matchesPath_of_find (paths : List Path) (key : String) (path : Path)
    (h : paths.find? (fun p => decide (key = p.Name)) = some path) :
    matchesPath paths key = true := by
  rw [matchesPath, List.any_eq_true]
  have hp := List.find?_some h
  exact ⟨path, List.mem_of_find?_eq_some h, hp⟩

theorem splitDots_ne_nil (acc cs : List Char) : splitDots acc cs ≠ [] := by
  induction cs generalizing acc with
  | nil => simp [splitDots]
  | cons c cs ih =>
    by_cases hc : c = '.'
    · simp [splitDots, hc]
    · simp [splitDots, hc, ih]

theorem pathAbsent_empty_object (segs : List String) (h : segs ≠ []) :
    pathAbsent segs (.object []) = true := by
  cases segs with
  | nil => exact absurd rfl h
  | cons s rest => rfl

/-- The relation the keys of a form without cross-key collisions stand in. -/
theorem rangeValues_sjson (E : Env) (hs : E.SetBytes = sjsonSetBytes) (values : Values)
    (paths : List Path) (o : httpDecoderOptions) (hstrategy : definedStrategy o)
    (keys : List String) (doc : Json)
    (hplain : ∀ k ∈ keys, matchesPath paths k = true → plainName k = true)
    (habs : ∀ k ∈ keys, matchesPath paths k = true →
      pathAbsent (splitDots [] k.data) doc = true)
    (hpair : keys.Pairwise (fun a b => matchesPath paths a = true → matchesPath paths b = true →
      (splitDots [] a.data).isPrefixOf (splitDots [] b.data) = false
        ∧ (splitDots [] b.data).isPrefixOf (splitDots [] a.data) = false)) :
    (keys.any (keyFails E values paths o) = true →
        ∃ e, rangeValues E values paths o keys (some doc) = .error e)
    ∧ (keys.any (keyFails E values paths o) = false →
        rangeValues E values paths o keys (some doc)
          = .ok (some (putAll (keys.filterMap (keyPut E values paths o)) doc))) := by
  induction keys generalizing doc with
  | nil => exact ⟨fun h => by simp at h, fun _ => rfl⟩
  | cons k ks ih =>
    rw [List.pairwise_cons] at hpair
    obtain ⟨hhead, htail⟩ := hpair
    have hplain' : ∀ k' ∈ ks, matchesPath paths k' = true → plainName k' = true :=
      fun k' hk' => hplain k' (List.mem_cons_of_mem _ hk')
    cases hfind : paths.find? (fun p => decide (k = p.Name)) with
    | none =>
      have hih := ih doc hplain' (fun k' hk' => habs k' (List.mem_cons_of_mem _ hk')) htail
      have hf : keyFails E values paths o k = false := by simp only [keyFails, hfind]
      have hp : keyPut E values paths o k = none := by simp only [keyPut, hfind]
      simp only [List.any_cons, hf, Bool.false_or, rangeValues,
        rangePaths_of_find_none E values o k paths (some doc) hfind,
        List.filterMap_cons_none hp]
      exact hih
    | some path =>
      have hm := matchesPath_of_find paths k path hfind
      have hkp := hplain k (List.mem_cons_self _ _) hm
      have hka := habs k (List.mem_cons_self _ _) hm
      have hstep := rangePaths_sjson E hs values paths o hstrategy k path hfind hkp doc hka
      cases hkv : keyValue E values o k path.Type_ with
      | error e =>
        have hf : keyFails E values paths o k = true := by simp only [keyFails, hfind, hkv]
        rw [hkv] at hstep
        simp only [List.any_cons, hf, Bool.true_or, rangeValues, hstep, applyKeyValue]
        exact ⟨fun _ => ⟨e, rfl⟩, fun h => Bool.noConfusion h⟩
      | ok r =>
        have hf : keyFails E values paths o k = false := by simp only [keyFails, hfind, hkv]
        rw [hkv] at hstep
        cases r with
        | none =>
          have hp : keyPut E values paths o k = none := by simp only [keyPut, hfind, hkv]
          have hih := ih doc hplain' (fun k' hk' => habs k' (List.mem_cons_of_mem _ hk')) htail
          simp only [List.any_cons, hf, Bool.false_or, rangeValues, hstep, applyKeyValue,
            List.filterMap_cons_none hp]
          exact hih
        | some v =>
          have hp : keyPut E values paths o k = some (splitDots [] k.data, v) := by
            simp only [keyPut, hfind, hkv]
          obtain ⟨_, hsegs, _⟩ := plainName_chars k hkp
          have habs1 : ∀ k' ∈ ks, matchesPath paths k' = true →
              pathAbsent (splitDots [] k'.data) (putDoc (splitDots [] k.data) v doc) = true := by
            intro k' hk' hm'
            exact pathAbsent_putDoc _ v doc _ hsegs hka
              (habs k' (List.mem_cons_of_mem _ hk') hm') (hhead k' hk' hm hm').1
              (hhead k' hk' hm hm').2
          have hih := ih (putDoc (splitDots [] k.data) v doc) hplain' habs1 htail
          simp only [List.any_cons, hf, Bool.false_or, rangeValues, hstep, applyKeyValue,
            List.filterMap_cons_some hp, putAll]
          exact hih

/-- Two visiting orders of one map hold the same value list for every key. -/
theorem lookup_perm (values values' : Values) (h : values.Perm values')
    (hn : (Values.keys values).Nodup) (k : String) :
    values.lookup k = values'.lookup k := by
  induction h with
  | nil => rfl
  | cons x _ ih =>
    obtain ⟨a, vs⟩ := x
    simp only [Values.keys, List.map, List.nodup_cons] at hn
    simp only [List.lookup]
    cases k == a
    · exact ih hn.2
    · rfl
  | swap x y l =>
    obtain ⟨a, vs⟩ := x
    obtain ⟨b, ws⟩ := y
    simp only [Values.keys, List.map, List.nodup_cons, List.mem_cons, not_or] at hn
    simp only [List.lookup]
    by_cases ha : k = a
    · by_cases hb : k = b
      · exact absurd (hb.symm.trans ha) hn.1.1
      · have h1 : (k == a) = true := by simpa using ha
        have h2 : (k == b) = false := by simpa using hb
        simp only [h1, h2]
    · have h1 : (k == a) = false := by simpa using ha
      cases k == b <;> simp only [h1]
  | trans h1 _ ih1 ih2 =>
    have hk : (Values.keys _).Nodup := (h1.map Prod.fst).nodup_iff.mp hn
    exact (ih1 hn).trans (ih2 hk)

theorem Values.index_perm (values values' : Values) (h : values.Perm values')
    (hn : (Values.keys values).Nodup) (k : String) :
    Values.index values k = Values.index values' k := by
  simp only [Values.index, lookup_perm values values' h hn k]

/-- C11 (counterexample): schema paths `a : object` and `a.b : string`, and the
form `a=x&a.b=y`.  Visiting `a` first gives `{"a":{"b":"y"}}`, visiting `a.b`
first gives `{"a":"x"}`: the two documents differ at the path `a`. -/
theorem visiting_order_matters_for_colliding_paths :
    decodeURLValues goEnv [("a", ["x"]), ("a.b", ["y"])] [⟨"a", .object⟩, ⟨"a.b", .string⟩]
        (newHTTPDecoderOptions [])
      = .ok (some (.object [("a", .object [("b", .string "y")])]))
    ∧ decodeURLValues goEnv [("a.b", ["y"]), ("a", ["x"])] [⟨"a", .object⟩, ⟨"a.b", .string⟩]
        (newHTTPDecoderOptions [])
      = .ok (some (.object [("a", .string "x")]))
    ∧ List.Perm [("a", ["x"]), ("a.b", ["y"])] [("a.b", ["y"]), ("a", ["x"])]
    ∧ ¬ sameDocument (.object [("a", .object [("b", .string "y")])])
        (.object [("a", .string "x")]) := by
  refine ⟨by decide, by decide, List.Perm.swap _ _ _, fun h => ?_⟩
  have := h ["a"]
  revert this
  decide

/-- C11 (amended): with sjson's path semantics and one of the three strategies,
take a form whose matched keys are dotted names of plain member names, no
matched key's path being a prefix of another's (no cross-key collisions).  Then
any two visiting orders of its entries either both fail or both return
documents in which every path of member names resolves to the same value: the
same JSON document, up to the order of the members of its objects. -/
theorem visiting_order_is_immaterial_without_collisions
    (E : Env) (values values' : Values) (paths : List Path) (o : httpDecoderOptions)
    (hs : E.SetBytes = sjsonSetBytes)
    (hperm : values.Perm values')
    (hnodup : (Values.keys values).Nodup)
    (hstrategy : definedStrategy o)
    (hplain : ∀ k ∈ Values.keys values, matchesPath paths k = true → plainName k = true)
    (hnocollision : ∀ k₁ ∈ Values.keys values, ∀ k₂ ∈ Values.keys values,
      matchesPath paths k₁ = true → matchesPath paths k₂ = true → k₁ ≠ k₂ →
      (splitDots [] k₁.data).isPrefixOf (splitDots [] k₂.data) = false) :
    sameResult (decodeURLValues E values paths o) (decodeURLValues E values' paths o) := by
  have hkeys : (Values.keys values).Perm (Values.keys values') := hperm.map Prod.fst
  have hsymm : ∀ {a b : String},
      (matchesPath paths a = true → matchesPath paths b = true →
        (splitDots [] a.data).isPrefixOf (splitDots [] b.data) = false
          ∧ (splitDots [] b.data).isPrefixOf (splitDots [] a.data) = false) →
      (matchesPath paths b = true → matchesPath paths a = true →
        (splitDots [] b.data).isPrefixOf (splitDots [] a.data) = false
          ∧ (splitDots [] a.data).isPrefixOf (splitDots [] b.data) = false) :=
    fun h hb ha => ⟨(h ha hb).2, (h ha hb).1⟩
  have hpair : (Values.keys values).Pairwise
      (fun a b => matchesPath paths a = true → matchesPath paths b = true →
        (splitDots [] a.data).isPrefixOf (splitDots [] b.data) = false
          ∧ (splitDots [] b.data).isPrefixOf (splitDots [] a.data) = false) :=
    hnodup.pairwise_of_forall_ne (fun a ha b hb hne hma hmb =>
      ⟨hnocollision a ha b hb hma hmb hne, hnocollision b hb a ha hmb hma (Ne.symm hne)⟩)
  have hpair' := hpair.perm hkeys hsymm
  have hplain' : ∀ k ∈ Values.keys values', matchesPath paths k = true → plainName k = true :=
    fun k hk => hplain k (hkeys.mem_iff.mpr hk)
  have habs : ∀ k, matchesPath paths k = true → plainName k = true →
      pathAbsent (splitDots [] k.data) (.object []) = true :=
    fun k _ _ => pathAbsent_empty_object _ (splitDots_ne_nil [] k.data)
  have h1 := rangeValues_sjson E hs values paths o hstrategy (Values.keys values) (.object [])
    hplain (fun k hk hm => habs k hm (hplain k hk hm)) hpair
  have h2 := rangeValues_sjson E hs values paths o hstrategy (Values.keys values') (.object [])
    hplain' (fun k hk hm => habs k hm (hplain' k hk hm)) hpair'
  have hd1 : decodeURLValues E values paths o
      = rangeValues E values paths o (Values.keys values) (some (.object [])) := rfl
  have hd2 : decodeURLValues E values' paths o
      = rangeValues E values paths o (Values.keys values') (some (.object [])) := by
    unfold decodeURLValues
    exact rangeValues_congr E values' values paths o _ _
      (fun k _ => (Values.index_perm values values' hperm hnodup k).symm)
  rw [hd1, hd2]
  have hany : (Values.keys values).any (keyFails E values paths o)
      = (Values.keys values').any (keyFails E values paths o) := by
    rw [Bool.eq_iff_iff, List.any_eq_true, List.any_eq_true]
    exact ⟨fun ⟨x, hx, h⟩ => ⟨x, hkeys.mem_iff.mp hx, h⟩,
      fun ⟨x, hx, h⟩ => ⟨x, hkeys.mem_iff.mpr hx, h⟩⟩
  cases hf : (Values.keys values).any (keyFails E values paths o) with
  | true =>
    obtain ⟨e1, he1⟩ := h1.1 hf
    obtain ⟨e2, he2⟩ := h2.1 (hany ▸ hf)
    rw [he1, he2]
    trivial
  | false =>
    rw [h1.2 hf, h2.2 (hany ▸ hf)]
    show sameDocument _ _
    intro q
    have hput : ∀ keys : List String,
        (∀ k ∈ keys, matchesPath paths k = true → plainName k = true) →
        ∀ pv ∈ keys.filterMap (keyPut E values paths o),
          (∀ s ∈ pv.1, isIndex s = false) ∧ pathAbsent pv.1 (.object []) = true := by
      intro keys hpl pv hpv
      rw [List.mem_filterMap] at hpv
      obtain ⟨k, hk, hkp⟩ := hpv
      simp only [keyPut] at hkp
      split at hkp
      · exact absurd hkp (by simp)
      · rename_i path hfind
        have hm := matchesPath_of_find paths k path hfind
        split at hkp
        · simp only [Option.some.injEq] at hkp
          subst hkp
          exact ⟨(plainName_chars k (hpl k hk hm)).2.1,
            pathAbsent_empty_object _ (splitDots_ne_nil [] k.data)⟩
        · exact absurd hkp (by simp)
    have hpp : ∀ keys : List String,
        keys.Pairwise (fun a b => matchesPath paths a = true → matchesPath paths b = true →
          (splitDots [] a.data).isPrefixOf (splitDots [] b.data) = false
            ∧ (splitDots [] b.data).isPrefixOf (splitDots [] a.data) = false) →
        (keys.filterMap (keyPut E values paths o)).Pairwise unrelatedPaths := by
      intro keys hpw
      refine List.Pairwise.filterMap _ ?_ hpw
      intro a a' hR b hb b' hb'
      simp only [keyPut, Option.mem_def] at hb hb'
      split at hb
      · exact absurd hb (by simp)
      · rename_i patha hfa
        split at hb'
        · exact absurd hb' (by simp)
        · rename_i pathb hfb
          have hma := matchesPath_of_find paths a patha hfa
          have hmb := matchesPath_of_find paths a' pathb hfb
          split at hb
          · split at hb'
            · simp only [Option.some.injEq] at hb hb'
              subst hb
              subst hb'
              exact hR hma hmb
            · exact absurd hb' (by simp)
          · exact absurd hb (by simp)
    rw [valueAt_putAll _ _ (fun pv hpv => (hput _ hplain pv hpv).1)
        (fun pv hpv => (hput _ hplain pv hpv).2) (hpp _ hpair),
      valueAt_putAll _ _ (fun pv hpv => (hput _ hplain' pv hpv).1)
        (fun pv hpv => (hput _ hplain' pv hpv).2) (hpp _ hpair')]
    exact valueAfterPuts_perm _ _ _ q (hkeys.filterMap _) (hpp _ hpair)

/-- C11 (witness): schema `a.b : array of number`, `c : boolean`, form
`a.b=1&a.b=x&c=true&c=false&zz=q`, visited in two orders.  The two bodies list
their members in different order and are the same document. -/
theorem visiting_order_is_immaterial_without_collisions_witness :
    decodeURLValues goEnv [("a.b", ["1", "x"]), ("c", ["true", "false"]), ("zz", ["q"])]
        [⟨"a.b", .floats⟩, ⟨"c", .bool⟩] (newHTTPDecoderOptions [])
      = .ok (some (.object [
          ("a", .object [("b", .array [.number (.finite false 1 0), .string "x"])]),
          ("c", .bool false)]))
    ∧ decodeURLValues goEnv [("c", ["true", "false"]), ("zz", ["q"]), ("a.b", ["1", "x"])]
        [⟨"a.b", .floats⟩, ⟨"c", .bool⟩] (newHTTPDecoderOptions [])
      = .ok (some (.object [
          ("c", .bool false),
          ("a", .object [("b", .array [.number (.finite false 1 0), .string "x"])])]))
    ∧ sameResult
        (decodeURLValues goEnv [("a.b", ["1", "x"]), ("c", ["true", "false"]), ("zz", ["q"])]
          [⟨"a.b", .floats⟩, ⟨"c", .bool⟩] (newHTTPDecoderOptions []))
        (decodeURLValues goEnv [("c", ["true", "false"]), ("zz", ["q"]), ("a.b", ["1", "x"])]
          [⟨"a.b", .floats⟩, ⟨"c", .bool⟩] (newHTTPDecoderOptions [])) :=
  ⟨by decide, by decide,
   visiting_order_is_immaterial_without_collisions goEnv
    [("a.b", ["1", "x"]), ("c", ["true", "false"]), ("zz", ["q"])]
    [("c", ["true", "false"]), ("zz", ["q"]), ("a.b", ["1", "x"])]
    [⟨"a.b", .floats⟩, ⟨"c", .bool⟩] (newHTTPDecoderOptions []) rfl
    (by decide) (by decide) (Or.inl rfl) (by decide) (by decide)⟩

/-! ### Whole forms whose matched keys do not collide -/

/-- The sets the matched plain keys of a form contribute are at paths of member
names, none of which the empty document holds. -/
theorem keyPut_paths (E : Env) (values : Values) (paths : List Path) (o : httpDecoderOptions)
    (keys : List String)
    (hpl : ∀ k ∈ keys, matchesPath paths k = true → plainName k = true) :
    ∀ pv ∈ keys.filterMap (keyPut E values paths o),
      (∀ s ∈ pv.1, isIndex s = false) ∧ pathAbsent pv.1 (.object []) = true := by
  intro pv hpv
  rw [List.mem_filterMap] at hpv
  obtain ⟨k, hk, hkp⟩ := hpv
  simp only [keyPut] at hkp
  split at hkp
  · exact absurd hkp (by simp)
  · rename_i path hfind
    have hm := matchesPath_of_find paths k path hfind
    split at hkp
    · simp only [Option.some.injEq] at hkp
      subst hkp
      exact ⟨(plainName_chars k (hpl k hk hm)).2.1,
        pathAbsent_empty_object _ (splitDots_ne_nil [] k.data)⟩
    · exact absurd hkp (by simp)

/-- Keys without cross-key collisions contribute sets at unrelated paths. -/
theorem keyPut_pairwise (E : Env) (values : Values) (paths : List Path) (o : httpDecoderOptions)
    (keys : List String)
    (hpw : keys.Pairwise (fun a b => matchesPath paths a = true → matchesPath paths b = true →
      (splitDots [] a.data).isPrefixOf (splitDots [] b.data) = false
        ∧ (splitDots [] b.data).isPrefixOf (splitDots [] a.data) = false)) :
    (keys.filterMap (keyPut E values paths o)).Pairwise unrelatedPaths := by
  refine List.Pairwise.filterMap _ ?_ hpw
  intro a a' hR b hb b' hb'
  simp only [keyPut, Option.mem_def] at hb hb'
  split at hb
  · exact absurd hb (by simp)
  · rename_i patha hfa
    split at hb'
    · exact absurd hb' (by simp)
    · rename_i pathb hfb
      have hma := matchesPath_of_find paths a patha hfa
      have hmb := matchesPath_of_find paths a' pathb hfb
      split at hb
      · split at hb'
        · simp only [Option.some.injEq] at hb hb'
          subst hb
          subst hb'
          exact hR hma hmb
        · exact absurd hb' (by simp)
      · exact absurd hb (by simp)

/-- Distinct keys of which no matched one's path is a prefix of another's. -/
theorem keys_pairwise_of_nodup (paths : List Path) (keys : List String) (hnodup : keys.Nodup)
    (hnocollision : ∀ k₁ ∈ keys, ∀ k₂ ∈ keys,
      matchesPath paths k₁ = true → matchesPath paths k₂ = true → k₁ ≠ k₂ →
      (splitDots [] k₁.data).isPrefixOf (splitDots [] k₂.data) = false) :
    keys.Pairwise (fun a b => matchesPath paths a = true → matchesPath paths b = true →
      (splitDots [] a.data).isPrefixOf (splitDots [] b.data) = false
        ∧ (splitDots [] b.data).isPrefixOf (splitDots [] a.data) = false) :=
  hnodup.pairwise_of_forall_ne (fun a ha b hb hne hma hmb =>
    ⟨hnocollision a ha b hb hma hmb hne, hnocollision b hb a ha hmb hma (Ne.symm hne)⟩)

/-- A value that is not an object is held as it is resolved. -/
theorem getPath_of_valueAt (q : List String) (doc v : Json) (h : valueAt q doc = some v)
    (hv : ∀ ms, v ≠ .object ms) : getPath q doc = some v := by
  simp only [valueAt] at h
  split at h
  · simp only [Option.some.injEq] at h
    exact absurd h.symm (hv [])
  · exact h

theorem valueAt_nil (v : Json) (hv : ∀ ms, v ≠ .object ms) : valueAt [] v = some v := by
  cases v with
  | object ms => exact absurd rfl (hv ms)
  | null => rfl
  | bool b => rfl
  | number f => rfl
  | string s => rfl
  | array xs => rfl

/-- After a list of sets at pairwise unrelated, absent paths the document holds
at the path of each set the value of that set. -/
theorem getPath_putAll_of_mem (ps : List (List String × Json)) (doc : Json)
    (hidx : ∀ pv ∈ ps, ∀ s ∈ pv.1, isIndex s = false)
    (habs : ∀ pv ∈ ps, pathAbsent pv.1 doc = true)
    (hpair : ps.Pairwise unrelatedPaths) (p : List String) (v : Json)
    (hmem : (p, v) ∈ ps) (hv : ∀ ms, v ≠ .object ms) :
    getPath p (putAll ps doc) = some v := by
  apply getPath_of_valueAt _ _ _ _ hv
  rw [valueAt_putAll ps doc hidx habs hpair p]
  have hrefl : p.isPrefixOf p = true := by
    rw [List.isPrefixOf_iff_prefix]
  simp only [valueAfterPuts]
  cases hfind : ps.find? (fun pv => pv.1.isPrefixOf p) with
  | none =>
    rw [List.find?_eq_none] at hfind
    exact absurd hrefl (hfind (p, v) hmem)
  | some pv =>
    have hpre := List.find?_some hfind
    have hin := List.mem_of_find?_eq_some hfind
    have heq : pv = (p, v) := by
      by_contra hne
      have hun := hpair.forall (fun _ _ h => unrelatedPaths_symm h) hin hmem hne
      have h1 : pv.1.isPrefixOf p = false := hun.1
      rw [h1] at hpre
      exact Bool.noConfusion hpre
    subst heq
    simp only [List.drop_length]
    exact valueAt_nil v hv

/-- A key of a form has an entry, whose list `values[key]` is. -/
theorem Values.index_of_mem_keys (values : Values) (key : String)
    (h : key ∈ Values.keys values) : ∃ vs, (key, vs) ∈ values ∧ Values.index values key = vs := by
  induction values with
  | nil => simp [Values.keys] at h
  | cons kv rest ih =>
    obtain ⟨a, ws⟩ := kv
    by_cases ha : key = a
    · subst ha
      exact ⟨ws, List.mem_cons_self _ _, by simp [Values.index, List.lookup]⟩
    · have h1 : (key == a) = false := by simpa using ha
      have hrest : key ∈ Values.keys rest := by
        simp only [Values.keys, List.map, List.mem_cons] at h
        rcases h with h | h
        · exact absurd h ha
        · exact h
      obtain ⟨vs, hvs, hidx⟩ := ih hrest
      refine ⟨vs, List.mem_cons_of_mem _ hvs, ?_⟩
      simp only [Values.index, List.lookup, h1] at hidx ⊢
      exact hidx

/-- A key with a non-empty value list is a key of the form. -/
theorem Values.mem_keys_of_index (values : Values) (key : String)
    (h : Values.index values key ≠ []) : key ∈ Values.keys values := by
  induction values with
  | nil => simp [Values.index, List.lookup] at h
  | cons kv rest ih =>
    obtain ⟨a, ws⟩ := kv
    by_cases ha : key = a
    · subst ha
      simp [Values.keys]
    · have h1 : (key == a) = false := by simpa using ha
      simp only [Values.index, List.lookup, h1] at h
      simp only [Values.keys, List.map, List.mem_cons]
      exact Or.inr (ih h)

theorem coerceFloats_error (E : Env) (o : httpDecoderOptions) (hstrategy : definedStrategy o)
    (key : String) (vs : List String) (k : Nat) (e : Error)
    (h : coerceFloats E o key k vs = .error e) :
    o.handleParseErrors = ParseErrorReturnOnConversionErrors ∧ e.isBadRequest = true := by
  induction vs generalizing k with
  | nil => simp [coerceFloats] at h
  | cons v vs ih =>
    simp only [coerceFloats] at h
    split at h
    · split at h
      · cases hr : coerceFloats E o key (k + 1) vs with
        | error e' =>
          rw [hr] at h
          simp only [Except.map, Except.error.injEq] at h
          subst h
          exact ih _ hr
        | ok ys =>
          rw [hr] at h
          simp [Except.map] at h
      · split at h
        · cases hr : coerceFloats E o key (k + 1) vs with
          | error e' =>
            rw [hr] at h
            simp only [Except.map, Except.error.injEq] at h
            subst h
            exact ih _ hr
          | ok ys =>
            rw [hr] at h
            simp [Except.map] at h
        · rename_i hi hu
          simp only [Except.error.injEq] at h
          subst h
          refine ⟨?_, rfl⟩
          rcases hstrategy with h1 | h1 | h1
          · exact absurd h1 hi
          · exact absurd h1 hu
          · exact h1
    · cases hr : coerceFloats E o key (k + 1) vs with
      | error e' =>
        rw [hr] at h
        simp only [Except.map, Except.error.injEq] at h
        subst h
        exact ih _ hr
      | ok ys =>
        rw [hr] at h
        simp [Except.map] at h

theorem coerceBools_error (E : Env) (o : httpDecoderOptions) (hstrategy : definedStrategy o)
    (key : String) (vs : List String) (k : Nat) (e : Error)
    (h : coerceBools E o key k vs = .error e) :
    o.handleParseErrors = ParseErrorReturnOnConversionErrors ∧ e.isBadRequest = true := by
  induction vs generalizing k with
  | nil => simp [coerceBools] at h
  | cons v vs ih =>
    simp only [coerceBools] at h
    split at h
    · split at h
      · cases hr : coerceBools E o key (k + 1) vs with
        | error e' =>
          rw [hr] at h
          simp only [Except.map, Except.error.injEq] at h
          subst h
          exact ih _ hr
        | ok ys =>
          rw [hr] at h
          simp [Except.map] at h
      · split at h
        · cases hr : coerceBools E o key (k + 1) vs with
          | error e' =>
            rw [hr] at h
            simp only [Except.map, Except.error.injEq] at h
            subst h
            exact ih _ hr
          | ok ys =>
            rw [hr] at h
            simp [Except.map] at h
        · rename_i hi hu
          simp only [Except.error.injEq] at h
          subst h
          refine ⟨?_, rfl⟩
          rcases hstrategy with h1 | h1 | h1
          · exact absurd h1 hi
          · exact absurd h1 hu
          · exact h1
    · cases hr : coerceBools E o key (k + 1) vs with
      | error e' =>
        rw [hr] at h
        simp only [Except.map, Except.error.injEq] at h
        subst h
        exact ih _ hr
      | ok ys =>
        rw [hr] at h
        simp [Except.map] at h

theorem elementsValue_error (r : Except Error (List Value)) (e : Error)
    (h : elementsValue r = .error e) : r = .error e := by
  cases r with
  | error e' =>
    simp only [elementsValue, Except.error.injEq] at h
    rw [h]
  | ok ys =>
    cases ys <;> simp [elementsValue] at h

/-- A key with a non-empty value list fails only by a conversion error under
`ReturnOnConversionErrors`, which is a bad-request error. -/
theorem keyValue_error (E : Env) (values : Values) (o : httpDecoderOptions)
    (hstrategy : definedStrategy o) (key : String) (t : PathType) (e : Error)
    (hne : Values.index values key ≠ [])
    (h : keyValue E values o key t = .error e) :
    o.handleParseErrors = ParseErrorReturnOnConversionErrors ∧ e.isBadRequest = true := by
  have hlast : ∃ v, (Values.index values key).getLast? = some v := by
    cases hl : (Values.index values key).getLast? with
    | none => exact absurd (List.getLast?_eq_none_iff.mp hl) hne
    | some v => exact ⟨v, rfl⟩
  obtain ⟨last, hlast⟩ := hlast
  cases t with
  | strings => simp [keyValue] at h
  | interfaces => simp [keyValue] at h
  | objects => simp [keyValue] at h
  | string => simp [keyValue] at h
  | object => simp [keyValue] at h
  | other => simp [keyValue] at h
  | floats =>
    exact coerceFloats_error E o hstrategy key _ 0 e (elementsValue_error _ e h)
  | bools =>
    exact coerceBools_error E o hstrategy key _ 0 e (elementsValue_error _ e h)
  | bool =>
    simp only [keyValue, hlast] at h
    split at h
    · split at h
      · simp at h
      · split at h
        · simp at h
        · rename_i hi hu
          simp only [Except.error.injEq] at h
          subst h
          refine ⟨?_, rfl⟩
          rcases hstrategy with h1 | h1 | h1
          · exact absurd h1 hi
          · exact absurd h1 hu
          · exact h1
    · simp at h
  | float =>
    simp only [keyValue] at h
    split at h
    · split at h
      · simp at h
      · split at h
        · simp at h
        · rename_i hi hu
          simp only [Except.error.injEq] at h
          subst h
          refine ⟨?_, rfl⟩
          rcases hstrategy with h1 | h1 | h1
          · exact absurd h1 hi
          · exact absurd h1 hu
          · exact h1
    · simp at h

/-- The error of the loop over the keys is the error of one of its matched keys. -/
theorem rangeValues_error_of_key (E : Env) (hs : E.SetBytes = sjsonSetBytes) (values : Values)
    (paths : List Path) (o : httpDecoderOptions) (hstrategy : definedStrategy o)
    (keys : List String) (doc : Json)
    (hplain : ∀ k ∈ keys, matchesPath paths k = true → plainName k = true)
    (habs : ∀ k ∈ keys, matchesPath paths k = true →
      pathAbsent (splitDots [] k.data) doc = true)
    (hpair : keys.Pairwise (fun a b => matchesPath paths a = true → matchesPath paths b = true →
      (splitDots [] a.data).isPrefixOf (splitDots [] b.data) = false
        ∧ (splitDots [] b.data).isPrefixOf (splitDots [] a.data) = false))
    (e : Error) (h : rangeValues E values paths o keys (some doc) = .error e) :
    ∃ k ∈ keys, ∃ path, paths.find? (fun p => decide (k = p.Name)) = some path
      ∧ keyValue E values o k path.Type_ = .error e := by
  induction keys generalizing doc with
  | nil => simp [rangeValues] at h
  | cons k ks ih =>
    rw [List.pairwise_cons] at hpair
    obtain ⟨hhead, htail⟩ := hpair
    have hplain' : ∀ k' ∈ ks, matchesPath paths k' = true → plainName k' = true :=
      fun k' hk' => hplain k' (List.mem_cons_of_mem _ hk')
    have hlift : (∃ k' ∈ ks, ∃ path, paths.find? (fun p => decide (k' = p.Name)) = some path
        ∧ keyValue E values o k' path.Type_ = .error e) →
        ∃ k' ∈ k :: ks, ∃ path, paths.find? (fun p => decide (k' = p.Name)) = some path
          ∧ keyValue E values o k' path.Type_ = .error e :=
      fun ⟨k', hk', hrest⟩ => ⟨k', List.mem_cons_of_mem _ hk', hrest⟩
    cases hfind : paths.find? (fun p => decide (k = p.Name)) with
    | none =>
      simp only [rangeValues, rangePaths_of_find_none E values o k paths (some doc) hfind] at h
      exact hlift (ih doc hplain' (fun k' hk' => habs k' (List.mem_cons_of_mem _ hk')) htail h)
    | some path =>
      have hm := matchesPath_of_find paths k path hfind
      have hkp := hplain k (List.mem_cons_self _ _) hm
      have hka := habs k (List.mem_cons_self _ _) hm
      have hstep := rangePaths_sjson E hs values paths o hstrategy k path hfind hkp doc hka
      cases hkv : keyValue E values o k path.Type_ with
      | error e' =>
        rw [hkv] at hstep
        simp only [rangeValues, hstep, applyKeyValue, Except.error.injEq] at h
        subst h
        exact ⟨k, List.mem_cons_self _ _, path, hfind, hkv⟩
      | ok r =>
        rw [hkv] at hstep
        cases r with
        | none =>
          simp only [rangeValues, hstep, applyKeyValue] at h
          exact hlift (ih doc hplain' (fun k' hk' => habs k' (List.mem_cons_of_mem _ hk'))
            htail h)
        | some v =>
          obtain ⟨_, hsegs, _⟩ := plainName_chars k hkp
          have habs1 : ∀ k' ∈ ks, matchesPath paths k' = true →
              pathAbsent (splitDots [] k'.data) (putDoc (splitDots [] k.data) v doc) = true := by
            intro k' hk' hm'
            exact pathAbsent_putDoc _ v doc _ hsegs hka
              (habs k' (List.mem_cons_of_mem _ hk') hm') (hhead k' hk' hm hm').1
              (hhead k' hk' hm hm').2
          simp only [rangeValues, hstep, applyKeyValue] at h
          exact hlift (ih (putDoc (splitDots [] k.data) v doc) hplain' habs1 htail h)

/-- The whole of `decodeURLValues` on a form whose keys are distinct and whose
matched keys are plain names that do not collide: it fails with the error of one
of its keys, or it returns a document that holds, at the path of every matched
key, the value that key contributes. -/
theorem decodeURLValues_collision_free (E : Env) (hs : E.SetBytes = sjsonSetBytes)
    (values : Values) (paths : List Path) (o : httpDecoderOptions)
    (hstrategy : definedStrategy o)
    (hnodup : (Values.keys values).Nodup)
    (hplain : ∀ k ∈ Values.keys values, matchesPath paths k = true → plainName k = true)
    (hnocollision : ∀ k₁ ∈ Values.keys values, ∀ k₂ ∈ Values.keys values,
      matchesPath paths k₁ = true → matchesPath paths k₂ = true → k₁ ≠ k₂ →
      (splitDots [] k₁.data).isPrefixOf (splitDots [] k₂.data) = false) :
    (∃ e, decodeURLValues E values paths o = .error e
        ∧ ∃ k ∈ Values.keys values, ∃ path,
            paths.find? (fun p => decide (k = p.Name)) = some path
              ∧ keyValue E values o k path.Type_ = .error e)
    ∨ (∃ doc, decodeURLValues E values paths o = .ok (some doc)
        ∧ (∀ k ∈ Values.keys values, ∀ path,
            paths.find? (fun p => decide (k = p.Name)) = some path →
            ∃ r, keyValue E values o k path.Type_ = .ok r)
        ∧ ∀ k ∈ Values.keys values, ∀ path v,
            paths.find? (fun p => decide (k = p.Name)) = some path →
            keyValue E values o k path.Type_ = .ok (some v) → (∀ ms, v ≠ .object ms) →
            getPath (splitDots [] k.data) doc = some v) := by
  have hpair := keys_pairwise_of_nodup paths (Values.keys values) hnodup hnocollision
  have habs : ∀ k ∈ Values.keys values, matchesPath paths k = true →
      pathAbsent (splitDots [] k.data) (.object []) = true :=
    fun k _ _ => pathAbsent_empty_object _ (splitDots_ne_nil [] k.data)
  have h1 := rangeValues_sjson E hs values paths o hstrategy (Values.keys values) (.object [])
    hplain habs hpair
  have hd : decodeURLValues E values paths o
      = rangeValues E values paths o (Values.keys values) (some (.object [])) := rfl
  cases hf : (Values.keys values).any (keyFails E values paths o) with
  | true =>
    obtain ⟨e, he⟩ := h1.1 hf
    exact Or.inl ⟨e, hd.trans he, rangeValues_error_of_key E hs values paths o hstrategy
      (Values.keys values) (.object []) hplain habs hpair e he⟩
  | false =>
    refine Or.inr ⟨_, hd.trans (h1.2 hf), ?_, ?_⟩
    · intro k hk path hfind
      rw [List.any_eq_false] at hf
      have hk' := hf k hk
      simp only [keyFails, hfind] at hk'
      cases hkv : keyValue E values o k path.Type_ with
      | error e =>
        rw [hkv] at hk'
        exact absurd rfl hk'
      | ok r => exact ⟨r, rfl⟩
    · intro k hk path v hfind hkv hv
      have hmem : (splitDots [] k.data, v) ∈ (Values.keys values).filterMap
          (keyPut E values paths o) := by
        rw [List.mem_filterMap]
        exact ⟨k, hk, by simp only [keyPut, hfind, hkv]⟩
      exact getPath_putAll_of_mem _ _
        (fun pv hpv => (keyPut_paths E values paths o _ hplain pv hpv).1)
        (fun pv hpv => (keyPut_paths E values paths o _ hplain pv hpv).2)
        (keyPut_pairwise E values paths o _ hpair) _ v hmem hv

theorem coerceFloats_ignore (E : Env) (o : httpDecoderOptions) (key : String)
    (hstrategy : o.handleParseErrors = ParseErrorIgnoreConversionErrors)
    (vs : List String) (k : Nat) :
    coerceFloats E o key k vs = .ok (vs.map (elementOrRaw E .floats)) := by
  induction vs generalizing k with
  | nil => rfl
  | cons v vs ih =>
    simp only [coerceFloats, List.map, elementOrRaw, ih, hstrategy, if_true]
    split <;> rename_i heq <;> simp [heq, Except.map]

theorem coerceBools_ignore (E : Env) (o : httpDecoderOptions) (key : String)
    (hstrategy : o.handleParseErrors = ParseErrorIgnoreConversionErrors)
    (vs : List String) (k : Nat) :
    coerceBools E o key k vs = .ok (vs.map (elementOrRaw E .bools)) := by
  induction vs generalizing k with
  | nil => rfl
  | cons v vs ih =>
    simp only [coerceBools, List.map, elementOrRaw, ih, hstrategy, if_true]
    split <;> rename_i heq <;> simp [heq, Except.map]

/-- What an array-of-number or array-of-boolean key with a non-empty value list
contributes under `IgnoreConversionErrors`. -/
theorem keyValue_ignore_array (E : Env) (values : Values) (o : httpDecoderOptions)
    (hstrategy : o.handleParseErrors = ParseErrorIgnoreConversionErrors)
    (key : String) (t : PathType) (ht : t = .floats ∨ t = .bools)
    (hne : Values.index values key ≠ []) :
    keyValue E values o key t
      = .ok (some (.array ((Values.index values key).map
          (fun v => (elementOrRaw E t v).toJson)))) := by
  rcases ht with ht | ht
  · subst ht
    simp only [keyValue, coerceFloats_ignore E o key hstrategy]
    cases hv : Values.index values key with
    | nil => exact absurd hv hne
    | cons v vs => simp [elementsValue, List.map_map]
  · subst ht
    simp only [keyValue, coerceBools_ignore E o key hstrategy]
    cases hv : Values.index values key with
    | nil => exact absurd hv hne
    | cons v vs => simp [elementsValue, List.map_map]

/-! ### C4: array fields of whole forms under IgnoreConversionErrors -/

/-- C4 (counterexample): schema paths `a : array of number` and `a.c : string`,
the form `a=1&a=x&a.c=q`, the default strategy `IgnoreConversionErrors`.  Visiting
`a.c` first, the canonical body holds at `a` the object `{"c":"q","0":1,"1":"x"}`,
not an array of two elements; visiting `a` first, the decoder returns an error.
The amended statement asks for plain names and non-empty lists because of the
three forms that follow: `a.1=5&a.b=q` against `a.1 : array of number`,
`a.b : string` returns an error, `a=1&a=x&b#=1` against `a : array of number`,
`b# : number` loses the document with the array of `a`, and the empty list of
`a` leaves no array at `a`. -/
theorem array_field_is_not_an_array_when_paths_collide :
    (newHTTPDecoderOptions []).handleParseErrors = ParseErrorIgnoreConversionErrors
    ∧ decodeURLValues goEnv [("a.c", ["q"]), ("a", ["1", "x"])]
        [⟨"a", .floats⟩, ⟨"a.c", .string⟩] (newHTTPDecoderOptions [])
      = .ok (some (.object [("a", .object [("c", .string "q"),
          ("0", .number (.finite false 1 0)), ("1", .string "x")])]))
    ∧ getPath (splitDots [] "a".data) (.object [("a", .object [("c", .string "q"),
          ("0", .number (.finite false 1 0)), ("1", .string "x")])])
      ≠ some (.array ((["1", "x"] : List String).map
          (fun v => (elementOrRaw goEnv .floats v).toJson)))
    ∧ (∃ e, decodeURLValues goEnv [("a", ["1", "x"]), ("a.c", ["q"])]
          [⟨"a", .floats⟩, ⟨"a.c", .string⟩] (newHTTPDecoderOptions []) = .error e
        ∧ e.isBadRequest = true)
    ∧ (∃ e, decodeURLValues goEnv [("a.1", ["5"]), ("a.b", ["q"])]
          [⟨"a.1", .floats⟩, ⟨"a.b", .string⟩] (newHTTPDecoderOptions []) = .error e
        ∧ e.isBadRequest = true)
    ∧ decodeURLValues goEnv [("a", ["1", "x"]), ("b#", ["1"])]
        [⟨"a", .floats⟩, ⟨"b#", .float⟩] (newHTTPDecoderOptions [])
      = .ok none
    ∧ decodeURLValues goEnv [("a", [])] [⟨"a", .floats⟩] (newHTTPDecoderOptions [])
      = .ok (some (.object [])) := by
  refine ⟨rfl, by decide, by decide, ⟨.herodot (ErrBadRequest.WithReasonf
      "Unable to type assert values from HTTP Post Body: cannot set array element for non-numeric key c"),
      by decide, by decide⟩, ⟨.herodot (ErrBadRequest.WithReasonf
      "Unable to type assert values from HTTP Post Body: cannot set array element for non-numeric key b"),
      by decide, by decide⟩, by decide, by decide⟩

/-- C4 (amended): under `IgnoreConversionErrors` and with sjson's path semantics,
take a whole form (any number of keys, one entry per key, no empty value list)
whose matched keys are dotted names of plain member names, no matched key's path
being a prefix of another's.  Then `decodeURLValues` returns a document and no
error, and for every key of the form whose first schema path of that name is an
array-of-number or array-of-boolean path, the document holds at that key's path
the array with one element per raw value, in the order of the value list: the
parsed value where the raw value parses, the raw string where it does not. -/
theorem ignore_keeps_array_fields_of_collision_free_forms
    (E : Env) (values : Values) (paths : List Path) (o : httpDecoderOptions)
    (hs : E.SetBytes = sjsonSetBytes)
    (hstrategy : o.handleParseErrors = ParseErrorIgnoreConversionErrors)
    (hnodup : (Values.keys values).Nodup)
    (hnonempty : ∀ kv ∈ values, kv.2 ≠ [])
    (hplain : ∀ k ∈ Values.keys values, matchesPath paths k = true → plainName k = true)
    (hnocollision : ∀ k₁ ∈ Values.keys values, ∀ k₂ ∈ Values.keys values,
      matchesPath paths k₁ = true → matchesPath paths k₂ = true → k₁ ≠ k₂ →
      (splitDots [] k₁.data).isPrefixOf (splitDots [] k₂.data) = false) :
    ∃ doc, decodeURLValues E values paths o = .ok (some doc)
      ∧ ∀ key ∈ Values.keys values, ∀ path,
          paths.find? (fun p => decide (key = p.Name)) = some path →
          (path.Type_ = .floats ∨ path.Type_ = .bools) →
          getPath (splitDots [] key.data) doc
            = some (.array ((Values.index values key).map
                (fun v => (elementOrRaw E path.Type_ v).toJson))) := by
  have hindex : ∀ k ∈ Values.keys values, Values.index values k ≠ [] := by
    intro k hk
    obtain ⟨vs, hmem, hidx⟩ := Values.index_of_mem_keys values k hk
    rw [hidx]
    exact hnonempty (k, vs) hmem
  rcases decodeURLValues_collision_free E hs values paths o (Or.inl hstrategy) hnodup hplain
    hnocollision with ⟨e, _, k, hk, path, _, hkv⟩ | ⟨doc, hdoc, _, hget⟩
  · have hret := (keyValue_error E values o (Or.inl hstrategy) k path.Type_ e
      (hindex k hk) hkv).1
    rw [hstrategy] at hret
    exact absurd hret (by decide)
  · refine ⟨doc, hdoc, fun key hkey path hfind htype => ?_⟩
    exact hget key hkey path _ hfind
      (keyValue_ignore_array E values o hstrategy key path.Type_ htype (hindex key hkey))
      (fun ms h => Json.noConfusion h)

/-- C4 (witness): schema `a.b : array of number`, `c : array of boolean`,
`n : number`; form `zz=q&c=true&c=maybe&a.b=1&a.b=x&a.b=2.5&n=7`, four keys of
which the array keys are neither first nor alone.  The canonical body is
`{"c":[true,"maybe"],"a":{"b":[1,"x",2.5]},"n":7}`. -/
theorem ignore_keeps_array_fields_of_collision_free_forms_witness :
    decodeURLValues goEnv
        [("zz", ["q"]), ("c", ["true", "maybe"]), ("a.b", ["1", "x", "2.5"]), ("n", ["7"])]
        [⟨"a.b", .floats⟩, ⟨"c", .bools⟩, ⟨"n", .float⟩] (newHTTPDecoderOptions [])
      = .ok (some (.object [
          ("c", .array [.bool true, .string "maybe"]),
          ("a", .object [("b", .array
            [.number (.finite false 1 0), .string "x", .number (.finite false 25 (-1))])]),
          ("n", .number (.finite false 7 0))]))
    ∧ ∃ doc, decodeURLValues goEnv
          [("zz", ["q"]), ("c", ["true", "maybe"]), ("a.b", ["1", "x", "2.5"]), ("n", ["7"])]
          [⟨"a.b", .floats⟩, ⟨"c", .bools⟩, ⟨"n", .float⟩] (newHTTPDecoderOptions [])
        = .ok (some doc)
      ∧ ∀ key ∈ Values.keys
            [("zz", ["q"]), ("c", ["true", "maybe"]), ("a.b", ["1", "x", "2.5"]), ("n", ["7"])],
          ∀ path,
          List.find? (fun p => decide (key = p.Name))
              [(⟨"a.b", .floats⟩ : Path), ⟨"c", .bools⟩, ⟨"n", .float⟩] = some path →
          (path.Type_ = .floats ∨ path.Type_ = .bools) →
          getPath (splitDots [] key.data) doc
            = some (.array ((Values.index
                [("zz", ["q"]), ("c", ["true", "maybe"]), ("a.b", ["1", "x", "2.5"]),
                  ("n", ["7"])] key).map
                (fun v => (elementOrRaw goEnv path.Type_ v).toJson))) :=
  ⟨by decide,
   ignore_keeps_array_fields_of_collision_free_forms goEnv
    [("zz", ["q"]), ("c", ["true", "maybe"]), ("a.b", ["1", "x", "2.5"]), ("n", ["7"])]
    [⟨"a.b", .floats⟩, ⟨"c", .bools⟩, ⟨"n", .float⟩] (newHTTPDecoderOptions []) rfl rfl
    (by decide) (by decide) (by decide) (by decide)⟩

/-! ### Whole bodies that follow the form format -/

theorem Values.keys_Set (values : Values) (k x : String) :
    Values.keys (Values.Set values k x)
      = if k ∈ Values.keys values then Values.keys values else Values.keys values ++ [k] := by
  induction values with
  | nil => simp [Values.Set, Values.keys]
  | cons kv rest ih =>
    obtain ⟨a, vs⟩ := kv
    simp only [Values.keys] at ih ⊢
    by_cases hak : a = k
    · subst hak
      simp [Values.Set]
    · have hka : ¬ k = a := fun h => hak h.symm
      simp only [Values.Set, hak, if_false, List.map, List.mem_cons, hka, false_or, ih]
      split <;> simp

theorem Values.mem_Set (values : Values) (k x : String) (kv : String × List String)
    (h : kv ∈ Values.Set values k x) : kv ∈ values ∨ kv = (k, [x]) := by
  induction values with
  | nil =>
    simp only [Values.Set, List.mem_singleton] at h
    exact Or.inr h
  | cons e rest ih =>
    obtain ⟨a, vs⟩ := e
    by_cases hak : a = k
    · subst hak
      simp only [Values.Set, if_true, List.mem_cons] at h
      rcases h with h | h
      · exact Or.inr h
      · exact Or.inl (List.mem_cons_of_mem _ h)
    · simp only [Values.Set, hak, if_false, List.mem_cons] at h
      rcases h with h | h
      · exact Or.inl (h ▸ List.mem_cons_self _ _)
      · rcases ih h with h' | h'
        · exact Or.inl (List.mem_cons_of_mem _ h')
        · exact Or.inr h'

/-- The flattened members form a map: one entry per key, no empty value list,
and no key that is not a member's key. -/
theorem forEachSet_map (E : Env) (members : List (String × Json)) (values : Values)
    (hnodup : (Values.keys values).Nodup) (hnonempty : ∀ kv ∈ values, kv.2 ≠ []) :
    (Values.keys (forEachSet E members values)).Nodup
      ∧ (∀ kv ∈ forEachSet E members values, kv.2 ≠ [])
      ∧ ∀ k ∈ Values.keys (forEachSet E members values),
          k ∈ Values.keys values ∨ ∃ m ∈ members, m.1 = k := by
  induction members generalizing values with
  | nil => exact ⟨hnodup, hnonempty, fun k hk => Or.inl hk⟩
  | cons m members ih =>
    obtain ⟨key, v⟩ := m
    have hn : (Values.keys (Values.Set values key (ResultString E v))).Nodup := by
      rw [Values.keys_Set]
      split
      · exact hnodup
      · rename_i hnot
        rw [List.nodup_append]
        refine ⟨hnodup, List.nodup_singleton _, ?_⟩
        intro a ha hb
        rw [List.mem_singleton] at hb
        subst hb
        exact hnot ha
    have hne : ∀ kv ∈ Values.Set values key (ResultString E v), kv.2 ≠ [] := by
      intro kv hkv
      rcases Values.mem_Set values key _ kv hkv with h | h
      · exact hnonempty kv h
      · rw [h]
        simp
    obtain ⟨h1, h2, h3⟩ := ih (Values.Set values key (ResultString E v)) hn hne
    refine ⟨h1, h2, fun k hk => ?_⟩
    rcases h3 k hk with h | ⟨m, hm, hmk⟩
    · rw [Values.keys_Set] at h
      split at h
      · exact Or.inl h
      · rw [List.mem_append, List.mem_singleton] at h
        rcases h with h | h
        · exact Or.inl h
        · exact Or.inr ⟨(key, v), List.mem_cons_self _ _, h.symm⟩
    · exact Or.inr ⟨m, List.mem_cons_of_mem _ hm, hmk⟩

/-- Once the body is read and parsed, `decodeJSONForm` is `decodeInterim`
followed by the unmarshalling of the canonical body and its validation. -/
theorem decodeJSONForm_of_parsed (E : Env) (r : Request) (destination : E.Dest)
    (o : httpDecoderOptions) (compiler : Compiler) (paths : List Path) (interim : Json)
    (hc : o.jsonSchemaCompiler = some compiler)
    (hp : E.ListPathsWithRecursion o.jsonSchemaRef compiler o.maxCircularReferenceDepth
      = .ok paths)
    (hb : r.Body.failure = none) (hd : E.DecodeInterim r.Body.unread = .ok interim) :
    ∃ r', decodeJSONForm E r destination o
      = (r',
          match decodeInterim E interim paths o with
          | .error err => (destination, some err)
          | .ok raw =>
            match E.Unmarshal (.canonical raw) destination with
            | (d, some err) => (d, some (.plain err))
            | (d, none) => (d, validatePayload E (.canonical raw) o)) := by
  have hrest : ∀ r' : Request,
      (match decodeInterim E interim paths o with
        | .error err => (r', destination, some err)
        | .ok raw =>
          match E.Unmarshal (.canonical raw) destination with
          | (destination, some err) => (r', destination, some (.plain err))
          | (destination, none) =>
            match validatePayload E (.canonical raw) o with
            | some err => (r', destination, some err)
            | none => (r', destination, none))
      = (r',
          match decodeInterim E interim paths o with
          | .error err => (destination, some err)
          | .ok raw =>
            match E.Unmarshal (.canonical raw) destination with
            | (d, some err) => (d, some (.plain err))
            | (d, none) => (d, validatePayload E (.canonical raw) o)) := by
    intro r'
    cases decodeInterim E interim paths o with
    | error err => rfl
    | ok raw =>
      simp only
      rcases hu : E.Unmarshal (.canonical raw) destination with ⟨d, _ | err⟩
      · simp only
        cases validatePayload E (.canonical raw) o <;> rfl
      · rfl
  by_cases hk : o.keepRequestBody = true
  · refine ⟨{ r with Body := NopCloser r.Body.unread }, ?_⟩
    rw [← hrest]
    simp [decodeJSONForm, hc, hp, requestBody, hk, ReadAll, hb, readReader, NopCloser, hd]
  · refine ⟨{ r with Body := { r.Body with unread := "" } }, ?_⟩
    rw [← hrest]
    simp [decodeJSONForm, hc, hp, requestBody, hk, ReadAll, hb, readReader, hd]

/-- Lines 302 to 305: a body the JSON decoder does not accept makes
`decodeJSONForm` return the decoder's error as it is, the destination untouched. -/
theorem decodeJSONForm_of_undecodable (E : Env) (r : Request) (destination : E.Dest)
    (o : httpDecoderOptions) (compiler : Compiler) (paths : List Path) (msg : String)
    (hc : o.jsonSchemaCompiler = some compiler)
    (hp : E.ListPathsWithRecursion o.jsonSchemaRef compiler o.maxCircularReferenceDepth
      = .ok paths)
    (hb : r.Body.failure = none) (hd : E.DecodeInterim r.Body.unread = .error msg) :
    ∃ r', decodeJSONForm E r destination o = (r', destination, some (.plain msg)) := by
  by_cases hk : o.keepRequestBody = true
  · refine ⟨{ r with Body := NopCloser r.Body.unread }, ?_⟩
    simp [decodeJSONForm, hc, hp, requestBody, hk, ReadAll, hb, readReader, NopCloser, hd]
  · refine ⟨{ r with Body := { r.Body with unread := "" } }, ?_⟩
    simp [decodeJSONForm, hc, hp, requestBody, hk, ReadAll, hb, readReader, hd]

/-- What a key contributes depends on the form through the key's value list only. -/
theorem keyValue_congr (E : Env) (values values' : Values) (o : httpDecoderOptions)
    (key : String) (t : PathType)
    (h : Values.index values key = Values.index values' key) :
    keyValue E values o key t = keyValue E values' o key t := by
  cases t <;> simp only [keyValue, Values.Get, h]

/-! ### C8: JSON that follows the form format -/

/-- C8 (counterexample): schema paths `foo.bar : string` and `foo : string`, and
a body with the two members `"foo.bar":"baz"` and `"foo":"q"`.  Visiting
`foo.bar` first, the canonical body is `{"foo":"q"}` and holds nothing at
`foo.bar`; visiting `foo` first, it is `{"foo":{"bar":"baz"}}` and does not hold
`"q"` at `foo`: one of the two string members is not where its dotted path
names.  Under `ReturnOnConversionErrors` the members `"foo.bar":"baz"` and
`"n":"x"` against `foo.bar : string`, `n : number` give an error in either order,
and no canonical body at all.  The amended statement asks for plain names
because of the last body: the members `"a.1":"x"` and `"a.b":"q"` against
`a.1 : string`, `a.b : string` give an error under `IgnoreConversionErrors`. -/
theorem flattened_json_member_is_lost_among_members :
    decodeInterim goEnv (.object [("foo.bar", .string "baz"), ("foo", .string "q")])
        [⟨"foo.bar", .string⟩, ⟨"foo", .string⟩] (newHTTPDecoderOptions [])
      = .ok (some (.object [("foo", .string "q")]))
    ∧ getPath (splitDots [] "foo.bar".data) (.object [("foo", .string "q")]) = none
    ∧ decodeInterim goEnv (.object [("foo", .string "q"), ("foo.bar", .string "baz")])
        [⟨"foo.bar", .string⟩, ⟨"foo", .string⟩] (newHTTPDecoderOptions [])
      = .ok (some (.object [("foo", .object [("bar", .string "baz")])]))
    ∧ getPath (splitDots [] "foo".data) (.object [("foo", .object [("bar", .string "baz")])])
      ≠ some (.string "q")
    ∧ decodeInterim goEnv (.object [("foo.bar", .string "baz"), ("n", .string "x")])
        [⟨"foo.bar", .string⟩, ⟨"n", .float⟩]
        (newHTTPDecoderOptions
          [HTTPDecoderSetIgnoreParseErrorsStrategy ParseErrorReturnOnConversionErrors])
      = .error (.herodot
          ((((ErrBadRequest.WithReasonf "Expected value to be a number.").WithDetail
            "parse_error" "strconv.ParseFloat: parsing \"x\": invalid syntax").WithDetail
            "name" "n").WithDetail
            "value" "x"))
    ∧ decodeInterim goEnv (.object [("n", .string "x"), ("foo.bar", .string "baz")])
        [⟨"foo.bar", .string⟩, ⟨"n", .float⟩]
        (newHTTPDecoderOptions
          [HTTPDecoderSetIgnoreParseErrorsStrategy ParseErrorReturnOnConversionErrors])
      = .error (.herodot
          ((((ErrBadRequest.WithReasonf "Expected value to be a number.").WithDetail
            "parse_error" "strconv.ParseFloat: parsing \"x\": invalid syntax").WithDetail
            "name" "n").WithDetail
            "value" "x"))
    ∧ (∃ e, decodeInterim goEnv (.object [("a.1", .string "x"), ("a.b", .string "q")])
          [⟨"a.1", .string⟩, ⟨"a.b", .string⟩] (newHTTPDecoderOptions []) = .error e
        ∧ e.isBadRequest = true) := by
  refine ⟨by decide, by decide, by decide, by decide, by decide, by decide,
    ⟨.herodot (ErrBadRequest.WithReasonf
      "Unable to type assert values from HTTP Post Body: cannot set array element for non-numeric key b"),
      by decide, by decide⟩⟩

/-- C8 (amended): with sjson's path semantics and one of the three strategies,
take a whole object body (any number of members) whose member keys that match a
schema path are dotted names of plain member names, no matched key's path being
a prefix of another's, and any order `visited` in which the flattened map is
ranged over.  Then `decodeURLValues` either fails with the bad-request error of
a member that does not convert, which happens under `ReturnOnConversionErrors`
only, or returns a canonical body that holds, for every member whose key is the
name of a (first-matching) string-typed schema path, the string value of the
last member of that key at the nested location its dotted path names; the string
value of a JSON string is the string itself.  Lines 307 to 321 are this for the
order in which the members were inserted, and reject a parsed body that is not an
object with a bad-request error.  For a request whose body is read and parsed,
`decodeJSONForm` returns that error, or unmarshals and validates that canonical
body; `Decode` calls `decodeJSONForm` for a JSON request once
`HTTPDecoderJSONFollowsFormFormat` has set the flag. -/
theorem flattened_json_members_of_collision_free_bodies
    (E : Env) (paths : List Path) (o : httpDecoderOptions) (members : List (String × Json))
    (visited : Values)
    (hs : E.SetBytes = sjsonSetBytes) (hstrategy : definedStrategy o)
    (hvisited : visited.Perm (forEachSet E members []))
    (hplain : ∀ m ∈ members, matchesPath paths m.1 = true → plainName m.1 = true)
    (hnocollision : ∀ m₁ ∈ members, ∀ m₂ ∈ members,
      matchesPath paths m₁.1 = true → matchesPath paths m₂.1 = true → m₁.1 ≠ m₂.1 →
      (splitDots [] m₁.1.data).isPrefixOf (splitDots [] m₂.1.data) = false) :
    ((∃ e, decodeURLValues E visited paths o = .error e
          ∧ e.isBadRequest = true
          ∧ o.handleParseErrors = ParseErrorReturnOnConversionErrors
          ∧ ∃ m ∈ members, ∃ path,
              paths.find? (fun p => decide (m.1 = p.Name)) = some path
                ∧ keyValue E (forEachSet E members []) o m.1 path.Type_ = .error e)
      ∨ ∃ doc, decodeURLValues E visited paths o = .ok (some doc)
          ∧ ∀ (pre post : List (String × Json)) (key : String) (v : Json) (path : Path),
              members = pre ++ (key, v) :: post → (∀ m ∈ post, m.1 ≠ key) →
              paths.find? (fun p => decide (key = p.Name)) = some path →
              path.Type_ = .string →
              getPath (splitDots [] key.data) doc = some (.string (ResultString E v)))
    ∧ decodeInterim E (.object members) paths o
        = decodeURLValues E (forEachSet E members []) paths o
    ∧ (∀ s, ResultString E (.string s) = s)
    ∧ (∀ interim, (∀ ms, interim ≠ .object ms) →
        ∃ err, decodeInterim E interim paths o = .error err ∧ err.isBadRequest = true)
    ∧ (∀ (r : Request) (destination : E.Dest) (compiler : Compiler) (interim : Json),
        o.jsonSchemaCompiler = some compiler →
        E.ListPathsWithRecursion o.jsonSchemaRef compiler o.maxCircularReferenceDepth
          = .ok paths →
        r.Body.failure = none → E.DecodeInterim r.Body.unread = .ok interim →
        ∃ r', decodeJSONForm E r destination o
          = (r',
              match decodeInterim E interim paths o with
              | .error err => (destination, some err)
              | .ok raw =>
                match E.Unmarshal (.canonical raw) destination with
                | (d, some err) => (d, some (.plain err))
                | (d, none) => (d, validatePayload E (.canonical raw) o)))
    ∧ (∀ (r : Request) (destination : E.Dest) (opts : List HTTPDecoderOption),
        validateRequest E r (newHTTPDecoderOptions (opts ++ [HTTPDecoderJSONFollowsFormFormat]))
          = none →
        HasContentType E r [httpContentTypeJSON] = true →
        Decode E r destination (opts ++ [HTTPDecoderJSONFollowsFormFormat])
          = decodeJSONForm E r destination
              (newHTTPDecoderOptions (opts ++ [HTTPDecoderJSONFollowsFormFormat]))) := by
  obtain ⟨hnodup, hne, hsub⟩ := forEachSet_map E members [] List.nodup_nil
    (fun kv hkv => absurd hkv (List.not_mem_nil kv))
  have hkeys : (Values.keys visited).Perm (Values.keys (forEachSet E members [])) :=
    hvisited.map Prod.fst
  have hnodup' : (Values.keys visited).Nodup := hkeys.nodup_iff.mpr hnodup
  have hidx : ∀ k, Values.index visited k = Values.index (forEachSet E members []) k :=
    fun k => Values.index_perm visited _ hvisited hnodup' k
  have hmember : ∀ k ∈ Values.keys visited, ∃ m ∈ members, m.1 = k := by
    intro k hk
    rcases hsub k (hkeys.mem_iff.mp hk) with h | h
    · exact absurd h (List.not_mem_nil k)
    · exact h
  have hplain' : ∀ k ∈ Values.keys visited,
      matchesPath paths k = true → plainName k = true := by
    intro k hk hm
    obtain ⟨m, hmem, rfl⟩ := hmember k hk
    exact hplain m hmem hm
  have hnocollision' : ∀ k₁ ∈ Values.keys visited, ∀ k₂ ∈ Values.keys visited,
      matchesPath paths k₁ = true → matchesPath paths k₂ = true → k₁ ≠ k₂ →
      (splitDots [] k₁.data).isPrefixOf (splitDots [] k₂.data) = false := by
    intro k₁ hk₁ k₂ hk₂ hm₁ hm₂ hneq
    obtain ⟨m₁, hmem₁, rfl⟩ := hmember k₁ hk₁
    obtain ⟨m₂, hmem₂, rfl⟩ := hmember k₂ hk₂
    exact hnocollision m₁ hmem₁ m₂ hmem₂ hm₁ hm₂ hneq
  have hindex : ∀ k ∈ Values.keys visited, Values.index visited k ≠ [] := by
    intro k hk
    obtain ⟨vs, hmem, hvs⟩ := Values.index_of_mem_keys _ k hk
    rw [hvs]
    exact hne (k, vs) (hvisited.mem_iff.mp hmem)
  refine ⟨?_, rfl, fun s => rfl, ?_, ?_, ?_⟩
  · rcases decodeURLValues_collision_free E hs visited paths o hstrategy
      hnodup' hplain' hnocollision' with ⟨e, he, k, hk, path, hfind, hkv⟩ | ⟨doc, hdoc, _, hget⟩
    · have herr := keyValue_error E _ o hstrategy k path.Type_ e (hindex k hk) hkv
      obtain ⟨m, hmem, rfl⟩ := hmember k hk
      rw [keyValue_congr E visited (forEachSet E members []) o m.1 path.Type_ (hidx m.1)] at hkv
      exact Or.inl ⟨e, he, herr.2, herr.1, m, hmem, path, hfind, hkv⟩
    · refine Or.inr ⟨doc, hdoc, ?_⟩
      intro pre post key v path hmem hpost hfind hT
      subst hmem
      have hkidx : Values.index visited key = [ResultString E v] :=
        (hidx key).trans (index_forEachSet E pre post key v [] hpost)
      have hk : key ∈ Values.keys visited :=
        Values.mem_keys_of_index _ key (by rw [hkidx]; simp)
      have hkv : keyValue E visited o key path.Type_
          = .ok (some (.string (ResultString E v))) := by
        rw [hT]
        simp only [keyValue, Values.Get, hkidx]
      exact hget key hk path _ hfind hkv (fun ms h => Json.noConfusion h)
  · intro interim hno
    cases interim with
    | object ms => exact absurd rfl (hno ms)
    | null => exact ⟨_, rfl, rfl⟩
    | bool b => exact ⟨_, rfl, rfl⟩
    | number f => exact ⟨_, rfl, rfl⟩
    | string str => exact ⟨_, rfl, rfl⟩
    | array xs => exact ⟨_, rfl, rfl⟩
  · intro r destination compiler interim hc hp hb hd
    exact decodeJSONForm_of_parsed E r destination o compiler paths interim hc hp hb hd
  · intro r destination opts hv hj
    have hf : (newHTTPDecoderOptions (opts ++ [HTTPDecoderJSONFollowsFormFormat])).expectJSONFlattened
        = true := by
      simp only [newHTTPDecoderOptions, applyOptions_append]
      rfl
    simp [Decode, hv, hj, hf]

/-- C8 (witness): schema `foo.bar : string`, `n : number`, and the body
`{"foo.bar":"old","n":"5","foo.bar":"baz","extra":"q"}`, four members, the
flattened map visited from `n`.  The canonical body is
`{"n":5,"foo":{"bar":"baz"}}`, and `{"foo":{"bar":"baz"},"n":5}` in the order of
insertion; alone, the member `"foo.bar":"baz"` gives `{"foo":{"bar":"baz"}}`. -/
theorem flattened_json_members_of_collision_free_bodies_witness :
    decodeURLValues goEnv [("n", ["5"]), ("extra", ["q"]), ("foo.bar", ["baz"])]
        [⟨"foo.bar", .string⟩, ⟨"n", .float⟩] (newHTTPDecoderOptions [])
      = .ok (some (.object [("n", .number (.finite false 5 0)),
          ("foo", .object [("bar", .string "baz")])]))
    ∧ decodeInterim goEnv (.object [("foo.bar", .string "old"), ("n", .string "5"),
          ("foo.bar", .string "baz"), ("extra", .string "q")])
        [⟨"foo.bar", .string⟩, ⟨"n", .float⟩] (newHTTPDecoderOptions [])
      = .ok (some (.object [("foo", .object [("bar", .string "baz")]),
          ("n", .number (.finite false 5 0))]))
    ∧ decodeInterim goEnv (.object [("foo.bar", .string "baz")])
        [⟨"foo.bar", .string⟩] (newHTTPDecoderOptions [])
      = .ok (some (.object [("foo", .object [("bar", .string "baz")])]))
    ∧ ((∃ e, decodeURLValues goEnv [("n", ["5"]), ("extra", ["q"]), ("foo.bar", ["baz"])]
            [⟨"foo.bar", .string⟩, ⟨"n", .float⟩] (newHTTPDecoderOptions []) = .error e
          ∧ e.isBadRequest = true
          ∧ (newHTTPDecoderOptions []).handleParseErrors = ParseErrorReturnOnConversionErrors
          ∧ ∃ m ∈ [("foo.bar", Json.string "old"), ("n", .string "5"),
              ("foo.bar", .string "baz"), ("extra", .string "q")], ∃ path,
              List.find? (fun p => decide (m.1 = p.Name))
                  [(⟨"foo.bar", .string⟩ : Path), ⟨"n", .float⟩] = some path
                ∧ keyValue goEnv (forEachSet goEnv [("foo.bar", .string "old"),
                    ("n", .string "5"), ("foo.bar", .string "baz"), ("extra", .string "q")] [])
                    (newHTTPDecoderOptions []) m.1 path.Type_ = .error e)
      ∨ ∃ doc, decodeURLValues goEnv [("n", ["5"]), ("extra", ["q"]), ("foo.bar", ["baz"])]
            [⟨"foo.bar", .string⟩, ⟨"n", .float⟩] (newHTTPDecoderOptions []) = .ok (some doc)
          ∧ ∀ (pre post : List (String × Json)) (key : String) (v : Json) (path : Path),
              [("foo.bar", Json.string "old"), ("n", .string "5"),
                ("foo.bar", .string "baz"), ("extra", .string "q")]
                = pre ++ (key, v) :: post →
              (∀ m ∈ post, m.1 ≠ key) →
              List.find? (fun p => decide (key = p.Name))
                  [(⟨"foo.bar", .string⟩ : Path), ⟨"n", .float⟩] = some path →
              path.Type_ = .string →
              getPath (splitDots [] key.data) doc = some (.string (ResultString goEnv v))) :=
  ⟨by decide, by decide, by decide,
   (flattened_json_members_of_collision_free_bodies goEnv
      [⟨"foo.bar", .string⟩, ⟨"n", .float⟩] (newHTTPDecoderOptions [])
      [("foo.bar", .string "old"), ("n", .string "5"), ("foo.bar", .string "baz"),
        ("extra", .string "q")]
      [("n", ["5"]), ("extra", ["q"]), ("foo.bar", ["baz"])]
      rfl (Or.inl rfl) (by decide) (by decide) (by decide)).1⟩

end decoderx
